import Mathlib

/-!
# FencedFilter: a shallow embedding of the scanner and of the highlight index

The development follows `fencedfilter.cpp`, `hlindex.cpp` and `hlnode.cpp`.

Conventions of the embedding.

* A C string is the list of its characters before the terminating NUL, so the
  lists handed to the functions below hold no NUL character.  A pointer into a
  string is the suffix of the list that starts at the pointer; `*p` is the head
  of that suffix, NUL when the suffix is empty.
* The global variables of `fencedfilter.cpp`, the static members of `HLIndex`
  and the static read buffer of `HLParser` are the fields of `Scanner`; every
  function takes the record and returns the updated record.  `stdout` and
  `stderr` are the fields `out` and `err`.
* The tree of `HLNode`s is an arena: a list of nodes, a pointer is an index into
  the list, the root is at index 0, and `new HLNode` appends a node.
* A result `none` stands for a fault of the C program (a null pointer that is
  dereferenced) or, for the functions that take fuel, for exhausted fuel.
* The rule files are read from a `FileSystem`, a map from file names to the
  characters of the file.
-/

namespace FencedFilter

/-! ## Characters -/

/-- The NUL character, the terminator of a C string. -/
abbrev NUL : Char := Char.ofNat 0

/-- The backtick, one of the two fence characters. -/
abbrev BACKTICK : Char := Char.ofNat 96

/-- The apostrophe. -/
abbrev APOS : Char := Char.ofNat 39

/-- The `isspace` of `ctype.h` in the C locale. -/
def isspace (c : Char) : Bool :=
  c = ' ' || c = '\t' || c = '\n' || c = Char.ofNat 11 || c = Char.ofNat 12 || c = '\r'

/-- The character `*p` of a pointer `p`: the head of the suffix, NUL at the end. -/
def deref (p : List Char) : Char := p.headD NUL

/-- `HLIndex::simple_name_allow`. -/
def simple_name_allow (ch : Char) : Bool :=
  (48 ≤ ch.toNat && ch.toNat ≤ 57) || (65 ≤ ch.toNat && ch.toNat ≤ 90)
    || (97 ≤ ch.toNat && ch.toNat ≤ 122) || ch.toNat = 95

/-- `HLIndex::hyphenated_name_allow`. -/
def hyphenated_name_allow (ch : Char) : Bool :=
  (48 ≤ ch.toNat && ch.toNat ≤ 57) || (65 ≤ ch.toNat && ch.toNat ≤ 90)
    || (97 ≤ ch.toNat && ch.toNat ≤ 122) || ch.toNat = 95 || ch.toNat = 45

/-- `HLIndex::allowed_in_name`: the call through `s_word_eligible_char_func`; the
flag `hyphen` tells that the pointer holds `hyphenated_name_allow`. -/
def allowed_in_name (hyphen : Bool) (ch : Char) : Bool :=
  if hyphen then hyphenated_name_allow ch else simple_name_allow ch

/-- `toLowerCase` of `hlindex.cpp`. -/
def toLowerCase (c : Char) : Char :=
  if 65 ≤ c.toNat ∧ c.toNat ≤ 90 then Char.ofNat (c.toNat + 32) else c

/-- `strcmp(a, b) < 0`: the order of the unsigned character codes. -/
def strcmp_lt : List Char → List Char → Bool
  | [], [] => false
  | [], _ :: _ => true
  | _ :: _, [] => false
  | a :: as, b :: bs =>
    if a.toNat < b.toNat then true
    else if b.toNat < a.toNat then false
    else strcmp_lt as bs

/-! ## Output of escaped text and of elements (`fencedfilter.cpp`) -/

/-- `print_char_translated`: the characters written for `c`. -/
def print_char_translated (c : Char) : List Char :=
  if c = '@' then "&commat;".toList
  else if c = '<' then "&lt;".toList
  else if c = '>' then "&gt;".toList
  else if c = '&' then "&amp;".toList
  else if c = '"' then "&quot;".toList
  else if c = APOS then "&apos;".toList
  else [c]

/-- `print_string_translated`: at most `len` characters of `str`, each escaped. -/
def print_string_translated (str : List Char) (len : Nat) : List Char :=
  match len, str with
  | 0, _ => []
  | _, [] => []
  | len + 1, c :: rest => print_char_translated c ++ print_string_translated rest len

/-- The loop of `print_open_element` over `action`. -/
def print_open_element_loop : List Char → List Char
  | [] => []
  | c :: rest =>
    if c = '.' then " class=\"".toList ++ rest ++ ['"']
    else c :: print_open_element_loop rest

/-- `print_open_element`. -/
def print_open_element (action : List Char) : List Char :=
  '<' :: (print_open_element_loop action ++ ['>'])

/-- `print_close_element`. -/
def print_close_element (action : List Char) : List Char :=
  '<' :: '/' :: (action.takeWhile (fun c => c ≠ '.') ++ ['>'])

/-- The text of `write_code_start`. -/
def code_start_text : List Char := "  @htmlonly <div class=\"fragment\">\n".toList

/-- The text of `write_code_end`. -/
def code_end_text : List Char := "  </div> @endhtmlonly\n".toList

/-- The text of `write_line_start`. -/
def line_start_text : List Char := "  <div class=\"line\">".toList

/-- The text of `write_line_end`. -/
def line_end_text : List Char := "</div>\n".toList

/-! ## Highlight nodes (`hlnode.hpp`, `hlnode.cpp`) -/

/-- `walk_str` with the copying callback: the characters handed to the callback.
A backslash is dropped and the character after it is kept, except before `n`,
`r` and `t`, where the backslash is kept too.  After a backslash that ends the
string the C code hands over the backslash and the terminator and reads on
behind the terminator; the copy, read as a C string, then ends with that
backslash, which is what the last equation gives. -/
def walk_str : List Char → List Char
  | [] => []
  | c :: rest =>
    if c = '\\' then
      match rest with
      | [] => ['\\']
      | d :: rest2 =>
        if d = 'n' ∨ d = 'r' ∨ d = 't' then '\\' :: d :: walk_str rest2
        else d :: walk_str rest2
    else c :: walk_str rest

/-- `HLNode::save_str`: a null pointer for a null pointer and for a string that
yields no character, the escape-resolved copy otherwise. -/
def save_str (str : Option (List Char)) : Option (List Char) :=
  match str with
  | none => none
  | some s => if (walk_str s).length > 0 then some (walk_str s) else none

/-- An `HLNode`: the three links are indices into the arena, `none` is a null
pointer; tag and value are C strings or null. -/
structure HLNode where
  m_parent : Option Nat
  m_child : Option Nat
  m_sibling : Option Nat
  m_tag : Option (List Char)
  m_value : Option (List Char)
deriving DecidableEq, Repr

/-- The constructor `HLNode::HLNode(tag, value, parent)`. -/
def HLNode.new (tag value : Option (List Char)) (parent : Option Nat) : HLNode :=
  { m_parent := parent, m_child := none, m_sibling := none,
    m_tag := save_str tag, m_value := save_str value }

/-- `HLNode::tag_to_lower_case`. -/
def HLNode.tag_to_lower_case (n : HLNode) : HLNode :=
  { n with m_tag := n.m_tag.map (fun t => t.map toLowerCase) }

/-- `HLNode::is_equal`: `!strcmp(tag, m_tag)`; a null `m_tag` is a fault. -/
def HLNode.is_equal (n : HLNode) (tag : List Char) : Option Bool :=
  match n.m_tag with
  | none => none
  | some t => some (decide (tag = t))

/-- `direct_add_child` on the node at index `host`: a new node is appended to the
arena and installed as `m_child` of the host, whatever was there.  The result is
the arena and the index of the new node. -/
def direct_add_child (nodes : List HLNode) (host : Nat) (tag value : Option (List Char)) :
    List HLNode × Nat :=
  let fresh := nodes.length
  let nodes1 := nodes ++ [HLNode.new tag value (some host)]
  (nodes1.modify (fun h => { h with m_child := some fresh }) host, fresh)

/-- `direct_add_sibling` on the node at index `host`: the new node gets the
parent of the host and is installed as `m_sibling` of the host. -/
def direct_add_sibling (nodes : List HLNode) (host : Nat) (tag value : Option (List Char)) :
    List HLNode × Nat :=
  let fresh := nodes.length
  let parent := (nodes.get? host).bind (fun h => h.m_parent)
  let nodes1 := nodes ++ [HLNode.new tag value parent]
  (nodes1.modify (fun h => { h with m_sibling := some fresh }) host, fresh)

/-- The chain of siblings that starts at `start`, in order; `fuel` bounds the walk
(a chain in an arena built by the parser is shorter than the arena). -/
def sibling_chain (nodes : List HLNode) : Nat → Option Nat → List Nat
  | 0, _ => []
  | _, none => []
  | fuel + 1, some i =>
    match nodes.get? i with
    | none => []
    | some n => i :: sibling_chain nodes fuel n.m_sibling

/-- The children of the node at index `i`, in order. -/
def children (nodes : List HLNode) (i : Nat) : List Nat :=
  match nodes.get? i with
  | none => []
  | some n => sibling_chain nodes nodes.length n.m_child

/-! ## The rule-file parser (`HLParser`, `hlindex.cpp`) -/

/-- A readable store of rule files: the characters of the file of a given name,
`none` when `fopen` fails. -/
abbrev FileSystem := List Char → Option (List Char)

/-- The characters `fgets` takes from a stream: at most `n`, and none behind the
first newline. -/
def take_line : Nat → List Char → List Char
  | 0, _ => []
  | _, [] => []
  | n + 1, c :: rest => if c = '\n' then [c] else c :: take_line n rest

/-- `fgets(buff, size, stream)`: `none` at the end of the stream; otherwise the
buffer with the line and a terminator written over its start (what lay behind
stays), and the rest of the stream. -/
def fgets (buff : List Char) (size : Nat) (stream : List Char) :
    Option (List Char × List Char) :=
  match stream with
  | [] => none
  | _ :: _ =>
    let line := take_line (size - 1) stream
    some (line ++ NUL :: buff.drop (line.length + 1), stream.drop line.length)

/-- The character at offset `p` of a buffer; the buffer is zero behind its
written part. -/
def buff_at (buff : List Char) (p : Nat) : Char := buff.getD p NUL

/-- The C string that starts at offset `p` of a buffer. -/
def cstr_at (buff : List Char) (p : Nat) : List Char :=
  (buff.drop p).takeWhile (fun c => c ≠ NUL)

/-- `while (*p && isspace(*p)) ++p` on a buffer: the offset reached. -/
def skip_spaces (buff : List Char) (p : Nat) : Nat :=
  p + ((buff.drop p).takeWhile isspace).length

/-- The state of an `HLParser`: the static read buffer, the stream (`none` is the
null `m_file`), the values of the line read last (tag and value are offsets into
the buffer) and the two flags. -/
structure HLParser where
  s_read_buff : List Char
  m_file : Option (List Char)
  m_cur_level : Int
  m_cur_tag : Option Nat
  m_cur_value : Option Nat
  m_hyphenated_tags : Bool
  m_case_insensitive : Bool
deriving DecidableEq, Repr

/-- `HLParser::set_flag_from_line` for `str` at offset `p` of the read buffer:
the parser with the flag set, and the returned `flag_set`. -/
def HLParser.set_flag_from_line (ps : HLParser) (p : Nat) : HLParser × Bool :=
  let buff := ps.s_read_buff
  if buff_at buff p ≠ '!' then (ps, false)
  else
    let p1 := buff_at buff (p + 1)
    let p2 := buff_at buff (p + 2)
    let p3 := buff_at buff (p + 3)
    if p3 = NUL then
      if p1 = 'h' ∧ p2 = 't' then ({ ps with m_hyphenated_tags := true }, true)
      else if p1 = 'c' ∧ p2 = 'i' then ({ ps with m_case_insensitive := true }, true)
      else (ps, false)
    else if (List.range 6).all (fun i => buff_at buff (p + 1 + i) = "hyphen".toList.getD i NUL)
      then ({ ps with m_hyphenated_tags := true }, true)
    else if (List.range 6).all (fun i => buff_at buff (p + 1 + i) = "case-i".toList.getD i NUL)
      then ({ ps with m_case_insensitive := true }, true)
    else (ps, false)

/-- The second loop of `HLParser::process_line`, from offset `p` with the local
`found_colon`: the parser, the offset at which the loop was left and the local
`stop_comment`.  A line on which a flag was set leaves at once. -/
def HLParser.process_line_loop : Nat → HLParser → Nat → Bool → HLParser × Nat × Bool
  | 0, ps, p, _ => (ps, p, false)
  | fuel + 1, ps, p, found_colon =>
    let c := buff_at ps.s_read_buff p
    if c = NUL then (ps, p, false)
    else if !found_colon then
      if c = '\\' then HLParser.process_line_loop fuel ps (p + 2) found_colon
      else
        let flagged := if c = '!' ∧ p = 0 then ps.set_flag_from_line p else (ps, false)
        if flagged.2 then (flagged.1, p, false)
        else if c = ':' then
          let buff := ps.s_read_buff.set p NUL
          HLParser.process_line_loop fuel { ps with s_read_buff := buff }
            (skip_spaces buff (p + 1)) true
        else if isspace c then
          HLParser.process_line_loop fuel { ps with s_read_buff := ps.s_read_buff.set p NUL }
            (p + 1) found_colon
        else if c = '#' then
          ({ ps with s_read_buff := ps.s_read_buff.set p NUL }, p, true)
        else HLParser.process_line_loop fuel ps (p + 1) found_colon
    else
      let ps1 := if ps.m_cur_value = none then { ps with m_cur_value := some p } else ps
      HLParser.process_line_loop fuel ps1 (p + 1) found_colon

/-- The loop `while (*p && isspace(*--p) && *(p-1)!='\\')` that closes
`HLParser::process_line`: the offset it leaves in `p`. -/
def walk_back : Nat → List Char → Nat → Nat
  | 0, _, p => p
  | fuel + 1, buff, p =>
    if buff_at buff p = NUL then p
    else if isspace (buff_at buff (p - 1)) then
      if buff_at buff (p - 1 - 1) ≠ '\\' then walk_back fuel buff (p - 1) else p - 1
    else p - 1

/-- `HLParser::process_line`: the line in the read buffer is cut into level, tag
and value. -/
def HLParser.process_line (ps : HLParser) : HLParser :=
  let len := (cstr_at ps.s_read_buff 0).length
  let buff0 := if buff_at ps.s_read_buff (len - 1) = '\n'
    then ps.s_read_buff.set (len - 1) NUL else ps.s_read_buff
  let p0 := skip_spaces buff0 0
  let ps0 : HLParser := { ps with
    s_read_buff := buff0, m_cur_level := (p0 : Int),
    m_cur_tag := if buff_at buff0 p0 ≠ NUL then some p0 else none,
    m_cur_value := none }
  let r := HLParser.process_line_loop (buff0.length + 1) ps0 p0 false
  if r.2.2 then
    let p := walk_back (r.2.1 + 1) r.1.s_read_buff r.2.1
    if buff_at r.1.s_read_buff p ≠ NUL ∧ p > 0 then
      { r.1 with s_read_buff := r.1.s_read_buff.set (p + 1) NUL }
    else r.1
  else r.1

/-- `HLParser::read_line`: the parser after the call and the returned flag. -/
def HLParser.read_line (ps : HLParser) : HLParser × Bool :=
  match ps.m_file with
  | none => (ps, false)
  | some stream =>
    match fgets ps.s_read_buff 1024 stream with
    | none => ({ ps with m_file := none }, false)
    | some (buff, rest) =>
      (HLParser.process_line { ps with s_read_buff := buff, m_file := some rest }, true)

/-- `cur_line_is_node`. -/
def HLParser.cur_line_is_node (ps : HLParser) : Bool := ps.m_cur_tag.isSome

/-- `file_ready`. -/
def HLParser.file_ready (ps : HLParser) : Bool := ps.m_file.isSome

/-- `tag()`: the C string at `m_cur_tag`. -/
def HLParser.tag (ps : HLParser) : Option (List Char) :=
  ps.m_cur_tag.map (cstr_at ps.s_read_buff)

/-- `value()`: the C string at `m_cur_value`. -/
def HLParser.value (ps : HLParser) : Option (List Char) :=
  ps.m_cur_value.map (cstr_at ps.s_read_buff)

/-- The loop `while (read_line() && !cur_line_is_node()) ;` that opens `do_node`. -/
def HLParser.next_saveable_line : Nat → HLParser → HLParser
  | 0, ps => ps
  | fuel + 1, ps =>
    let r := ps.read_line
    if r.2 && !r.1.cur_line_is_node then HLParser.next_saveable_line fuel r.1 else r.1

/-- The loop `while (file_ready())` of `do_node` for the host at index `host` and
the level `entry_level`; a recursive call of `do_node` is the first loop followed
by this one.  The result is the parser and the arena, `none` when the fuel is
used up. -/
def HLParser.do_node_loop :
    Nat → HLParser → List HLNode → Nat → Int → Option (HLParser × List HLNode)
  | 0, _, _, _, _ => none
  | fuel + 1, ps, nodes, host, entry_level =>
    if !ps.file_ready then some (ps, nodes)
    else if ps.cur_line_is_node then
      let diff := ps.m_cur_level - entry_level
      if diff > 0 then
        let added := direct_add_child nodes host ps.tag ps.value
        let ps1 := HLParser.next_saveable_line ((ps.m_file.getD []).length + 1) ps
        match HLParser.do_node_loop fuel ps1 added.1 added.2 ps.m_cur_level with
        | none => none
        | some (ps2, nodes2) => HLParser.do_node_loop fuel ps2 nodes2 host entry_level
      else if diff < 0 then some (ps, nodes)
      else
        let added := direct_add_sibling nodes host ps.tag ps.value
        HLParser.do_node_loop fuel ps.read_line.1 added.1 added.2 entry_level
    else HLParser.do_node_loop fuel ps.read_line.1 nodes host entry_level

/-- `HLParser::do_node`. -/
def HLParser.do_node (fuel : Nat) (ps : HLParser) (nodes : List HLNode) (host : Nat)
    (entry_level : Int) : Option (HLParser × List HLNode) :=
  HLParser.do_node_loop fuel
    (HLParser.next_saveable_line ((ps.m_file.getD []).length + 1) ps) nodes host entry_level

/-- The constructor `HLParser::HLParser(f, root)`: the file `f` is parsed into the
arena below its root (index 0); `buff` is the static read buffer as the last
parser left it. -/
def HLParser.new (buff : List Char) (f : List Char) (nodes : List HLNode) :
    Option (HLParser × List HLNode) :=
  HLParser.do_node (4 * f.length + 8)
    { s_read_buff := buff, m_file := some f, m_cur_level := 0, m_cur_tag := none,
      m_cur_value := none, m_hyphenated_tags := false, m_case_insensitive := false }
    nodes 0 (-1)

/-! ## The highlight index (`HLIndex`, `hlindex.cpp`) -/

/-- An `HLIndex`: the arena of its tree (`m_root` is index 0; the empty arena is a
null root) and the two arrays of node pointers.  An empty list stands for the null
array.  `m_str_match_func` is fixed by `m_case_insensitive`. -/
structure HLIndex where
  nodes : List HLNode
  m_entries : List Nat
  m_comments : List Nat
  m_hyphenated_tags : Bool
  m_case_insensitive : Bool
deriving DecidableEq, Repr

/-- `HLIndex::is_empty`. -/
def HLIndex.is_empty (idx : HLIndex) : Bool :=
  idx.m_entries.isEmpty && idx.m_comments.isEmpty

/-- The tag of the node at index `i`; `none` is a null pointer. -/
def node_tag (nodes : List HLNode) (i : Nat) : Option (List Char) :=
  (nodes.get? i).bind (fun n => n.m_tag)

/-- `walk_tags`: the nodes handed to the callback, in order: the children of the
children of the root. -/
def walk_tags (nodes : List HLNode) : List Nat :=
  (children nodes 0).flatMap (children nodes)

/-- One step of the insertion that stands for `qsort` with `hlnode_sorter`: the
node `i` goes before the first node whose tag is not smaller.  Nodes with equal
tags keep the order in which `walk_tags` met them. -/
def insert_by_tag (nodes : List HLNode) (i : Nat) : List Nat → List Nat
  | [] => [i]
  | j :: rest =>
    if strcmp_lt ((node_tag nodes j).getD []) ((node_tag nodes i).getD [])
    then j :: insert_by_tag nodes i rest
    else i :: j :: rest

/-- `qsort(arr, count, sizeof(HLNode*), hlnode_sorter)`. -/
def sort_by_tag (nodes : List HLNode) (arr : List Nat) : List Nat :=
  arr.foldr (insert_by_tag nodes) []

/-- `HLIndex::source_scan` under the name predicate chosen by `hyphen`: the arena
(tags folded to lower case when `case_insensitive`), `m_entries` and `m_comments`.
Reading the first character of a null tag is a fault. -/
def source_scan (hyphen case_insensitive : Bool) (nodes : List HLNode) :
    Option (List HLNode × List Nat × List Nat) :=
  let leaves := walk_tags nodes
  if leaves.any (fun i => (node_tag nodes i).isNone) then none
  else
    let is_word := fun (ns : List HLNode) (i : Nat) =>
      allowed_in_name hyphen (deref ((node_tag ns i).getD []))
    let is_comment := fun (ns : List HLNode) (i : Nat) =>
      !is_word ns i && !isspace (deref ((node_tag ns i).getD []))
    let count_words := (leaves.filter (is_word nodes)).length
    let count_comments := (leaves.filter (is_comment nodes)).length
    if count_words + count_comments = 0 then some (nodes, [], [])
    else
      let nodes1 := if case_insensitive
        then leaves.foldl (fun ns i => ns.modify HLNode.tag_to_lower_case i) nodes
        else nodes
      some (nodes1, sort_by_tag nodes1 (leaves.filter (is_word nodes1)),
        sort_by_tag nodes1 (leaves.filter (is_comment nodes1)))

/-- `full_str_match_made`. -/
def full_str_match_made (hyphen : Bool) (sub_haystack sub_needle : List Char)
    (is_tag : Bool) : Bool :=
  match sub_needle with
  | [] =>
    match sub_haystack with
    | [] => true
    | h :: _ => !is_tag || !allowed_in_name hyphen h
  | _ :: _ => false

/-- The loop `while (*needle && *needle == f(*haystack))` of the two matchers, `f`
the folding of the haystack character: the number of steps and the two pointers
at the end. -/
def match_run (f : Char → Char) : List Char → List Char → Nat × List Char × List Char
  | h :: hs, n :: ns =>
    if n = f h then ((match_run f hs ns).1 + 1, (match_run f hs ns).2)
    else (0, h :: hs, n :: ns)
  | [], ns => (0, [], ns)
  | hs, [] => (0, hs, [])

/-- `HLIndex::str_match_sensitive`. -/
def str_match_sensitive (hyphen : Bool) (haystack needle : List Char) (is_tag : Bool) : Nat :=
  if deref haystack = deref needle then
    let r := match_run id haystack needle
    if full_str_match_made hyphen r.2.1 r.2.2 is_tag then r.1 else 0
  else 0

/-- `HLIndex::str_match_insensitive`. -/
def str_match_insensitive (hyphen : Bool) (haystack needle : List Char) (is_tag : Bool) : Nat :=
  if toLowerCase (deref haystack) = deref needle then
    let r := match_run toLowerCase haystack needle
    if full_str_match_made hyphen r.2.1 r.2.2 is_tag then r.1 else 0
  else 0

/-- `HLIndex::str_match`: the call through `m_str_match_func`. -/
def HLIndex.str_match (idx : HLIndex) (hyphen : Bool) (haystack needle : List Char)
    (is_tag : Bool) : Nat :=
  if idx.m_case_insensitive then str_match_insensitive hyphen haystack needle is_tag
  else str_match_sensitive hyphen haystack needle is_tag

/-- The loop shared by `seek_word` (`is_tag` true) and `seek_comment` (`is_tag`
false) over an array of node pointers: the first node whose tag matches at
`str`, `some none` when there is none; a null tag is a fault. -/
def seek_loop (idx : HLIndex) (hyphen : Bool) (str : List Char) (is_tag : Bool) :
    List Nat → Option (Option Nat)
  | [] => some none
  | n :: rest =>
    match node_tag idx.nodes n with
    | none => none
    | some c =>
      if idx.str_match hyphen str c is_tag ≠ 0 then some (some n)
      else seek_loop idx hyphen str is_tag rest

/-- `HLIndex::seek_word`.  (The test for `background-attachment` in the C loop
assigns a local that the next statement overwrites; it has no effect.) -/
def HLIndex.seek_word (idx : HLIndex) (hyphen : Bool) (str : List Char) : Option (Option Nat) :=
  seek_loop idx hyphen str true idx.m_entries

/-- `HLIndex::seek_comment`. -/
def HLIndex.seek_comment (idx : HLIndex) (hyphen : Bool) (str : List Char) :
    Option (Option Nat) :=
  seek_loop idx hyphen str false idx.m_comments

/-- `HLIndex::seek`: the first entry whose tag equals `tag`. -/
def HLIndex.seek (idx : HLIndex) (tag : List Char) : List Nat → Option (Option Nat)
  | [] => some none
  | n :: rest =>
    match (idx.nodes.get? n).bind (fun nd => nd.is_equal tag) with
    | none => none
    | some true => some (some n)
    | some false => HLIndex.seek idx tag rest

/-- The static state of `hlindex.cpp`: the chain of indices behind `s_base`, the
name predicate in force (`hyphen` tells that `s_word_eligible_char_func` is
`hyphenated_name_allow`) and the static read buffer of the parser. -/
structure IndexWorld where
  registry : List HLIndex
  hyphen : Bool
  s_read_buff : List Char
deriving DecidableEq, Repr

/-- `HLIndex::seek_index`: the first index of the chain whose root tag equals
`type`.  `s_base` has a null root and never matches. -/
def seek_index : List HLIndex → List Char → Option (Option HLIndex)
  | [], _ => some none
  | idx :: rest, type =>
    match idx.nodes.get? 0 with
    | none => seek_index rest type
    | some root =>
      match root.is_equal type with
      | none => none
      | some true => some (some idx)
      | some false => seek_index rest type

/-- The constructor `HLIndex::HLIndex(root, hyphenated_tags, case_insensitive)` for
a root that is not null: the name predicate is switched, then `source_scan` runs.
The result is the new predicate flag and the index. -/
def HLIndex.new (nodes : List HLNode) (hyphenated_tags case_insensitive : Bool) :
    Option (Bool × HLIndex) :=
  match source_scan hyphenated_tags case_insensitive nodes with
  | none => none
  | some (nodes1, entries, comments) =>
    some (hyphenated_tags,
      { nodes := nodes1, m_entries := entries, m_comments := comments,
        m_hyphenated_tags := hyphenated_tags, m_case_insensitive := case_insensitive })

/-- `HLIndex::find_and_open_file`. -/
def find_and_open_file (fs : FileSystem) (type : List Char) : Option (List Char) :=
  fs (type ++ ".hl".toList)

/-- `HLIndex::get_index`: the static state after the call and the returned pointer
(`none` is `nullptr`). -/
def get_index (fs : FileSystem) (w : IndexWorld) (type : List Char) :
    Option (IndexWorld × Option HLIndex) :=
  match seek_index w.registry type with
  | none => none
  | some (some idx) => some (w, if idx.is_empty then none else some idx)
  | some none =>
    match find_and_open_file fs type with
    | none => some (w, none)
    | some f =>
      match HLParser.new w.s_read_buff f [HLNode.new (some type) none none] with
      | none => none
      | some (hlp, nodes) =>
        match HLIndex.new nodes hlp.m_hyphenated_tags hlp.m_case_insensitive with
        | none => none
        | some (hyphen, idx) =>
          some ({ registry := w.registry ++ [idx], hyphen := hyphen,
                  s_read_buff := hlp.s_read_buff },
            if idx.is_empty then none else some idx)

/-! ## The scanner (`fencedfilter.cpp`) -/

/-- The `enum STATE`. -/
inductive STATE where
  | S_CODE
  | S_LINE_COMMENT
  | S_BLOCK_COMMENT
  | S_DOXY_BLOCK_COMMENT
  | S_FENCED
deriving DecidableEq, Repr

/-- The functions a `Fenced_Line_Func` pointer can hold. -/
inductive Fenced_Line_Func where
  | unspecified_fenced_line_func
  | print_fenced_line_with_doxygen
  | print_fenced_line_as_text
  | print_fenced_line_with_highlighting
deriving DecidableEq, Repr

/-- The global variables of the program, and its two output streams. -/
structure Scanner where
  state : STATE
  fence_return_state : STATE
  in_string : Bool
  fence_indent : Int
  fence_char : Char
  fence_char_count : Int
  fenced_language : List Char
  fenced_line_func : Fenced_Line_Func
  g_hlindex : Option HLIndex
  world : IndexWorld
  out : List Char
  err : List Char
deriving DecidableEq, Repr

/-- The values of the globals when `main` starts.  The static `s_base` has been
constructed with `hyphenated_tags` false, which has set the name predicate to
`simple_name_allow`. -/
def Scanner.init : Scanner :=
  { state := STATE.S_CODE, fence_return_state := STATE.S_CODE, in_string := false,
    fence_indent := 0, fence_char := NUL, fence_char_count := 0, fenced_language := [],
    fenced_line_func := Fenced_Line_Func.unspecified_fenced_line_func,
    g_hlindex := none,
    world := { registry := [], hyphen := false, s_read_buff := [] },
    out := [], err := [] }

/-- `fputs(s, stdout)`. -/
def Scanner.puts (st : Scanner) (s : List Char) : Scanner := { st with out := st.out ++ s }

/-- `fputs(s, stderr)`. -/
def Scanner.eputs (st : Scanner) (s : List Char) : Scanner := { st with err := st.err ++ s }

/-- `doxygen_is_handling_fenced_code`. -/
def Scanner.doxygen_is_handling_fenced_code (st : Scanner) : Bool :=
  st.fenced_line_func = Fenced_Line_Func.print_fenced_line_with_doxygen

/-- `process_line_comment_line`. -/
def process_line_comment_line (st : Scanner) (str : List Char) : Scanner :=
  (st.puts str).puts ['\n']

/-- `process_block_comment_line`: the line is written; the end of the comment is
not looked for. -/
def process_block_comment_line (st : Scanner) (str : List Char) : Scanner :=
  (st.puts str).puts ['\n']

/-- `print_fenced_line_with_doxygen`. -/
def print_fenced_line_with_doxygen (str : List Char) : List Char := str ++ ['\n']

/-- `print_fenced_line_as_text`. -/
def print_fenced_line_as_text (str : List Char) : List Char :=
  line_start_text ++ print_string_translated str 2048 ++ line_end_text

/-- The markup class of a matched node: `tagnode->parent()->value()`; `none` when
the parent or its value is null. -/
def tagaction (idx : HLIndex) (tagnode : Nat) : Option (List Char) :=
  ((idx.nodes.get? tagnode).bind (fun n => n.m_parent)).bind
    (fun par => (idx.nodes.get? par).bind (fun n => n.m_value))

/-- The loop `while (true)` of `print_fenced_line_with_highlighting` from the
pointer `p`: what it writes.  `none` is a fault (a null tag or a null markup
class) or exhausted fuel. -/
def highlight_loop (idx : HLIndex) (hyphen : Bool) : Nat → List Char → Option (List Char)
  | 0, _ => none
  | fuel + 1, p =>
    if allowed_in_name hyphen (deref p) then
      match idx.seek_word hyphen p with
      | none => none
      | some (some tagnode) =>
        match node_tag idx.nodes tagnode with
        | none => none
        | some tag =>
          if tag.length ≠ 0 then
            match tagaction idx tagnode with
            | none => none
            | some action =>
              (highlight_loop idx hyphen fuel (p.drop tag.length)).map (fun rest =>
                print_open_element action ++ print_string_translated p tag.length
                  ++ print_close_element action ++ rest)
          else
            match p with
            | [] => some []
            | _ :: p1 => highlight_loop idx hyphen fuel p1
      | some none =>
        (highlight_loop idx hyphen fuel (p.dropWhile (allowed_in_name hyphen))).map (fun rest =>
          (p.takeWhile (allowed_in_name hyphen)).flatMap print_char_translated ++ rest)
    else
      match idx.seek_comment hyphen p with
      | none => none
      | some (some tagnode) =>
        match tagaction idx tagnode with
        | none => none
        | some action =>
          some (print_open_element action ++ print_string_translated p 2048
            ++ print_close_element action)
      | some none =>
        match p with
        | [] => some []
        | c :: p1 =>
          (highlight_loop idx hyphen fuel p1).map (fun rest => print_char_translated c ++ rest)

/-- `print_fenced_line_with_highlighting` with the index `g_hlindex`. -/
def print_fenced_line_with_highlighting (idx : HLIndex) (hyphen : Bool) (str : List Char) :
    Option (List Char) :=
  (highlight_loop idx hyphen (str.length + 1) str).map (fun body =>
    line_start_text ++ body ++ line_end_text)

/-- The call `(*fenced_line_func)(start)`. -/
def call_fenced_line_func (st : Scanner) (start : List Char) : Option Scanner :=
  match st.fenced_line_func with
  | Fenced_Line_Func.unspecified_fenced_line_func =>
    some (st.eputs "*** Error: no Fenced_Line_Func value set. ***\n".toList)
  | Fenced_Line_Func.print_fenced_line_with_doxygen =>
    some (st.puts (print_fenced_line_with_doxygen start))
  | Fenced_Line_Func.print_fenced_line_as_text =>
    some (st.puts (print_fenced_line_as_text start))
  | Fenced_Line_Func.print_fenced_line_with_highlighting =>
    match st.g_hlindex with
    | none => none
    | some idx => (print_fenced_line_with_highlighting idx st.world.hyphen start).map st.puts

/-- `set_fenced_language_function`. -/
def set_fenced_language_function (fs : FileSystem) (st : Scanner) : Option Scanner :=
  if st.fenced_language ≠ [] then
    match get_index fs st.world st.fenced_language with
    | none => none
    | some (w, some idx) =>
      some { st with
        world := w
        g_hlindex := some idx
        fenced_line_func := Fenced_Line_Func.print_fenced_line_with_highlighting }
    | some (w, none) =>
      let st1 := { st with world := w, g_hlindex := none }
      if st1.fenced_language = "text".toList ∨ st1.fenced_language = "txt".toList then
        some { st1 with fenced_line_func := Fenced_Line_Func.print_fenced_line_as_text }
      else
        let st2 := st1.eputs ("*** Unable to find ".toList ++ st1.fenced_language
          ++ ".hl. ***\n".toList)
        some { st2 with fenced_line_func := Fenced_Line_Func.print_fenced_line_with_doxygen }
  else some st

/-- The loop of `set_fence_values` that copies the language, with room for `room`
more characters: the characters copied, the pointer `p` at the end, and whether
the loop was left by `break`. -/
def language_loop (braced : Bool) : Nat → List Char → List Char × List Char × Bool
  | 0, p => ([], p, false)
  | _, [] => ([], [], false)
  | room + 1, c :: p =>
    if braced then
      if c = '\x7d' then ([], c :: p, true)
      else (c :: (language_loop braced room p).1, (language_loop braced room p).2)
    else if isspace c then ([], c :: p, true)
    else (c :: (language_loop braced room p).1, (language_loop braced room p).2)

/-- The part of `set_fence_values` that reads the info string at `fence`: the
optional brace and the optional period are skipped, then `language_loop` runs
with room for nine characters (`sizeof(fenced_language)-1`). -/
def read_language (fence : List Char) : List Char × List Char × Bool :=
  let braced : Bool := deref fence = '\x7b'
  let p1 := if braced then fence.drop 1 else fence
  let p2 := if deref p1 = '.' then p1.drop 1 else p1
  language_loop braced 9 p2

/-- The value `set_fence_values` returns for an info string that is neither empty
nor starts with a space: `advance` as the loop set it, replaced by `p - fence`
when it is still 0. -/
def fence_advance (fence : List Char) : Int :=
  let braced : Bool := deref fence = '\x7b'
  let r := read_language fence
  let distance : Int := (fence.length : Int) - (r.2.1.length : Int)
  let advance : Int := if r.2.2 then (if braced then 1 + distance else distance) else 0
  if advance = 0 then distance else advance

/-- `set_fence_values(fence, indented)`; `prev` is the character `*(fence-1)`.
The result is the scanner and the returned `advance`. -/
def set_fence_values (fs : FileSystem) (st : Scanner) (prev : Char) (fence : List Char)
    (indented : Int) : Option (Scanner × Int) :=
  let st1 := { st with
    fence_indent := indented, fence_char := prev, fenced_language := [],
    fence_return_state := st.state, state := STATE.S_FENCED }
  if fence = [] ∨ isspace (deref fence) then
    some ({ st1 with fenced_line_func := Fenced_Line_Func.print_fenced_line_with_doxygen }, 0)
  else
    let st2 := { st1 with fenced_language := (read_language fence).1 }
    match (if st2.fenced_language ≠ [] then set_fenced_language_function fs st2 else some st2) with
    | none => none
    | some st3 => some (st3, fence_advance fence)

/-- `strchr(start, c)`: the pointer to the first `c` of the string, `none` when
there is none.  For `c` NUL the C function returns the terminator. -/
def strchr (start : List Char) (c : Char) : Option (List Char) :=
  if c = NUL then some []
  else
    match start.dropWhile (fun d => d ≠ c) with
    | [] => none
    | d :: rest => some (d :: rest)

/-- The loop `for (i=0; i<fence_char_count; ++i,++p) if (*p != fence_char) break;`:
the value of `i` and the pointer `p` behind the loop. -/
def fence_run (fence_char : Char) : Nat → List Char → Nat × List Char
  | 0, p => (0, p)
  | _, [] => (0, [])
  | count + 1, c :: p =>
    if c ≠ fence_char then (0, c :: p)
    else ((fence_run fence_char count p).1 + 1, (fence_run fence_char count p).2)

/-- `process_fenced_line`.  With `fence_char` NUL the C loop would read behind the
terminator; that is a fault here. -/
def process_fenced_line (st : Scanner) (str : List Char) : Option Scanner :=
  if st.fence_indent < 0 ∨ str.length ≤ st.fence_indent.toNat then
    if st.doxygen_is_handling_fenced_code then
      some (st.puts (print_fenced_line_with_doxygen str))
    else some ((st.puts line_start_text).puts line_end_text)
  else if st.fence_char = NUL then none
  else
    let start := str.drop st.fence_indent.toNat
    let end_of_fence : Bool :=
      match strchr start st.fence_char with
      | none => false
      | some p =>
        let r := fence_run st.fence_char st.fence_char_count.toNat p
        !(((r.1 : Int) ≠ st.fence_char_count) || deref r.2 = st.fence_char)
    if end_of_fence then
      let st1 := if st.doxygen_is_handling_fenced_code
        then (st.puts start).puts ['\n'] else st.puts code_end_text
      some ({ st1 with state := st1.fence_return_state, fence_return_state := STATE.S_CODE }.eputs
        "Reached the end of the fenced code block.\n".toList)
    else call_fenced_line_func st start

/-- The text `str` up to the pointer `p`, a suffix of `str`. -/
def up_to (str p : List Char) : List Char := str.take (str.length - p.length)

/-- The inner loop of `process_doxy_block_comment_line` that looks for the
end-of-comment marker from `p`, and the `if (str)` behind it.  `code` is
`process_code_line`. -/
def doxy_seek_end (code : Scanner → List Char → Option Scanner) (str : List Char) :
    Scanner → List Char → Option Scanner
  | st, [] => some ((st.puts str).puts ['\n'])
  | st, c :: p1 =>
    if c = '*' ∧ deref p1 = '/' then
      code ({ st with state := STATE.S_CODE }.puts str) (p1.drop 1)
    else doxy_seek_end code str st p1

/-- The loop `while (*p)` of `process_doxy_block_comment_line` that scans for a
fence opener from the pointer `p`. -/
def doxy_scan (code : Scanner → List Char → Option Scanner) (fs : FileSystem)
    (str : List Char) : Scanner → List Char → Option Scanner
  | st, [] => some st
  | st, c :: p1 =>
    if !isspace c then
      if c = BACKTICK ∨ c = '~' then
        let findent : Int := ((str.length - (c :: p1).length : Nat) : Int)
        let st1 := { st with fence_char := c }
        if c = deref p1 ∧ c = deref (p1.drop 1) then
          let p3 := p1.drop 2
          let extra := (p3.takeWhile (fun d => d = c)).length
          let st2 := { st1 with fence_char_count := 3 + (extra : Int) }
          match set_fence_values fs st2 c (p3.drop extra) findent with
          | none => none
          | some (st3, _) =>
            if st3.doxygen_is_handling_fenced_code then
              let st4 := { st3 with fence_indent := 0 }
              some ((st4.puts (str.drop st4.fence_indent.toNat)).puts ['\n'])
            else
              some ((st3.eputs "*** Begin fenced code, fencedfilter handling! ***\n".toList).puts
                code_start_text)
        else doxy_scan code fs str st1 p1
      else doxy_seek_end code str st (c :: p1)
    else doxy_scan code fs str st p1

/-- `process_doxy_block_comment_line`; `code` is `process_code_line`, which the
function calls behind an end-of-comment marker. -/
def process_doxy_block_comment_line (code : Scanner → List Char → Option Scanner)
    (fs : FileSystem) (st : Scanner) (str : List Char) : Option Scanner :=
  let p := str.dropWhile isspace
  match p with
  | [] => some ((st.puts str).puts ['\n'])
  | c :: p1 =>
    if c = '*' ∧ deref p1 = '/' then
      let p2 := p1.drop 1
      code ({ st.puts (up_to str p2) with state := STATE.S_CODE }) p2
    else
      let q := if c = '*' ∧ deref p1 = ' ' then p1.drop 1
        else if c = '*' then p1 else p
      let st1 := if q = [] then (st.puts str).puts ['\n'] else st
      doxy_scan code fs str st1 q

/-- The loop `while (*p)` of `process_code_line` from the pointer `p`, with the
local `escaped`, and the two statements behind the loop.  `doxy` is
`process_doxy_block_comment_line`.  The `switch (state)` has the two cases of the
states just assigned. -/
def code_scan (doxy : Scanner → List Char → Option Scanner) (str : List Char) :
    Scanner → Bool → List Char → Option Scanner
  | st, _, [] => some ((st.puts str).puts ['\n'])
  | st, escaped, c :: p1 =>
    if c = '\\' then code_scan doxy str st (!escaped) p1
    else if c = '"' then
      code_scan doxy str (if !escaped then { st with in_string := !st.in_string } else st)
        escaped p1
    else if c = '/' then
      if !st.in_string then
        if deref p1 = '*' then
          let p2 := p1.drop 1
          let st1 := { st with state := STATE.S_BLOCK_COMMENT }
          let starred : Bool := deref p2 = '*' ∨ deref p2 = '!'
          let p3 := if starred then p2.drop 1 else p2
          let st2 := if starred ∧ (p3 = [] ∨ isspace (deref p3))
            then { st1 with state := STATE.S_DOXY_BLOCK_COMMENT, fence_char_count := 0 }
            else st1
          if p3 = [] then some ((st2.puts str).puts ['\n'])
          else
            let st3 := st2.puts (up_to str p3)
            if st3.state = STATE.S_DOXY_BLOCK_COMMENT then doxy st3 p3
            else some (process_block_comment_line st3 p3)
        else code_scan doxy str st escaped p1
      else code_scan doxy str st escaped p1
    else code_scan doxy str st escaped p1

/-- `process_code_line`.  The fuel bounds the depth of the calls between this
function and `process_doxy_block_comment_line`; each such call is on a shorter
rest of the line, so the length of the line and one more is enough. -/
def process_code_line (fs : FileSystem) : Nat → Scanner → List Char → Option Scanner
  | 0, _, _ => none
  | fuel + 1, st, str =>
    let firstchar := deref str
    let count_fence := (str.takeWhile (fun d => d = firstchar)).length
    if (firstchar = BACKTICK ∨ firstchar = '~') ∧ count_fence > 2 then
      let p := str.drop count_fence
      match set_fence_values fs { st with fence_char_count := (count_fence : Int) }
          firstchar p 0 with
      | none => none
      | some (st1, _) =>
        if st1.doxygen_is_handling_fenced_code then some ((st1.puts str).puts ['\n'])
        else some (st1.puts code_start_text)
    else
      code_scan (process_doxy_block_comment_line (process_code_line fs fuel) fs) str
        st false str

/-- `process_line`. -/
def process_line (fs : FileSystem) (st : Scanner) (str : List Char) : Option Scanner :=
  match st.state with
  | STATE.S_CODE => process_code_line fs (str.length + 1) st str
  | STATE.S_LINE_COMMENT => some (process_line_comment_line st str)
  | STATE.S_BLOCK_COMMENT => some (process_block_comment_line st str)
  | STATE.S_DOXY_BLOCK_COMMENT =>
    process_doxy_block_comment_line (process_code_line fs (str.length + 1)) fs st str
  | STATE.S_FENCED => process_fenced_line st str

/-- The lines of `process_line` in turn, as `scan` hands them over. -/
def process_lines (fs : FileSystem) : Scanner → List (List Char) → Option Scanner
  | st, [] => some st
  | st, str :: rest =>
    match process_line fs st str with
    | none => none
    | some st1 => process_lines fs st1 rest

/-- The loop of `scan`: `fgets` into the 1024 bytes of `scan_buff`, the final
newline replaced by the terminator, then `process_line`.  Every line read
shortens the stream, so its length bounds the number of turns. -/
def scan_loop (fs : FileSystem) : Nat → Scanner → List Char → Option Scanner
  | 0, _, _ => none
  | fuel + 1, st, stream =>
    match fgets [] 1024 stream with
    | none => some st
    | some (buff, rest) =>
      let line := cstr_at buff 0
      let str := if line.getLast? = some '\n' then line.dropLast else line
      match process_line fs st str with
      | none => none
      | some st1 => scan_loop fs fuel st1 rest

/-- `scan(stream)`. -/
def scan (fs : FileSystem) (st : Scanner) (stream : List Char) : Option Scanner :=
  scan_loop fs (stream.length + 1) st stream

/-! ## Inputs of the examples -/

/-- A file system without any rule file. -/
def no_files : FileSystem := fun _ => none

/-- A case-insensitive rule file for `sql`: the flag line, the category `keyword`
with the value `span.keywordflow`, and the tag `select` below it. -/
def sql_rule_file : List Char := "!ci\nkeyword: span.keywordflow\n   select\n".toList

/-- A file system that holds `sql.hl` and nothing else. -/
def sql_files : FileSystem :=
  fun name => if name = "sql.hl".toList then some sql_rule_file else none

/-- The initial scanner inside a documentation comment. -/
def in_doxy_comment : Scanner := { Scanner.init with state := STATE.S_DOXY_BLOCK_COMMENT }

/-- The scanner after the opener of a backtick fence for `sql` has been read in
`S_CODE` with `sql.hl` at hand. -/
def after_sql_opener : Scanner :=
  (process_line sql_files Scanner.init "```sql".toList).getD Scanner.init

/-- The in-string flag behind a text without backslashes, from the flag `b` in
front of it: every `"` toggles it. -/
def flag_after (b : Bool) : List Char → Bool
  | [] => b
  | c :: l => flag_after (if c = '"' then !b else b) l

/-- The result of the first lookup of `sql` with `sql.hl` at hand: the registry after it. -/
def sql_world : IndexWorld :=
  ((get_index sql_files Scanner.init.world "sql".toList).map Prod.fst).getD Scanner.init.world

/-- The index built from `sql.hl` by the first lookup of `sql`. -/
def sql_index : HLIndex :=
  (sql_world.registry.get? 0).getD
    { nodes := [], m_entries := [], m_comments := [], m_hyphenated_tags := false,
      m_case_insensitive := false }

/-- Whether the node `n` of the arena has a tag that is not the empty string. -/
def has_tag (nodes : List HLNode) (n : Nat) : Bool :=
  match node_tag nodes n with
  | some (_ :: _) => true
  | _ => false

/-- The text as the specification reads it for an index: with its letters folded
to lower case when the index is case-insensitive (`fold`), as it is otherwise. -/
def folded_text (fold : Bool) (text : List Char) : List Char :=
  if fold then text.map toLowerCase else text

/-- The match of a comment tag in the words of the specification: the tag is a
prefix of the (folded) text, whatever follows. -/
def comment_tag_matches (fold : Bool) (tag text : List Char) : Bool :=
  decide ((folded_text fold text).take tag.length = tag)

/-- The match of a word tag in the words of the specification: the tag is a prefix
of the (folded) text and is followed in the text by the end of the string or by a
character that is not name-eligible. -/
def word_tag_matches (fold hyphen : Bool) (tag text : List Char) : Bool :=
  decide ((folded_text fold text).take tag.length = tag)
    && (match text.drop tag.length with
        | [] => true
        | c :: _ => !allowed_in_name hyphen c)

/-- The rule file of the example of C13: the keyword `int`. -/
def int_rule_file : List Char := "keyword: span.keyword\n   int\n".toList

/-- The index built from `int_rule_file` (case-sensitive, simple name predicate). -/
def int_index : HLIndex :=
  (((get_index (fun _ => some int_rule_file) Scanner.init.world "c".toList).map
    Prod.fst).bind (fun w => w.registry.get? 0)).getD
    { nodes := [], m_entries := [], m_comments := [], m_hyphenated_tags := false,
      m_case_insensitive := false }

/-- The rule file of the counterexample of C14: a case-insensitive rule set with the comment marker `//TODO`. -/
def todo_rule_file : List Char := "!ci\ncomment: span.comment\n   //TODO\n".toList

/-- The index built from `todo_rule_file`. -/
def todo_index : HLIndex :=
  (((get_index (fun _ => some todo_rule_file) Scanner.init.world "c".toList).map
    Prod.fst).bind (fun w => w.registry.get? 0)).getD
    { nodes := [], m_entries := [], m_comments := [], m_hyphenated_tags := false,
      m_case_insensitive := false }

/-- The shape of an index that was built from a rule file: the nodes of its two
sets have tags that are not empty, and both sets are sorted by tag in the order
of `strcmp`. -/
def HLIndex.well_formed (idx : HLIndex) : Prop :=
  (∀ n ∈ idx.m_entries, has_tag idx.nodes n = true)
  ∧ (∀ n ∈ idx.m_comments, has_tag idx.nodes n = true)
  ∧ idx.m_entries.Pairwise (fun a b =>
      strcmp_lt ((node_tag idx.nodes b).getD []) ((node_tag idx.nodes a).getD []) = false)
  ∧ idx.m_comments.Pairwise (fun a b =>
      strcmp_lt ((node_tag idx.nodes b).getD []) ((node_tag idx.nodes a).getD []) = false)

/-- The shape of an index can be checked by evaluation. -/
instance HLIndex.well_formed_decidable (idx : HLIndex) : Decidable idx.well_formed := by
  unfold HLIndex.well_formed
  infer_instance

/-- The rule file of the example of C15: the comment markers `--` and `-`, and the
keywords `a.b` and `a`. -/
def dash_rule_file : List Char :=
  "comment: span.comment\n   --\n   -\nkeyword: span.keyword\n   a.b\n   a\n".toList

/-- The index built from `dash_rule_file` (case-sensitive, simple name predicate). -/
def dash_index : HLIndex :=
  (((get_index (fun _ => some dash_rule_file) Scanner.init.world "c".toList).map
    Prod.fst).bind (fun w => w.registry.get? 0)).getD
    { nodes := [], m_entries := [], m_comments := [], m_hyphenated_tags := false,
      m_case_insensitive := false }

/-- The rule file of the example of C16: a case-insensitive rule set that writes
its keyword in capitals. -/
def select_rule_file : List Char := "!ci\nkeyword: span.keywordflow\n   SELECT\n".toList

/-- The tree the parser builds from `select_rule_file` for the language `sql`. -/
def select_tree : List HLNode :=
  ((HLParser.new [] select_rule_file [HLNode.new (some "sql".toList) none none]).map
    Prod.snd).getD []

/-- The index built from `select_tree` with the case-insensitive flag. -/
def select_index : HLIndex :=
  ((HLIndex.new select_tree false true).map Prod.snd).getD
    { nodes := [], m_entries := [], m_comments := [], m_hyphenated_tags := false,
      m_case_insensitive := false }

/-- The rule file of the example of C17 with the hyphen flag. -/
def css_rule_file : List Char :=
  "!hyphen\nproperty: span.keyword\n   background\n   background-color\n".toList

/-- The rule file of the example of C17 without the hyphen flag. -/
def css_plain_rule_file : List Char :=
  "property: span.keyword\n   background\n   background-color\n".toList

/-- The static state after the first lookup of `css` with `css_rule_file` as `css.hl`:
the name predicate is the hyphen-inclusive one. -/
def css_world : IndexWorld :=
  ((get_index (fun _ => some css_rule_file) Scanner.init.world "css".toList).map
    Prod.fst).getD Scanner.init.world

/-- The static state after the first lookup of `css` with `css_plain_rule_file` as
`css.hl`: the name predicate is the simple one. -/
def css_plain_world : IndexWorld :=
  ((get_index (fun _ => some css_plain_rule_file) Scanner.init.world "css".toList).map
    Prod.fst).getD Scanner.init.world

/-- The index built from `css_rule_file`. -/
def css_index : HLIndex :=
  (css_world.registry.get? 0).getD
    { nodes := [], m_entries := [], m_comments := [], m_hyphenated_tags := false,
      m_case_insensitive := false }

/-- The index built from `css_plain_rule_file`. -/
def css_plain_index : HLIndex :=
  (css_plain_world.registry.get? 0).getD
    { nodes := [], m_entries := [], m_comments := [], m_hyphenated_tags := false,
      m_case_insensitive := false }

/-- A store with one rule file, named `a\b.hl`, for the language `a\b`. -/
def escaped_name_files : FileSystem :=
  fun name => if name = "a\\b.hl".toList then some sql_rule_file else none

/-- The tree the parser builds from a rule file below a root tagged `x`, each node
shown as its parent and its tag. -/
def parsed_tree (file : List Char) : Option (List (Option Nat × Option (List Char))) :=
  (HLParser.new [] file [HLNode.new (some "x".toList) none none]).map
    (fun r => r.2.map (fun n => (n.m_parent, n.m_tag)))

/-- The unescaping of the specification, with fuel: an `&` followed by the name of
one of the six entities is read back as the character of the entity, every other
character as itself. -/
def unescape_loop : Nat → List Char → List Char
  | 0, _ => []
  | _, [] => []
  | fuel + 1, c :: rest =>
    if c = '&' then
      if rest.take 7 = "commat;".toList then '@' :: unescape_loop fuel (rest.drop 7)
      else if rest.take 3 = "lt;".toList then '<' :: unescape_loop fuel (rest.drop 3)
      else if rest.take 3 = "gt;".toList then '>' :: unescape_loop fuel (rest.drop 3)
      else if rest.take 4 = "amp;".toList then '&' :: unescape_loop fuel (rest.drop 4)
      else if rest.take 5 = "quot;".toList then '"' :: unescape_loop fuel (rest.drop 5)
      else if rest.take 5 = "apos;".toList then APOS :: unescape_loop fuel (rest.drop 5)
      else c :: unescape_loop fuel rest
    else c :: unescape_loop fuel rest

/-- The unescaping of a whole string. -/
def unescape (l : List Char) : List Char := unescape_loop l.length l

/-- The flag lines for hyphenated tags in the words of the specification: the line
`!ht`, or a line that starts with `!hyphen`. -/
def is_hyphen_flag_line (line : List Char) : Bool :=
  decide (line = "!ht".toList) || decide (line.take 7 = "!hyphen".toList)

/-- The flag lines for case-insensitive matching in the words of the specification:
the line `!ci`, or a line that starts with `!case-i`. -/
def is_case_flag_line (line : List Char) : Bool :=
  decide (line = "!ci".toList) || decide (line.take 7 = "!case-i".toList)

/-- The tree the parser builds from a rule file below a root tagged `x`, each node
shown as its tag and its value. -/
def parsed_values (file : List Char) : Option (List (Option (List Char) × Option (List Char))) :=
  (HLParser.new [] file [HLNode.new (some "x".toList) none none]).map
    (fun r => r.2.map (fun n => (n.m_tag, n.m_value)))

/-- A store with the rule file `css.hl`, which sets the hyphen flag, and the rule
file `sql.hl`, which does not. -/
def css_sql_files : FileSystem :=
  fun name =>
    if name = "css.hl".toList then some css_rule_file
    else if name = "sql.hl".toList then some sql_rule_file
    else none

/-- `HLNode::last_sibling` from the node at index `i`: the last node of the chain of
siblings.  `none` when a link leaves the arena, or when the fuel is used up (in an
arena built by the functions below the chain is shorter than the arena). -/
def last_sibling (nodes : List HLNode) : Nat → Nat → Option Nat
  | 0, _ => none
  | fuel + 1, i =>
    match nodes.get? i with
    | none => none
    | some nd =>
      match nd.m_sibling with
      | none => some i
      | some s => last_sibling nodes fuel s

/-- `HLNode::add_child` on the node at index `host`: the new node is appended to the
arena and linked behind the last child of the host, or installed as its first
child.  The result is the arena and the index of the new node. -/
def add_child (nodes : List HLNode) (host : Nat) (tag value : Option (List Char)) :
    Option (List HLNode × Nat) :=
  match nodes.get? host with
  | none => none
  | some h =>
    let fresh := nodes.length
    let nodes1 := nodes ++ [HLNode.new tag value (some host)]
    match h.m_child with
    | none => some (nodes1.modify (fun x => { x with m_child := some fresh }) host, fresh)
    | some c =>
      match last_sibling nodes nodes.length c with
      | none => none
      | some l => some (nodes1.modify (fun x => { x with m_sibling := some fresh }) l, fresh)

/-- `HLNode::add_sibling` on the node at index `host`: the new node gets the parent
of the last sibling and is linked behind it. -/
def add_sibling (nodes : List HLNode) (host : Nat) (tag value : Option (List Char)) :
    Option (List HLNode × Nat) :=
  match last_sibling nodes nodes.length host with
  | none => none
  | some l =>
    let fresh := nodes.length
    let parent := (nodes.get? l).bind (fun x => x.m_parent)
    let nodes1 := nodes ++ [HLNode.new tag value parent]
    some (nodes1.modify (fun x => { x with m_sibling := some fresh }) l, fresh)

/-- `HLNode::seek_sibling` from the pointer `start`: the first node of the chain
whose tag equals `tag`, `some none` when there is none; a null tag is a fault. -/
def seek_sibling (nodes : List HLNode) (tag : List Char) : Nat → Option Nat → Option (Option Nat)
  | 0, _ => none
  | _, none => some none
  | fuel + 1, some i =>
    match nodes.get? i with
    | none => none
    | some nd =>
      match nd.is_equal tag with
      | none => none
      | some true => some (some i)
      | some false => seek_sibling nodes tag fuel nd.m_sibling

/-- `HLNode::seek_child` on the node at index `host`. -/
def seek_child (nodes : List HLNode) (host : Nat) (tag : List Char) : Option (Option Nat) :=
  match nodes.get? host with
  | none => none
  | some h => seek_sibling nodes tag nodes.length h.m_child

/-- The tree of `test_tree_building`: the branch `keyword` built with the direct
methods, the branch `comment` built with `add_child`, then `loop` and `while` added
to the branch that `seek_child` finds for `keyword`. -/
def test_tree : Option (List HLNode) :=
  let t0 : List HLNode := [HLNode.new none none none]
  let c := direct_add_child t0 0 (some "keyword".toList) (some "span.keyword".toList)
  let e1 := direct_add_child c.1 c.2 (some "if".toList) none
  let e2 := direct_add_sibling e1.1 e1.2 (some "case".toList) none
  let e3 := direct_add_sibling e2.1 e2.2 (some "\\ begin\\ ".toList) none
  let e4 := direct_add_sibling e3.1 e3.2 (some "end".toList) none
  (add_child e4.1 0 (some "comment".toList) (some "span.comment".toList)).bind fun m =>
  (add_child m.1 m.2 (some "start".toList) (some "/*".toList)).bind fun m1 =>
  (add_child m1.1 m.2 (some "end".toList) (some "*/".toList)).bind fun m2 =>
  (seek_child m2.1 0 "keyword".toList).bind fun k =>
  match k with
  | none => some m2.1
  | some kw =>
    (add_child m2.1 kw (some "loop".toList) none).bind fun k1 =>
    (add_child k1.1 kw (some "while".toList) none).bind fun k2 =>
    some k2.1

/-- The branch `keyword` of `test_tree_building` as the direct methods leave it:
the root, the node `keyword` and its children `if`, `case`, ` begin `, `end`. -/
def keyword_branch : List HLNode :=
  let t0 : List HLNode := [HLNode.new none none none]
  let c := direct_add_child t0 0 (some "keyword".toList) (some "span.keyword".toList)
  let e1 := direct_add_child c.1 c.2 (some "if".toList) none
  let e2 := direct_add_sibling e1.1 e1.2 (some "case".toList) none
  let e3 := direct_add_sibling e2.1 e2.2 (some "\\ begin\\ ".toList) none
  (direct_add_sibling e3.1 e3.2 (some "end".toList) none).1

/-- The links of a tree: a link points at a node behind the node that holds it, the
first child of a node has the node as its parent, and a sibling has the parent of
the node before it. -/
def tree_links (nodes : List HLNode) : Prop :=
  ∀ i nd, nodes.get? i = some nd →
    (∀ c, nd.m_child = some c →
      i < c ∧ ∃ cn, nodes.get? c = some cn ∧ cn.m_parent = some i)
    ∧ (∀ s, nd.m_sibling = some s →
      i < s ∧ ∃ sn, nodes.get? s = some sn ∧ sn.m_parent = nd.m_parent)

/-- The check of `tree_links` by evaluation. -/
def tree_links_check (nodes : List HLNode) : Bool :=
  (List.range nodes.length).all fun i =>
    match nodes.get? i with
    | none => true
    | some nd =>
      (match nd.m_child with
        | none => true
        | some c =>
          decide (i < c) && decide ((nodes.get? c).bind (fun x => x.m_parent) = some i)
            && (nodes.get? c).isSome)
      && (match nd.m_sibling with
        | none => true
        | some s =>
          decide (i < s) && decide ((nodes.get? s).bind (fun x => x.m_parent) = nd.m_parent)
            && (nodes.get? s).isSome)

/-- A parser whose read buffer holds `buff`, as `fgets` leaves it, before `process_line` runs. -/
def parser_at (buff : List Char) : HLParser :=
  { s_read_buff := buff, m_file := some [], m_cur_level := 0, m_cur_tag := none,
    m_cur_value := none, m_hyphenated_tags := false, m_case_insensitive := false }

/-- The destructor `HLNode::~HLNode` ("delete down, then right") run on the node
`start`: the nodes it deletes, which are the nodes of the tree below and beside
`start`.  `fuel` bounds the walk. -/
def destructor_walk (nodes : List HLNode) : Nat → Option Nat → List Nat
  | 0, _ => []
  | _, none => []
  | fuel + 1, some i =>
    match nodes.get? i with
    | none => []
    | some n => i :: (destructor_walk nodes fuel n.m_child ++ destructor_walk nodes fuel n.m_sibling)

/-- The arena the parser builds from a rule file below a root tagged `x`. -/
def parsed_arena (file : List Char) : List HLNode :=
  ((HLParser.new [] file [HLNode.new (some "x".toList) none none]).map Prod.snd).getD []

/-- A rule file with regular indentation: two categories with two and one leaves. -/
def regular_rule_file : List Char := "a: p\n   b\n   c\nd: q\n   e\n".toList

/-- The rule file of the failing input of C33: the third line is indented less
than the second and more than the first. -/
def dedent_rule_file : List Char := "a\n      b\n   c\n".toList

/-- The rule file of the failing input of C34: the keyword `char` is indented less
than the keyword `int` and more than the category line. -/
def ragged_rule_file : List Char := "keyword: span.keyword\n      int\n   char\n".toList

/-- The index built from `ragged_rule_file`. -/
def ragged_index : HLIndex :=
  (((get_index (fun _ => some ragged_rule_file) Scanner.init.world "c".toList).map
    Prod.fst).bind (fun w => w.registry.get? 0)).getD
    { nodes := [], m_entries := [], m_comments := [], m_hyphenated_tags := false,
      m_case_insensitive := false }

/-- A rule file with a keyword and a comment marker. -/
def mixed_rule_file : List Char :=
  "keyword: span.keyword\n   int\ncomment: span.comment\n   //\n".toList

/-- The scanner after the opener of a backtick fence for `sql` has been read at
column 3 of a documentation comment, with `sql.hl` at hand. -/
def after_indented_opener : Scanner :=
  (process_line sql_files in_doxy_comment (" * ".toList ++ List.replicate 3 BACKTICK ++ "sql".toList)).getD
    Scanner.init

/-- The invariant of the scanner: the state is not `S_LINE_COMMENT`, and in
`S_FENCED` the return state is `S_CODE` or `S_DOXY_BLOCK_COMMENT`, the fence
character is a backtick or a tilde, the fence has at least three characters and
the indent is not negative. -/
def fence_state_ok (st : Scanner) : Prop :=
  st.state ≠ STATE.S_LINE_COMMENT
  ∧ (st.state = STATE.S_FENCED →
      (st.fence_return_state = STATE.S_CODE ∨ st.fence_return_state = STATE.S_DOXY_BLOCK_COMMENT)
      ∧ (st.fence_char = BACKTICK ∨ st.fence_char = '~')
      ∧ 3 ≤ st.fence_char_count ∧ 0 ≤ st.fence_indent)

/-- The scanner after the two lines that open a documentation comment and, at
column 3, a backtick fence for `sql`, with `sql.hl` at hand. -/
def doc_fence_state : Scanner :=
  (process_lines sql_files Scanner.init
    ["/**".toList, " * ".toList ++ List.replicate 3 BACKTICK ++ "sql".toList]).getD Scanner.init

/-- A piece of the body that `print_fenced_line_with_highlighting` writes for a
line: text written plain, a word wrapped in the element of its markup class, or a
comment wrapped so. -/
inductive Piece where
  | plain (text : List Char)
  | word (action text : List Char)
  | comment (action text : List Char)
deriving DecidableEq, Repr

/-- The text of the line that a piece covers. -/
def Piece.text : Piece → List Char
  | Piece.plain t => t
  | Piece.word _ t => t
  | Piece.comment _ t => t

/-- The characters written for a piece: the escaped text, for a word and for a
comment between `print_open_element` and `print_close_element` of the markup class. -/
def Piece.render : Piece → List Char
  | Piece.plain t => t.flatMap print_char_translated
  | Piece.word a t =>
    print_open_element a ++ t.flatMap print_char_translated ++ print_close_element a
  | Piece.comment a t =>
    print_open_element a ++ t.flatMap print_char_translated ++ print_close_element a

/-- One turn of the loop `while (true)` of `print_fenced_line_with_highlighting` at
the pointer `p`, with a record of what the turn writes instead of the characters;
`next` stands for the turns that follow from a later pointer.  The result is the
pieces written, in order, and whether the loop came to its end (`false`: a fault
behind the pieces recorded). -/
def highlight_turn (idx : HLIndex) (hyphen : Bool) (next : List Char → List Piece × Bool)
    (p : List Char) : List Piece × Bool :=
  if allowed_in_name hyphen (deref p) then
    match idx.seek_word hyphen p with
    | none => ([], false)
    | some (some tagnode) =>
      match node_tag idx.nodes tagnode with
      | none => ([], false)
      | some tag =>
        if tag.length ≠ 0 then
          match tagaction idx tagnode with
          | none => ([], false)
          | some action =>
            (Piece.word action (p.take tag.length) :: (next (p.drop tag.length)).1,
              (next (p.drop tag.length)).2)
        else
          match p with
          | [] => ([], true)
          | _ :: p1 => next p1
    | some none =>
      (Piece.plain (p.takeWhile (allowed_in_name hyphen))
        :: (next (p.dropWhile (allowed_in_name hyphen))).1,
        (next (p.dropWhile (allowed_in_name hyphen))).2)
  else
    match idx.seek_comment hyphen p with
    | none => ([], false)
    | some (some tagnode) =>
      match tagaction idx tagnode with
      | none => ([], false)
      | some action => ([Piece.comment action (p.take 2048)], true)
    | some none =>
      match p with
      | [] => ([], true)
      | c :: p1 => (Piece.plain [c] :: (next p1).1, (next p1).2)

/-- The loop `while (true)` of `print_fenced_line_with_highlighting` from the
pointer `p` as a record of pieces: `highlight_turn`, turn after turn; exhausted
fuel counts as a fault. -/
def highlight_pieces (idx : HLIndex) (hyphen : Bool) : Nat → List Char → List Piece × Bool
  | 0, _ => ([], false)
  | fuel + 1, p => highlight_turn idx hyphen (highlight_pieces idx hyphen fuel) p

/-- The index that `get_index` builds from a rule file for the language `c`, from
the initial registry. -/
def index_of_rules (file : List Char) : HLIndex :=
  (((get_index (fun _ => some file) Scanner.init.world "c".toList).map
    Prod.fst).bind (fun w => w.registry.get? 0)).getD
    { nodes := [], m_entries := [], m_comments := [], m_hyphenated_tags := false,
      m_case_insensitive := false }

/-- The rule file of the failing input of C40: a category line without a value. -/
def novalue_rule_file : List Char := "keyword\n   int\n".toList

/-- The rule file of the failing input of C35: a comment category without a value. -/
def bare_comment_rule_file : List Char := "comment\n   //\n".toList

/-- The rule file of the failing input of C38: the category `keyword` has a value,
the category `type` has none. -/
def half_rule_file : List Char := "keyword: span.keyword\n   int\ntype\n   char\n".toList

/-! ## Theorems -/

/-! ### Lines outside a fence and the end-to-end run (C1, C2) -/

/-- C1 (evaluation at the failing inputs): in `S_DOXY_BLOCK_COMMENT` the line
` * done */ int x;` opens no fence and is written with the text behind the
end-of-comment marker twice, and the line made of an asterisk and two spaces
opens no fence and is not written at all. -/
theorem C1_doxy_lines_not_reemitted :
    (process_line no_files in_doxy_comment " * done */ int x;".toList).map
        (fun st => (st.out, st.state))
      = some (" * done */ int x; int x;\n".toList, STATE.S_CODE)
    ∧ (process_line no_files in_doxy_comment " *  ".toList).map
        (fun st => (st.out, st.state))
      = some ([], STATE.S_DOXY_BLOCK_COMMENT) := by
  decide!

/-- C2: scanning the five lines `/** `, ` ~~~.sql`, ` SELECT *`, ` ~~~`, ` */` from
the initial state with the case-insensitive `sql.hl` writes the first line, the
fragment opener, the line container with `SELECT` wrapped in
`<span class="keywordflow">` and followed by ` *`, the fragment closer and the
last line, and ends in `S_CODE`; the same holds line by line through
`process_line`. -/
theorem C2_end_to_end_sql_fence :
    (scan sql_files Scanner.init "/** \n ~~~.sql\n SELECT *\n ~~~\n */\n".toList).map
        (fun st => (st.out, st.state))
      = some ("/** \n".toList ++ code_start_text
          ++ (line_start_text ++ "<span class=\"keywordflow\">SELECT</span> *".toList
            ++ line_end_text)
          ++ code_end_text ++ " */\n".toList, STATE.S_CODE)
    ∧ (process_lines sql_files Scanner.init
        ["/** ".toList, " ~~~.sql".toList, " SELECT *".toList, " ~~~".toList,
          " */".toList]).map (fun st => (st.out, st.state))
      = some ("/** \n".toList ++ "  @htmlonly <div class=\"fragment\">\n".toList
          ++ "  <div class=\"line\"><span class=\"keywordflow\">SELECT</span> *</div>\n".toList
          ++ "  </div> @endhtmlonly\n".toList ++ " */\n".toList, STATE.S_CODE) := by
  decide!

/-! ### Lines inside a fence (C3, C4) -/

/-- `strchr` finds the first fence character behind a text that has none. -/
theorem strchr_first (fc : Char) (hfc : fc ≠ NUL) (before rest : List Char)
    (hb : fc ∉ before) : strchr (before ++ fc :: rest) fc = some (fc :: rest) := by
  unfold strchr
  rw [if_neg hfc]
  have h : (before ++ fc :: rest).dropWhile (fun d => d ≠ fc) = fc :: rest := by
    induction before with
    | nil => simp [List.dropWhile]
    | cons b bs ih =>
      have hne : b ≠ fc := fun h => hb (by simp [h])
      have hbs : fc ∉ bs := fun h => hb (by simp [h])
      simpa [List.dropWhile, hne] using ih hbs
  rw [h]

/-- The counting loop on a maximal run of `m` fence characters stops after `min n m` steps. -/
theorem fence_run_replicate (fc : Char) (after : List Char) (ha : deref after ≠ fc) :
    ∀ (n m : Nat), fence_run fc n (List.replicate m fc ++ after)
      = (min n m, List.replicate (m - n) fc ++ after)
  | 0, m => by simp [fence_run]
  | n + 1, 0 => by
    cases after with
    | nil => simp [fence_run]
    | cons a as =>
      have : a ≠ fc := by simpa [deref] using ha
      simp [fence_run, this]
  | n + 1, m + 1 => by
    have ih := fence_run_replicate fc after ha n m
    simp [List.replicate_succ, fence_run, ih, Nat.succ_min_succ]

/-- On a maximal run of `m` fence characters the closing test succeeds exactly for `m = n`. -/
theorem end_of_fence_iff (fc : Char) (after : List Char) (ha : deref after ≠ fc) (n m : Nat) :
    (!(decide (((fence_run fc n (List.replicate m fc ++ after)).1 : Int) ≠ (n : Int))
        || decide (deref (fence_run fc n (List.replicate m fc ++ after)).2 = fc))) = decide (m = n) := by
  rw [fence_run_replicate fc after ha]
  rcases Nat.lt_trichotomy m n with h | h | h
  · have h1 : min n m = m := by omega
    have h2 : m - n = 0 := by omega
    have h3 : m ≠ n := by omega
    simp [h1, h2, h3, ha]
  · subst h
    simp [ha]
  · have h1 : min n m = n := by omega
    have h3 : m ≠ n := by omega
    obtain ⟨k, hk⟩ : ∃ k, m - n = k + 1 := ⟨m - n - 1, by omega⟩
    simp [h1, h3, hk, List.replicate_succ, deref]

/-- The closing test of `process_fenced_line` on a line whose first fence character,
behind the indent and a text `before` without fence character, starts a maximal
run of `m`: the fence is closed for `m = fence_char_count`, and the text is handed
to the fenced-line handler otherwise. -/
theorem fenced_line_first_run (st : Scanner) (pre before after : List Char) (m n : Nat)
    (hfc : st.fence_char ≠ NUL) (hind : st.fence_indent = (pre.length : Int))
    (hcnt : st.fence_char_count = (n : Int)) (hb : st.fence_char ∉ before)
    (ha : deref after ≠ st.fence_char) (hm : 1 ≤ m) :
    (m = n → ∃ st1, process_fenced_line st
          (pre ++ (before ++ (List.replicate m st.fence_char ++ after))) = some st1
        ∧ st1.state = st.fence_return_state ∧ st1.fence_return_state = STATE.S_CODE)
    ∧ (m ≠ n → process_fenced_line st
          (pre ++ (before ++ (List.replicate m st.fence_char ++ after)))
        = call_fenced_line_func st (before ++ (List.replicate m st.fence_char ++ after))) := by
  obtain ⟨k, rfl⟩ : ∃ k, m = k + 1 := ⟨m - 1, by omega⟩
  have hlen : ¬ (st.fence_indent < 0 ∨
      (pre ++ (before ++ (List.replicate (k + 1) st.fence_char ++ after))).length
        ≤ st.fence_indent.toNat) := by
    rw [hind]
    simp
  have hdrop : (pre ++ (before ++ (List.replicate (k + 1) st.fence_char ++ after))).drop
      st.fence_indent.toNat = before ++ (List.replicate (k + 1) st.fence_char ++ after) := by
    rw [hind]
    simp
  have hchr : strchr (before ++ (List.replicate (k + 1) st.fence_char ++ after)) st.fence_char
      = some (List.replicate (k + 1) st.fence_char ++ after) := by
    have := strchr_first st.fence_char hfc before (List.replicate k st.fence_char ++ after) hb
    simpa [List.replicate_succ] using this
  have hrun := end_of_fence_iff st.fence_char after ha n (k + 1)
  unfold process_fenced_line
  rw [if_neg hlen, if_neg hfc]
  simp only [hdrop, hchr, hcnt, Int.toNat_ofNat]
  rw [hrun]
  constructor
  · intro h
    simp only [h, decide_True, if_true]
    refine ⟨_, rfl, ?_, ?_⟩
    · by_cases hd : st.doxygen_is_handling_fenced_code <;> simp [hd, Scanner.eputs, Scanner.puts]
    · simp [Scanner.eputs]
  · intro h
    simp [h]

/-- The fenced-line handlers only write: the state and the fence bookkeeping stay. -/
theorem call_fenced_line_func_state (st st1 : Scanner) (start : List Char)
    (h : call_fenced_line_func st start = some st1) :
    st1.state = st.state ∧ st1.fence_return_state = st.fence_return_state
      ∧ st1.fence_char = st.fence_char ∧ st1.fence_char_count = st.fence_char_count
      ∧ st1.fence_indent = st.fence_indent := by
  unfold call_fenced_line_func at h
  split at h
  · cases h; simp [Scanner.eputs]
  · cases h; simp [Scanner.puts]
  · cases h; simp [Scanner.puts]
  · split at h
    · cases h
    · rw [Option.map_eq_some'] at h
      obtain ⟨a, _, rfl⟩ := h
      simp [Scanner.puts]

/-- C3: in `S_FENCED` with fence character `fc` (a backtick or a tilde),
`fence_char_count = n >= 3`, return state `s` and `fence_indent` the length of `pre`:
the line `pre` followed by exactly `n` fence characters is processed and sets the
state to `s`; the line `pre` followed by `m` fence characters, `m >= 1` and `m`
different from `n` (more or fewer), is handed to the fenced-line handler as the
content `fc^m`, and whenever the handler returns the state is still `S_FENCED`. -/
theorem C3_exact_run_closes_fence (fs : FileSystem) (st : Scanner) (fc : Char) (n m : Nat)
    (s : STATE) (pre : List Char)
    (hstate : st.state = STATE.S_FENCED) (hfc : fc = BACKTICK ∨ fc = '~')
    (hchar : st.fence_char = fc) (hn : 3 ≤ n) (hcnt : st.fence_char_count = (n : Int))
    (hret : st.fence_return_state = s) (hind : st.fence_indent = (pre.length : Int)) :
    (∃ st1, process_line fs st (pre ++ List.replicate n fc) = some st1 ∧ st1.state = s)
    ∧ (1 ≤ m → m ≠ n →
        process_line fs st (pre ++ List.replicate m fc)
          = call_fenced_line_func st (List.replicate m fc)
        ∧ ∀ st1, process_line fs st (pre ++ List.replicate m fc) = some st1 →
            st1.state = STATE.S_FENCED) := by
  have hnul : st.fence_char ≠ NUL := by
    rw [hchar]
    rcases hfc with h | h <;> rw [h] <;> decide
  have hpl : ∀ str, process_line fs st str = process_fenced_line st str := by
    intro str
    simp [process_line, hstate]
  have hrun := fun k (hk : 1 ≤ k) =>
    fenced_line_first_run st pre [] [] k n hnul hind hcnt (by simp)
      (by rw [hchar]; rcases hfc with h | h <;> rw [h] <;> decide) hk
  simp only [List.nil_append, List.append_nil, hchar] at hrun
  constructor
  · obtain ⟨st1, h1, h2, _⟩ := (hrun n (by omega)).1 rfl
    exact ⟨st1, by rw [hpl, h1], by rw [h2, hret]⟩
  · intro hm hne
    have h := (hrun m hm).2 hne
    refine ⟨by rw [hpl, h], ?_⟩
    intro st1 h1
    rw [hpl, h] at h1
    rw [(call_fenced_line_func_state st st1 _ h1).1, hstate]

/-- Witness of C3: after the opener of a backtick fence with the info string `sql`
(three backticks, `sql.hl` at hand) three backticks close the fence and four do
not. -/
theorem C3_exact_run_closes_fence_witness :
    after_sql_opener.state = STATE.S_FENCED ∧ after_sql_opener.fence_char_count = 3
    ∧ (∃ st1, process_line sql_files after_sql_opener ([] ++ List.replicate 3 BACKTICK) = some st1
        ∧ st1.state = STATE.S_CODE)
    ∧ (process_line sql_files after_sql_opener ([] ++ List.replicate 4 BACKTICK)
          = call_fenced_line_func after_sql_opener (List.replicate 4 BACKTICK)
        ∧ ∀ st1, process_line sql_files after_sql_opener ([] ++ List.replicate 4 BACKTICK)
            = some st1 → st1.state = STATE.S_FENCED) :=
  have h := C3_exact_run_closes_fence sql_files after_sql_opener BACKTICK 3 4 STATE.S_CODE []
    (by decide!) (Or.inl rfl) (by decide!) (by decide) (by decide!) (by decide!) (by decide!)
  ⟨by decide!, by decide!, h.1, h.2 (by decide) (by decide)⟩

/-- C5 (evaluation at the failing input): after the opening line `/* a` the
scanner is in `S_BLOCK_COMMENT`, and the line ` b */`, which holds the
end-of-comment marker, leaves it in `S_BLOCK_COMMENT`. -/
theorem C5_block_comment_not_ended :
    (process_lines no_files Scanner.init ["/* a".toList]).map (fun st => st.state)
      = some STATE.S_BLOCK_COMMENT
    ∧ (process_lines no_files Scanner.init ["/* a".toList, " b */".toList]).map
        (fun st => st.state)
      = some STATE.S_BLOCK_COMMENT := by
  decide!

/-! ### Comment openers in a code line (C6, C7, C8) -/

/-- The flag behind a text is the flag in front of it, toggled when the text holds an odd number of `"`. -/
theorem flag_after_count (l : List Char) :
    ∀ b : Bool, flag_after b l = (b != decide (l.count '"' % 2 = 1)) := by
  induction l with
  | nil => intro b; simp [flag_after]
  | cons c l ih =>
    intro b
    by_cases hc : c = '"'
    · subst hc
      have key : decide ((l.count '"' + 1) % 2 = 1) = !decide (l.count '"' % 2 = 1) := by
        rcases Nat.mod_two_eq_zero_or_one (l.count '"') with h | h <;> simp [Nat.add_mod, h]
      rw [flag_after, if_pos rfl, ih, List.count_cons_self, key]
      cases b <;> simp
    · rw [flag_after, if_neg hc, ih, List.count_cons_of_ne (Ne.symm hc)]

/-- The scan of a code line passes over a text `pre` without backslash in which every
`/*` is met with the in-string flag set; only the flag changes. -/
theorem code_scan_pass (doxy : Scanner → List Char → Option Scanner) (str tail : List Char) :
    ∀ (pre : List Char) (st : Scanner), '\\' ∉ pre →
      (∀ i < pre.length, ((pre ++ tail).drop i).take 2 = ['/', '*'] →
        flag_after st.in_string (pre.take i) = true) →
      code_scan doxy str st false (pre ++ tail)
        = code_scan doxy str { st with in_string := flag_after st.in_string pre } false tail := by
  intro pre
  induction pre with
  | nil => intro st _ _; rfl
  | cons c pre ih =>
    intro st hbs hfirst
    have hc : c ≠ '\\' := fun h => hbs (by simp [h])
    have hbs' : '\\' ∉ pre := fun h => hbs (by simp [h])
    have hshift : ∀ b : Bool, b = (if c = '"' then !st.in_string else st.in_string) →
        ∀ i < pre.length, ((pre ++ tail).drop i).take 2 = ['/', '*'] →
          flag_after b (pre.take i) = true := by
      intro b hb i hi h
      have := hfirst (i + 1) (by simpa using hi) (by simpa using h)
      simpa [flag_after, hb] using this
    rw [List.cons_append]
    by_cases hq : c = '"'
    · subst hq
      have := ih { st with in_string := !st.in_string } hbs'
        (hshift (!st.in_string) (by simp))
      simp only [code_scan, hc, if_false, if_true, Bool.not_false]
      simp only [flag_after, if_true]
      exact this
    · have hrec := ih st hbs' (hshift st.in_string (by simp [hq]))
      have hfl : flag_after st.in_string (c :: pre) = flag_after st.in_string pre := by
        simp [flag_after, hq]
      rw [hfl, ← hrec]
      by_cases hsl : c = '/'
      · subst hsl
        cases hin : st.in_string with
        | true =>
          simp only [code_scan, hc, hq, if_false, if_true, hin, Bool.not_true,
            Bool.false_eq_true]
        | false =>
          have hstar : deref (pre ++ tail) ≠ '*' := by
            intro hd
            have h0 := hfirst 0 (by simp) (by
              cases hpt : pre ++ tail with
              | nil => rw [hpt] at hd; exact absurd hd (by decide)
              | cons a as =>
                rw [hpt] at hd
                simp only [deref, List.headD_cons] at hd
                simp [hpt, hd])
            simp only [List.take_zero, flag_after] at h0
            rw [hin] at h0
            exact absurd h0 (by decide)
          simp only [code_scan, hc, hq, if_false, if_true, hin, Bool.not_false, hstar]
      · simp only [code_scan, hc, hq, hsl, if_false]

/-- A line whose first three characters are not three backticks or three tildes fails the fence test of `process_code_line`. -/
theorem not_fence_start (line : List Char)
    (h : line.take 3 ≠ [BACKTICK, BACKTICK, BACKTICK] ∧ line.take 3 ≠ ['~', '~', '~']) :
    ¬ ((deref line = BACKTICK ∨ deref line = '~')
        ∧ (line.takeWhile (fun d => d = deref line)).length > 2) := by
  rintro ⟨hfc, hlen⟩
  match line, h, hfc, hlen with
  | [], _, _, hlen => simp at hlen
  | [a], _, _, hlen => simp [deref, List.takeWhile] at hlen
  | [a, b], _, _, hlen =>
    simp only [deref, List.headD_cons, List.takeWhile] at hlen
    split at hlen <;> simp at hlen
    split at hlen <;> simp at hlen
  | a :: b :: c :: r, h, hfc, hlen =>
    simp only [deref, List.headD_cons] at hfc hlen
    by_cases hb : b = a
    · by_cases hc : c = a
      · subst hb hc
        rcases hfc with hf | hf
        · exact h.1 (by simp [hf])
        · exact h.2 (by simp [hf])
      · simp [List.takeWhile, hb, hc] at hlen
    · simp [List.takeWhile, hb] at hlen

/-- Without a fence run at its start a code line goes to the scanning loop. -/
theorem code_line_scan (fs : FileSystem) (fuel : Nat) (st : Scanner) (line : List Char)
    (h : line.take 3 ≠ [BACKTICK, BACKTICK, BACKTICK] ∧ line.take 3 ≠ ['~', '~', '~']) :
    process_code_line fs (fuel + 1) st line
      = code_scan (process_doxy_block_comment_line (process_code_line fs fuel) fs) line
          st false line := by
  unfold process_code_line
  simp only []
  rw [if_neg (not_fence_start line h)]

/-- A property of the empty text that holds at every position of a text holds for every `drop` of it. -/
theorem suffix_property (P : List Char → Prop) (s : List Char) (hnil : P [])
    (h : ∀ i < s.length, P (s.drop i)) : ∀ i, P (s.drop i) := by
  intro i
  by_cases hi : i < s.length
  · exact h i hi
  · rw [List.drop_of_length_le (by omega)]
    exact hnil

/-- What `dropWhile` leaves is a `drop`. -/
theorem dropWhile_is_drop (f : Char → Bool) :
    ∀ s : List Char, ∃ k, s.dropWhile f = s.drop k
  | [] => ⟨0, rfl⟩
  | c :: s => by
    by_cases hc : f c = true
    · obtain ⟨k, hk⟩ := dropWhile_is_drop f s
      exact ⟨k + 1, by simp [List.dropWhile, hc, hk]⟩
    · exact ⟨0, by simp [List.dropWhile, hc]⟩

/-- Without `*/` the search for the end of the comment writes the line and changes nothing else. -/
theorem doxy_seek_end_stays (code : Scanner → List Char → Option Scanner) (str : List Char)
    (st : Scanner) :
    ∀ p : List Char, (∀ i, (p.drop i).take 2 ≠ ['*', '/']) →
      doxy_seek_end code str st p = some ((st.puts str).puts ['\n'])
  | [], _ => rfl
  | c :: p1, h => by
    have h0 : ¬ (c = '*' ∧ deref p1 = '/') := by
      rintro ⟨rfl, hd⟩
      apply h 0
      cases p1 with
      | nil => exact absurd hd (by decide)
      | cons a as =>
        simp only [deref, List.headD_cons] at hd
        simp [hd]
    have ih := doxy_seek_end_stays code str st p1 (fun i => by simpa using h (i + 1))
    simp only [doxy_seek_end, h0, if_false]
    exact ih

/-- Without `*/` and without three equal fence characters in a row the fence scan leaves the state as it is. -/
theorem doxy_scan_stays (code : Scanner → List Char → Option Scanner) (fs : FileSystem)
    (str : List Char) :
    ∀ (q : List Char) (st : Scanner), (∀ i, (q.drop i).take 2 ≠ ['*', '/']) →
      (∀ i, (q.drop i).take 3 ≠ [BACKTICK, BACKTICK, BACKTICK]
        ∧ (q.drop i).take 3 ≠ ['~', '~', '~']) →
      ∃ st1, doxy_scan code fs str st q = some st1 ∧ st1.state = st.state
  | [], st, _, _ => ⟨st, rfl, rfl⟩
  | c :: p1, st, h, hf => by
    have ih := fun st' => doxy_scan_stays code fs str p1 st'
      (fun i => by simpa using h (i + 1)) (fun i => by simpa using hf (i + 1))
    by_cases hsp : isspace c = true
    · simp only [doxy_scan, hsp, Bool.not_true, Bool.false_eq_true, if_false]
      exact ih st
    · simp only [doxy_scan, hsp, Bool.not_false, if_true]
      by_cases hfc : c = BACKTICK ∨ c = '~'
      · have hno : ¬ (c = deref p1 ∧ c = deref (p1.drop 1)) := by
          rintro ⟨h1, h2⟩
          have hc0 : c ≠ NUL := by rcases hfc with e | e <;> rw [e] <;> decide
          match p1, h1, h2 with
          | [], h1, _ => exact hc0 h1
          | [a], _, h2 => exact hc0 h2
          | a :: b :: r, h1, h2 =>
            simp only [deref, List.headD_cons, List.drop_one, List.tail_cons] at h1 h2
            subst h1 h2
            have := hf 0
            rcases hfc with e | e
            · exact this.1 (by simp [e])
            · exact this.2 (by simp [e])
        simp only [hfc, if_true, hno, if_false]
        obtain ⟨st1, h1, h2⟩ := ih { st with fence_char := c }
        exact ⟨st1, h1, h2⟩
      · simp only [hfc, if_false]
        rw [doxy_seek_end_stays code str st (c :: p1) h]
        exact ⟨_, rfl, rfl⟩

/-- A documentation-comment line without `*/` and without three equal fence characters in a row leaves the state as it is. -/
theorem doxy_line_stays (code : Scanner → List Char → Option Scanner) (fs : FileSystem)
    (st : Scanner) (str : List Char) (h : ∀ i, (str.drop i).take 2 ≠ ['*', '/'])
    (hf : ∀ i, (str.drop i).take 3 ≠ [BACKTICK, BACKTICK, BACKTICK]
      ∧ (str.drop i).take 3 ≠ ['~', '~', '~']) :
    ∃ st1, process_doxy_block_comment_line code fs st str = some st1 ∧ st1.state = st.state := by
  obtain ⟨k, hk⟩ := dropWhile_is_drop isspace str
  unfold process_doxy_block_comment_line
  simp only []
  rw [hk]
  cases hp : str.drop k with
  | nil => exact ⟨_, rfl, rfl⟩
  | cons c p1 =>
    have hp1 : p1 = str.drop (k + 1) := by
      have : (str.drop k).drop 1 = p1 := by rw [hp]; rfl
      rw [← this, List.drop_drop]
    have h0 : ¬ (c = '*' ∧ deref p1 = '/') := by
      rintro ⟨rfl, hd⟩
      apply h k
      rw [hp]
      cases p1 with
      | nil => exact absurd hd (by decide)
      | cons a as =>
        simp only [deref, List.headD_cons] at hd
        simp [hd]
    simp only [h0, if_false]
    have key : ∀ (j : Nat) (st' : Scanner), st'.state = st.state →
        ∃ st1, doxy_scan code fs str st' (str.drop j) = some st1 ∧ st1.state = st.state := by
      intro j st' hst
      obtain ⟨st1, e1, e2⟩ := doxy_scan_stays code fs str (str.drop j) st'
        (fun i => by rw [List.drop_drop]; exact h _)
        (fun i => by rw [List.drop_drop]; exact hf _)
      exact ⟨st1, e1, by rw [e2, hst]⟩
    have hst1 : ∀ q : List Char,
        (if q = [] then (st.puts str).puts ['\n'] else st).state = st.state := by
      intro q; split <;> rfl
    by_cases hc1 : c = '*' ∧ deref p1 = ' '
    · simp only [hc1, and_self, if_true]
      rw [hp1, List.drop_drop]
      exact key _ _ (hst1 _)
    · simp only [hc1, if_false]
      by_cases hc2 : c = '*'
      · simp only [hc2, if_true]
        rw [hp1]
        exact key _ _ (hst1 _)
      · simp only [hc2, if_false]
        rw [← hp]
        exact key _ _ (hst1 _)

/-- The scan at a `/*` met with the in-string flag clear: the state becomes
`S_DOXY_BLOCK_COMMENT` when `*` or `!` and then the end of the line or a space
follow (and the rest of the line keeps it), `S_BLOCK_COMMENT` otherwise. -/
theorem comment_opener_state (doxy : Scanner → List Char → Option Scanner) (str : List Char)
    (st : Scanner) (rest : List Char) (hq : st.in_string = false)
    (hdoxy : ∀ st3 : Scanner, st3.state = STATE.S_DOXY_BLOCK_COMMENT →
      (deref rest = '*' ∨ deref rest = '!') → isspace (deref (rest.drop 1)) = true →
      ∃ st1, doxy st3 (rest.drop 1) = some st1 ∧ st1.state = STATE.S_DOXY_BLOCK_COMMENT) :
    ∃ st1, code_scan doxy str st false ('/' :: '*' :: rest) = some st1
      ∧ st1.state = if (deref rest = '*' ∨ deref rest = '!')
            ∧ (rest.drop 1 = [] ∨ isspace (deref (rest.drop 1)) = true)
          then STATE.S_DOXY_BLOCK_COMMENT else STATE.S_BLOCK_COMMENT := by
  have hsl : ('/' : Char) ≠ '\\' := by decide
  have hsq : ('/' : Char) ≠ '"' := by decide
  simp only [code_scan, hsl, hsq, if_false, if_true, hq, Bool.not_false, deref, List.headD_cons,
    List.drop_one, List.tail_cons]
  by_cases hstar : rest.headD NUL = '*' ∨ rest.headD NUL = '!'
  · simp only [hstar, decide_True, if_true, true_and]
    by_cases hp3 : rest.tail = []
    · simp only [hp3, true_or, if_true]
      exact ⟨_, rfl, rfl⟩
    · simp only [hp3, false_or, if_false]
      by_cases hsp : isspace (rest.tail.headD NUL) = true
      · simp only [hsp, if_true]
        have := hdoxy
          ({ st with state := STATE.S_DOXY_BLOCK_COMMENT, fence_char_count := 0 }.puts
            (up_to str rest.tail)) rfl (by simpa [deref] using hstar) (by simpa [deref] using hsp)
        simpa [Scanner.puts, hq] using this
      · simp only [hsp, if_false]
        simp [Scanner.puts, process_block_comment_line]
  · simp only [hstar, decide_False, if_false, false_and, Bool.false_eq_true]
    by_cases hp3 : rest = []
    · simp [hp3, Scanner.puts]
    · simp [hp3, Scanner.puts, process_block_comment_line]

/-- `code_scan_pass` with the flag written as the parity of the quotes. -/
theorem code_scan_unquoted (doxy : Scanner → List Char → Option Scanner) (str : List Char)
    (st : Scanner) (pre tail : List Char) (hq : st.in_string = false) (hbs : '\\' ∉ pre)
    (hfirst : ∀ i < pre.length, ((pre ++ tail).drop i).take 2 = ['/', '*'] →
      ((pre ++ tail).take i).count '"' % 2 = 1) :
    code_scan doxy str st false (pre ++ tail)
      = code_scan doxy str
          { st with in_string := decide (pre.count '"' % 2 = 1) } false tail := by
  have h := code_scan_pass doxy str tail pre st hbs (by
    intro i hi h2
    have h3 := hfirst i hi h2
    rw [List.take_append_of_le_length (by omega)] at h3
    rw [flag_after_count, hq]
    simp [h3])
  rw [h, flag_after_count, hq]
  simp

/-- A backslash-free code line, read with the in-string flag clear, that does not
start with a fence run and in which every `/*` has an odd number of `"` before it
leaves the state `S_CODE`. -/
theorem code_line_stays_code (fs : FileSystem) (st : Scanner)
    (line : List Char) (hs : st.state = STATE.S_CODE) (hq : st.in_string = false)
    (hbs : '\\' ∉ line)
    (hfence : line.take 3 ≠ [BACKTICK, BACKTICK, BACKTICK] ∧ line.take 3 ≠ ['~', '~', '~'])
    (hin : ∀ i < line.length, (line.drop i).take 2 = ['/', '*'] →
      (line.take i).count '"' % 2 = 1) :
    ∃ st1, process_line fs st line = some st1 ∧ st1.state = STATE.S_CODE := by
  have h := code_scan_unquoted
    (process_doxy_block_comment_line (process_code_line fs line.length) fs) line st line [] hq
    (by simpa using hbs) (by simpa using hin)
  simp only [List.append_nil] at h
  simp only [process_line, hs]
  rw [code_line_scan fs _ st line hfence, h]
  exact ⟨_, rfl, hs⟩

/-- Counterexample to C6 as stated: the line `"/*"` is read in `S_CODE` with no
string open, does not start with a fence run and holds neither `*/` nor a fence
opener; its first `/*` is followed by `"`, so the claim gives `S_BLOCK_COMMENT`,
but the state after the line is `S_CODE`. -/
theorem C6_counterexample_quoted_opener :
    Scanner.init.state = STATE.S_CODE ∧ Scanner.init.in_string = false
    ∧ "\"/*\"".toList = ['"'] ++ '/' :: '*' :: ['"']
    ∧ (process_line no_files Scanner.init "\"/*\"".toList).map (fun st => st.state)
        = some STATE.S_CODE := by
  decide!

/-- C6, amended: for a backslash-free line read in `S_CODE` with no string open that
does not start with three backticks or three tildes, the first `/*` with an even
number of `"` before it decides.  If the line is `pre ++ "/*" ++ rest` with that
`/*` behind `pre`: the state is `S_DOXY_BLOCK_COMMENT` when `rest` starts with `*`
or `!` followed by white space or the end of the line, provided `rest` holds no
`*/` and no three equal fence characters in a row; it is `S_BLOCK_COMMENT` when
`rest` starts otherwise.  If every `/*` of the line has an odd number of `"`
before it (in particular if the line has no `/*`), the state is `S_CODE`. -/
theorem C6_first_unquoted_comment_opener (fs : FileSystem) (st : Scanner) (line : List Char)
    (hs : st.state = STATE.S_CODE) (hq : st.in_string = false) (hbs : '\\' ∉ line)
    (hfence : line.take 3 ≠ [BACKTICK, BACKTICK, BACKTICK] ∧ line.take 3 ≠ ['~', '~', '~']) :
    (∀ pre rest : List Char, line = pre ++ '/' :: '*' :: rest →
      (∀ i < pre.length, (line.drop i).take 2 = ['/', '*'] → (line.take i).count '"' % 2 = 1) →
      pre.count '"' % 2 = 0 →
      ((deref rest = '*' ∨ deref rest = '!')
          ∧ (rest.drop 1 = [] ∨ isspace (deref (rest.drop 1)) = true) →
        (∀ i < rest.length, (rest.drop i).take 2 ≠ ['*', '/']) →
        (∀ i < rest.length, (rest.drop i).take 3 ≠ [BACKTICK, BACKTICK, BACKTICK]
          ∧ (rest.drop i).take 3 ≠ ['~', '~', '~']) →
        ∃ st1, process_line fs st line = some st1
          ∧ st1.state = STATE.S_DOXY_BLOCK_COMMENT)
      ∧ (¬ ((deref rest = '*' ∨ deref rest = '!')
            ∧ (rest.drop 1 = [] ∨ isspace (deref (rest.drop 1)) = true)) →
        ∃ st1, process_line fs st line = some st1 ∧ st1.state = STATE.S_BLOCK_COMMENT))
    ∧ ((∀ i < line.length, (line.drop i).take 2 = ['/', '*'] →
          (line.take i).count '"' % 2 = 1) →
        ∃ st1, process_line fs st line = some st1 ∧ st1.state = STATE.S_CODE) := by
  have hline : process_line fs st line
      = code_scan (process_doxy_block_comment_line (process_code_line fs line.length) fs) line
          st false line := by
    simp only [process_line, hs]
    exact code_line_scan fs _ st line hfence
  constructor
  · intro pre rest hsplit hfirst hout
    have hpre : '\\' ∉ pre := fun h => hbs (by rw [hsplit]; simp [h])
    have hpass := code_scan_unquoted
      (process_doxy_block_comment_line (process_code_line fs line.length) fs) line st pre
      ('/' :: '*' :: rest) hq hpre (by rw [← hsplit]; exact hfirst)
    have hflag : decide (pre.count '"' % 2 = 1) = false := by simp [hout]
    rw [hflag, ← hsplit] at hpass
    constructor
    · intro hdoc hend hrun
      have hend' := suffix_property (fun t => t.take 2 ≠ ['*', '/']) rest (by simp) hend
      have hrun' := suffix_property
        (fun t => t.take 3 ≠ [BACKTICK, BACKTICK, BACKTICK] ∧ t.take 3 ≠ ['~', '~', '~'])
        rest (by simp) hrun
      obtain ⟨st1, h1, h2⟩ := comment_opener_state
        (process_doxy_block_comment_line (process_code_line fs line.length) fs) line
        { st with in_string := false } rest rfl (by
          intro st3 hst3 _ _
          obtain ⟨st1, e1, e2⟩ := doxy_line_stays (process_code_line fs line.length) fs st3
            (rest.drop 1) (fun i => by rw [List.drop_drop]; exact hend' _)
            (fun i => by rw [List.drop_drop]; exact hrun' _)
          exact ⟨st1, e1, by rw [e2, hst3]⟩)
      rw [if_pos hdoc] at h2
      exact ⟨st1, by rw [hline, hpass, h1], h2⟩
    · intro hdoc
      obtain ⟨st1, h1, h2⟩ := comment_opener_state
        (process_doxy_block_comment_line (process_code_line fs line.length) fs) line
        { st with in_string := false } rest rfl (by
          intro st3 _ hstar hsp
          exact absurd ⟨hstar, Or.inr hsp⟩ hdoc)
      rw [if_neg hdoc] at h2
      exact ⟨st1, by rw [hline, hpass, h1], h2⟩
  · intro hin
    obtain ⟨st1, h1, h2⟩ := code_line_stays_code fs st line hs hq hbs hfence hin
    exact ⟨st1, h1, h2⟩

/-- Witness of C6 amended: behind the literal `"/*"` the opener `/**` followed by a
space gives `S_DOXY_BLOCK_COMMENT`, the opener `/*` followed by a space gives
`S_BLOCK_COMMENT`, and the literal alone leaves `S_CODE`. -/
theorem C6_first_unquoted_comment_opener_witness :
    (∃ st1, process_line no_files Scanner.init "x = \"/*\"; /** doc".toList = some st1
        ∧ st1.state = STATE.S_DOXY_BLOCK_COMMENT)
    ∧ (∃ st1, process_line no_files Scanner.init "x = \"/*\"; /* doc".toList = some st1
        ∧ st1.state = STATE.S_BLOCK_COMMENT)
    ∧ (∃ st1, process_line no_files Scanner.init "x = \"/*\";".toList = some st1
        ∧ st1.state = STATE.S_CODE) :=
  ⟨((C6_first_unquoted_comment_opener no_files Scanner.init "x = \"/*\"; /** doc".toList
        rfl rfl (by decide) (by decide)).1 "x = \"/*\"; ".toList "* doc".toList
        (by decide) (by decide) (by decide)).1 (by decide) (by decide) (by decide),
   ((C6_first_unquoted_comment_opener no_files Scanner.init "x = \"/*\"; /* doc".toList
        rfl rfl (by decide) (by decide)).1 "x = \"/*\"; ".toList " doc".toList
        (by decide) (by decide) (by decide)).2 (by decide),
   (C6_first_unquoted_comment_opener no_files Scanner.init "x = \"/*\";".toList
        rfl rfl (by decide) (by decide)).2 (by decide)⟩

/-- Counterexample to C7 as stated: the line `~~~` is backslash-free, is read in
`S_CODE` with no string open and holds no `/*` at all, and the state after it is
`S_FENCED`, not `S_CODE`. -/
theorem C7_counterexample_fence_run :
    Scanner.init.state = STATE.S_CODE ∧ Scanner.init.in_string = false
    ∧ '\\' ∉ "~~~".toList
    ∧ (∀ i < "~~~".toList.length, ("~~~".toList.drop i).take 2 = ['/', '*'] →
        ("~~~".toList.take i).count '"' % 2 = 1)
    ∧ (process_line no_files Scanner.init "~~~".toList).map (fun st => st.state)
        = some STATE.S_FENCED := by
  decide!

/-- C7, amended: for every backslash-free line read in `S_CODE` with no string open
that does not start with three backticks or three tildes, if every `/*` of the
line has an odd number of `"` before it (it lies inside a string literal), the
line is processed and the state is still `S_CODE`. -/
theorem C7_comment_opener_inside_string_ignored (fs : FileSystem) (st : Scanner)
    (line : List Char) (hs : st.state = STATE.S_CODE) (hq : st.in_string = false)
    (hbs : '\\' ∉ line)
    (hfence : line.take 3 ≠ [BACKTICK, BACKTICK, BACKTICK] ∧ line.take 3 ≠ ['~', '~', '~'])
    (hin : ∀ i < line.length, (line.drop i).take 2 = ['/', '*'] →
      (line.take i).count '"' % 2 = 1) :
    ∃ st1, process_line fs st line = some st1 ∧ st1.state = STATE.S_CODE :=
  code_line_stays_code fs st line hs hq hbs hfence hin

/-- Witness of C7 amended: the line `s = "a /* b";` leaves the state `S_CODE`. -/
theorem C7_comment_opener_inside_string_ignored_witness :
    ∃ st1, process_line no_files Scanner.init "s = \"a /* b\";".toList = some st1
      ∧ st1.state = STATE.S_CODE :=
  C7_comment_opener_inside_string_ignored no_files Scanner.init "s = \"a /* b\";".toList
    rfl rfl (by decide) (by decide) (by decide)

/-- C8 (evaluation at the failing input): on the line `"a\n" /*` the quote that
closes the literal does not toggle the in-string flag, although the backslash
stands two characters before it; the flag is still set at the end of the line and
the state is `S_CODE`, not `S_BLOCK_COMMENT`. -/
theorem C8_escape_flag_not_consumed :
    (process_line no_files Scanner.init "\"a\\n\" /*".toList).map
        (fun st => (st.state, st.in_string))
      = some (STATE.S_CODE, true) := by
  decide!

/-! ### The fuel of `process_code_line` -/

/-- The search for the end of the comment calls `code` only on texts at least two characters shorter than its own. -/
theorem doxy_seek_end_congr (code code2 : Scanner → List Char → Option Scanner) (k : Nat)
    (hc : ∀ st s, s.length + 2 ≤ k → code st s = code2 st s) (str : List Char) :
    ∀ (p : List Char) (st : Scanner), p.length ≤ k →
      doxy_seek_end code str st p = doxy_seek_end code2 str st p
  | [], _, _ => rfl
  | c :: p1, st, h => by
    have ih := doxy_seek_end_congr code code2 k hc str p1 st
      (by simp only [List.length_cons] at h; omega)
    rw [doxy_seek_end, doxy_seek_end]
    split
    · rename_i hcond
      apply hc
      have : p1 ≠ [] := by
        rintro rfl
        exact absurd hcond.2 (by decide)
      have := List.length_pos.mpr this
      simp only [List.length_cons, List.length_drop] at h ⊢
      omega
    · exact ih

/-- The fence scan calls `code` only on texts at least two characters shorter than its own. -/
theorem doxy_scan_congr (code code2 : Scanner → List Char → Option Scanner) (k : Nat)
    (hc : ∀ st s, s.length + 2 ≤ k → code st s = code2 st s) (fs : FileSystem) (str : List Char) :
    ∀ (p : List Char) (st : Scanner), p.length ≤ k →
      doxy_scan code fs str st p = doxy_scan code2 fs str st p
  | [], _, _ => rfl
  | c :: p1, st, h => by
    have ih := fun st' => doxy_scan_congr code code2 k hc fs str p1 st'
      (by simp only [List.length_cons] at h; omega)
    rw [doxy_scan, doxy_scan]
    split
    · split
      · split
        · rfl
        · exact ih _
      · exact doxy_seek_end_congr code code2 k hc str (c :: p1) st h
    · exact ih _

/-- `process_doxy_block_comment_line` calls `code` only on texts at least two characters shorter than the line. -/
theorem process_doxy_congr (code code2 : Scanner → List Char → Option Scanner) (k : Nat)
    (hc : ∀ st s, s.length + 2 ≤ k → code st s = code2 st s) (fs : FileSystem) (st : Scanner)
    (str : List Char) (h : str.length ≤ k) :
    process_doxy_block_comment_line code fs st str
      = process_doxy_block_comment_line code2 fs st str := by
  obtain ⟨j, hj⟩ := dropWhile_is_drop isspace str
  unfold process_doxy_block_comment_line
  simp only []
  rw [hj]
  cases hp : str.drop j with
  | nil => rfl
  | cons c p1 =>
    have hlen : (c :: p1).length ≤ str.length := by
      rw [← hp, List.length_drop]; omega
    simp only [List.length_cons] at hlen
    simp only []
    split
    · rename_i hcond
      apply hc
      have : p1 ≠ [] := by
        rintro rfl
        exact absurd hcond.2 (by decide)
      have := List.length_pos.mpr this
      simp only [List.length_drop]
      omega
    · apply doxy_scan_congr code code2 k hc
      split
      · simp only [List.length_drop]; omega
      · split
        · omega
        · simp only [List.length_cons]; omega

/-- The scan of a code line calls `doxy` only on texts at least two characters shorter than its own. -/
theorem code_scan_congr (doxy doxy2 : Scanner → List Char → Option Scanner) (k : Nat)
    (hd : ∀ st s, s.length + 2 ≤ k → doxy st s = doxy2 st s) (str : List Char) :
    ∀ (p : List Char) (st : Scanner) (escaped : Bool), p.length ≤ k →
      code_scan doxy str st escaped p = code_scan doxy2 str st escaped p
  | [], _, _, _ => rfl
  | c :: p1, st, escaped, h => by
    have ih := fun st' e' => code_scan_congr doxy doxy2 k hd str p1 st' e'
      (by simp only [List.length_cons] at h; omega)
    rw [code_scan, code_scan]
    by_cases h1 : c = '\\'
    · simp only [if_pos h1]
      exact ih _ _
    · simp only [if_neg h1]
      by_cases h2 : c = '"'
      · simp only [if_pos h2]
        exact ih _ _
      · simp only [if_neg h2]
        by_cases h3 : c = '/'
        · simp only [if_pos h3]
          by_cases h4 : (!st.in_string) = true
          · simp only [if_pos h4]
            by_cases h5 : deref p1 = '*'
            · simp only [if_pos h5]
              have hp1 : p1 ≠ [] := by
                rintro rfl
                exact absurd h5 (by decide)
              have hpos := List.length_pos.mpr hp1
              have key : ∀ st3, doxy st3
                  (if (decide (deref (List.drop 1 p1) = '*' ∨ deref (List.drop 1 p1) = '!')) = true
                    then List.drop 1 (List.drop 1 p1) else List.drop 1 p1)
                  = doxy2 st3
                  (if (decide (deref (List.drop 1 p1) = '*' ∨ deref (List.drop 1 p1) = '!')) = true
                    then List.drop 1 (List.drop 1 p1) else List.drop 1 p1) := by
                intro st3
                apply hd
                simp only [List.length_cons] at h
                split <;> simp only [List.length_drop] <;> omega
              simp only [key]
            · simp only [if_neg h5]
              exact ih _ _
          · simp only [if_neg h4]
            exact ih _ _
        · simp only [if_neg h3]
          exact ih _ _

/-- Two amounts of fuel above the length of the line give the same result. -/
theorem process_code_line_fuel_le (fs : FileSystem) :
    ∀ (L a b : Nat), L ≤ a → L ≤ b → ∀ (st : Scanner) (str : List Char), str.length ≤ L →
      process_code_line fs (a + 1) st str = process_code_line fs (b + 1) st str := by
  intro L
  induction L using Nat.strong_induction_on with
  | _ L ih =>
    intro a b ha hb st str hlen
    unfold process_code_line
    simp only []
    split
    · rfl
    · apply code_scan_congr _ _ L _ str str st false hlen
      intro st1 s1 hs1
      apply process_doxy_congr _ _ s1.length _ fs st1 s1 (le_refl _)
      intro st2 s2 hs2
      obtain ⟨a', rfl⟩ : ∃ a', a = a' + 1 := ⟨a - 1, by omega⟩
      obtain ⟨b', rfl⟩ : ∃ b', b = b' + 1 := ⟨b - 1, by omega⟩
      exact ih (L - 4) (by omega) a' b' (by omega) (by omega) st2 s2 (by omega)

/-- More fuel than the length of the line does not change `process_code_line`: the fuel that `process_line` supplies is enough. -/
theorem process_code_line_fuel (fs : FileSystem) (fuel : Nat) (st : Scanner) (str : List Char)
    (h : str.length < fuel) :
    process_code_line fs fuel st str = process_code_line fs (str.length + 1) st str := by
  obtain ⟨a, rfl⟩ : ∃ a, fuel = a + 1 := ⟨fuel - 1, by omega⟩
  exact process_code_line_fuel_le fs str.length a str.length (by omega) (le_refl _) st str
    (le_refl _)

/-! ### Fence openers (C9, C10) -/

/-- Without rule files and with an empty registry `get_index` returns (a null pointer) for every language. -/
theorem no_files_index_total (w : IndexWorld) (hw : w.registry = []) (L : List Char) :
    (get_index no_files w L).isSome = true := by
  simp [get_index, hw, seek_index, find_and_open_file, no_files]

/-- With `sql.hl` as the only rule file `get_index` returns for every language from the initial state. -/
theorem sql_files_index_total (L : List Char) :
    (get_index sql_files Scanner.init.world L).isSome = true := by
  by_cases h : L = "sql".toList
  · subst h
    decide!
  · have hne : ¬ (L ++ ".hl".toList = "sql.hl".toList) := by
      intro hh
      apply h
      have : "sql.hl".toList = "sql".toList ++ ".hl".toList := by decide
      rw [this] at hh
      exact List.append_cancel_right hh
    simp only [get_index, seek_index, Scanner.init, find_and_open_file, sql_files]
    rw [if_neg hne]
    rfl

/-- `set_fenced_language_function` returns when the lookup of the recorded language
does (no lookup is made for an empty language), and keeps the state, the fence
bookkeeping and the language. -/
theorem set_fenced_language_function_fields (fs : FileSystem) (st : Scanner)
    (hlook : st.fenced_language ≠ [] →
      (get_index fs st.world st.fenced_language).isSome = true) :
    ∃ st1, set_fenced_language_function fs st = some st1
      ∧ st1.state = st.state ∧ st1.fence_return_state = st.fence_return_state
      ∧ st1.fence_char = st.fence_char ∧ st1.fence_char_count = st.fence_char_count
      ∧ st1.fence_indent = st.fence_indent ∧ st1.fenced_language = st.fenced_language := by
  unfold set_fenced_language_function
  by_cases hl : st.fenced_language = []
  · simp [hl]
  · rw [if_pos hl]
    have h := hlook hl
    rcases hg : get_index fs st.world st.fenced_language with _ | ⟨w, _ | idx⟩
    · rw [hg] at h; cases h
    · simp only []
      split
      · exact ⟨_, rfl, rfl, rfl, rfl, rfl, rfl, rfl⟩
      · exact ⟨_, rfl, rfl, rfl, rfl, rfl, rfl, rfl⟩
    · exact ⟨_, rfl, rfl, rfl, rfl, rfl, rfl, rfl⟩

/-- `set_fence_values` returns when the lookup of the language it reads from the info
string does (no lookup is made when it reads no language); it sets the state to
`S_FENCED`, the return state to the old state, the fence character to the
character before `fence` and the indent to `indented`, keeps the count, and
records the language read from the info string. -/
theorem set_fence_values_fields (fs : FileSystem) (st : Scanner) (prev : Char)
    (fence : List Char) (indented : Int)
    (hlook : ¬ (fence = [] ∨ isspace (deref fence) = true) → (read_language fence).1 ≠ [] →
      (get_index fs st.world (read_language fence).1).isSome = true) :
    ∃ r, set_fence_values fs st prev fence indented = some r
      ∧ r.1.state = STATE.S_FENCED ∧ r.1.fence_return_state = st.state
      ∧ r.1.fence_char = prev ∧ r.1.fence_char_count = st.fence_char_count
      ∧ r.1.fence_indent = indented
      ∧ r.1.fenced_language
          = if fence = [] ∨ isspace (deref fence) then [] else (read_language fence).1 := by
  unfold set_fence_values
  by_cases h0 : fence = [] ∨ isspace (deref fence) = true
  · simp only [if_pos h0]
    exact ⟨_, rfl, rfl, rfl, rfl, rfl, rfl, rfl⟩
  · simp only [if_neg h0]
    by_cases hl : (read_language fence).1 = []
    · simp only [hl, ne_eq, not_true_eq_false, if_false]
      exact ⟨_, rfl, rfl, rfl, rfl, rfl, rfl, rfl⟩
    · simp only [ne_eq, hl, not_false_eq_true, if_true]
      obtain ⟨st1, h1, h2, h3, h4, h5, h6, h7⟩ :=
        set_fenced_language_function_fields fs { st with
          fence_indent := indented, fence_char := prev,
          fenced_language := (read_language fence).1,
          fence_return_state := st.state, state := STATE.S_FENCED } (fun _ => hlook h0 hl)
      rw [h1]
      exact ⟨_, rfl, h2, h3, h4, h5, h6, h7⟩

/-- `set_fence_values` faults when the lookup of the language it reads from the info
string does. -/
theorem set_fence_values_fault (fs : FileSystem) (st : Scanner) (prev : Char)
    (fence : List Char) (indented : Int)
    (h0 : ¬ (fence = [] ∨ isspace (deref fence) = true))
    (hl : (read_language fence).1 ≠ [])
    (hg : get_index fs st.world (read_language fence).1 = none) :
    set_fence_values fs st prev fence indented = none := by
  unfold set_fence_values
  simp only [if_neg h0, ne_eq, hl, not_false_eq_true, if_true]
  unfold set_fenced_language_function
  simp only [ne_eq, hl, not_false_eq_true, if_true, hg]

/-- The run counted at the start of `n` fence characters followed by another character has length `n`. -/
theorem takeWhile_run (fc : Char) (rest : List Char) (hrest : deref rest ≠ fc) :
    ∀ n : Nat, (List.replicate n fc ++ rest).takeWhile (fun d => d = fc) = List.replicate n fc
  | 0 => by
    cases rest with
    | nil => simp
    | cons a as =>
      have : a ≠ fc := by simpa [deref] using hrest
      simp [List.takeWhile, this]
  | n + 1 => by
    simp [List.replicate_succ, List.takeWhile, takeWhile_run fc rest hrest n]

/-- No fence character is counted at the start of a text that starts otherwise. -/
theorem takeWhile_rest (fc : Char) (rest : List Char) (hrest : deref rest ≠ fc) :
    rest.takeWhile (fun d => d = fc) = [] := by
  simpa using takeWhile_run fc rest hrest 0

/-- A fence character is neither white space nor `*`, `/` or NUL. -/
theorem fence_char_facts (fc : Char) (hfc : fc = BACKTICK ∨ fc = '~') :
    isspace fc = false ∧ fc ≠ '*' ∧ fc ≠ '/' ∧ fc ≠ NUL := by
  rcases hfc with h | h <;> subst h <;> decide

/-- The fence scan skips white space. -/
theorem doxy_scan_spaces (code : Scanner → List Char → Option Scanner) (fs : FileSystem)
    (str : List Char) (st : Scanner) (tail : List Char) :
    ∀ ws : List Char, (∀ c ∈ ws, isspace c = true) →
      doxy_scan code fs str st (ws ++ tail) = doxy_scan code fs str st tail
  | [], _ => rfl
  | c :: ws, h => by
    have hc : isspace c = true := h c (by simp)
    have ih := doxy_scan_spaces code fs str st tail ws (fun d hd => h d (by simp [hd]))
    simp only [List.cons_append, doxy_scan, hc, Bool.not_true, Bool.false_eq_true, if_false]
    exact ih

/-- Leading white space in front of a text that starts otherwise is dropped entirely. -/
theorem dropWhile_spaces (tail : List Char) (ht : isspace (deref tail) = false ∨ tail = []) :
    ∀ ws : List Char, (∀ c ∈ ws, isspace c = true) →
      (ws ++ tail).dropWhile isspace = tail
  | [], _ => by
    cases tail with
    | nil => rfl
    | cons a as =>
      have : isspace a = false := by
        rcases ht with h | h
        · simpa [deref] using h
        · cases h
      simp [List.dropWhile, this]
  | c :: ws, h => by
    have hc : isspace c = true := h c (by simp)
    have ih := dropWhile_spaces tail ht ws (fun d hd => h d (by simp [hd]))
    simp [List.dropWhile, hc, ih]

/-- The fence scan at a run of `n >= 3` fence characters calls `set_fence_values` with the count `n` and the column of the run. -/
theorem doxy_scan_fence (code : Scanner → List Char → Option Scanner) (fs : FileSystem)
    (str : List Char) (st : Scanner) (fc : Char) (n : Nat) (rest : List Char)
    (hfc : fc = BACKTICK ∨ fc = '~') (hn : 3 ≤ n) (hrest : deref rest ≠ fc) :
    doxy_scan code fs str st (List.replicate n fc ++ rest)
      = match set_fence_values fs { st with fence_char := fc, fence_char_count := (n : Int) }
          fc rest ((str.length - (List.replicate n fc ++ rest).length : Nat) : Int) with
        | none => none
        | some (st3, _) =>
          if st3.doxygen_is_handling_fenced_code then
            some (({ st3 with fence_indent := 0 }.puts str).puts ['\n'])
          else
            some ((st3.eputs "*** Begin fenced code, fencedfilter handling! ***\n".toList).puts
              code_start_text) := by
  obtain ⟨k, rfl⟩ : ∃ k, n = k + 3 := ⟨n - 3, by omega⟩
  obtain ⟨hsp, -, -, -⟩ := fence_char_facts fc hfc
  have hrun := takeWhile_run fc rest hrest k
  have hcnt : (3 : Int) + ((List.replicate k fc).length : Int) = ((k + 3 : Nat) : Int) := by
    simp
    omega
  simp only [List.replicate_succ, List.cons_append, doxy_scan, hsp, Bool.not_false, if_true,
    hfc, deref, List.headD_cons, List.drop_one, List.tail_cons, and_self, List.drop_succ_cons,
    List.drop_zero, hrun, hcnt, List.drop_left', List.length_replicate]
  have h0 := takeWhile_rest fc rest hrest
  have hd : List.drop k (List.replicate k fc ++ rest) = rest := by
    exact List.drop_left' (by simp)
  have hk : (3 : Int) + (k : Int) = (k : Int) + 3 := by omega
  simp [h0, hd, hk]

/-- `process_code_line` on a line that starts with a run of `n >= 3` fence characters calls `set_fence_values` with the count `n` and the indent 0. -/
theorem code_line_fence (fs : FileSystem) (fuel : Nat) (st : Scanner) (fc : Char) (n : Nat)
    (rest : List Char) (hfc : fc = BACKTICK ∨ fc = '~') (hn : 3 ≤ n) (hrest : deref rest ≠ fc) :
    process_code_line fs (fuel + 1) st (List.replicate n fc ++ rest)
      = match set_fence_values fs { st with fence_char_count := (n : Int) } fc rest 0 with
        | none => none
        | some (st1, _) =>
          if st1.doxygen_is_handling_fenced_code
          then some ((st1.puts (List.replicate n fc ++ rest)).puts ['\n'])
          else some (st1.puts code_start_text) := by
  have hd : deref (List.replicate n fc ++ rest) = fc := by
    obtain ⟨k, rfl⟩ : ∃ k, n = k + 1 := ⟨n - 1, by omega⟩
    simp [List.replicate_succ, deref]
  have hrun := takeWhile_run fc rest hrest n
  have hdrop : List.drop n (List.replicate n fc ++ rest) = rest := List.drop_left' (by simp)
  unfold process_code_line
  simp only [hd, hrun, List.length_replicate, hdrop]
  rw [if_pos ⟨hfc, by omega⟩]

/-- `process_doxy_block_comment_line` on white space, an optional `*`, white space
and a run of `n >= 3` fence characters calls `set_fence_values` with the count `n`
and the column of the run. -/
theorem doxy_line_fence (code : Scanner → List Char → Option Scanner) (fs : FileSystem)
    (st : Scanner) (fc : Char) (n : Nat) (ws1 star ws2 rest : List Char)
    (hfc : fc = BACKTICK ∨ fc = '~') (hn : 3 ≤ n) (hrest : deref rest ≠ fc)
    (h1 : ∀ c ∈ ws1, isspace c = true) (hstar : star = [] ∨ star = ['*'])
    (h2 : ∀ c ∈ ws2, isspace c = true) :
    process_doxy_block_comment_line code fs st
        (ws1 ++ star ++ ws2 ++ List.replicate n fc ++ rest)
      = match set_fence_values fs { st with fence_char := fc, fence_char_count := (n : Int) }
          fc rest (((ws1 ++ star ++ ws2).length : Nat) : Int) with
        | none => none
        | some (st3, _) =>
          if st3.doxygen_is_handling_fenced_code then
            some (({ st3 with fence_indent := 0 }.puts
              (ws1 ++ star ++ ws2 ++ List.replicate n fc ++ rest)).puts ['\n'])
          else
            some ((st3.eputs "*** Begin fenced code, fencedfilter handling! ***\n".toList).puts
              code_start_text) := by
  obtain ⟨hsp, hstar', hslash, -⟩ := fence_char_facts fc hfc
  obtain ⟨k, hk⟩ : ∃ k, n = k + 1 := ⟨n - 1, by omega⟩
  have hlen : (ws1 ++ star ++ ws2 ++ List.replicate n fc ++ rest).length
      - (List.replicate n fc ++ rest).length = (ws1 ++ star ++ ws2).length := by
    simp only [List.length_append]
    omega
  have hfence := doxy_scan_fence code fs (ws1 ++ star ++ ws2 ++ List.replicate n fc ++ rest)
    st fc n rest hfc hn hrest
  rw [hlen] at hfence
  have hrne : List.replicate n fc ++ rest ≠ [] := by
    rw [hk]; simp [List.replicate_succ]
  have hrhead : deref (List.replicate n fc ++ rest) = fc := by
    rw [hk]; simp [List.replicate_succ, deref]
  rcases hstar with hs | hs
  · subst hs
    have hdw : (ws1 ++ [] ++ ws2 ++ List.replicate n fc ++ rest).dropWhile isspace
        = List.replicate n fc ++ rest := by
      have := dropWhile_spaces (List.replicate n fc ++ rest) (Or.inl (by rw [hrhead]; exact hsp))
        (ws1 ++ ws2) (by
          intro c hc
          rcases List.mem_append.mp hc with h | h
          · exact h1 c h
          · exact h2 c h)
      simpa using this
    unfold process_doxy_block_comment_line
    rw [hdw, ← hfence]
    rw [hk]
    simp only [List.replicate_succ, List.cons_append, hstar', false_and, if_false]
    simp
  · subst hs
    have hdw : (ws1 ++ ['*'] ++ ws2 ++ List.replicate n fc ++ rest).dropWhile isspace
        = '*' :: (ws2 ++ (List.replicate n fc ++ rest)) := by
      have := dropWhile_spaces ('*' :: (ws2 ++ (List.replicate n fc ++ rest)))
        (Or.inl (by simp [deref, isspace])) ws1 h1
      simpa using this
    have hnoslash : deref (ws2 ++ (List.replicate n fc ++ rest)) ≠ '/' := by
      cases ws2 with
      | nil => simpa [hrhead] using hslash
      | cons c ws =>
        have hc : isspace c = true := h2 c (by simp)
        intro h
        simp only [List.cons_append, deref, List.headD_cons] at h
        rw [h] at hc
        exact absurd hc (by decide)
    unfold process_doxy_block_comment_line
    rw [hdw, ← hfence]
    simp only [hnoslash, and_false, if_false, true_and]
    by_cases hsp2 : deref (ws2 ++ (List.replicate n fc ++ rest)) = ' '
    · simp only [hsp2, if_true]
      cases ws2 with
      | nil =>
        simp only [List.nil_append, hrhead] at hsp2
        rw [hsp2] at hsp
        exact absurd hsp (by decide)
      | cons c ws =>
        have hws : ∀ d ∈ ws, isspace d = true := fun d hd => h2 d (by simp [hd])
        have hq : ws ++ (List.replicate n fc ++ rest) ≠ [] := by simp [hrne]
        simp only [List.cons_append, List.drop_one, List.tail_cons, hq, if_false]
        exact doxy_scan_spaces code fs _ st _ ws hws
    · have hq : ws2 ++ (List.replicate n fc ++ rest) ≠ [] := by simp [hrne]
      simp only [hsp2, if_false, if_true, hq]
      exact doxy_scan_spaces code fs _ st _ ws2 h2

/-- A fence opener whose one lookup returns: the line is processed and the fence is
recorded (see `C9_fence_opener_records_fence`). -/
theorem fence_opener_fields (fs : FileSystem) (st : Scanner) (s : STATE) (fc : Char)
    (n : Nat) (ws1 star ws2 rest : List Char)
    (hfc : fc = BACKTICK ∨ fc = '~') (hn : 3 ≤ n) (hrest : deref rest ≠ fc)
    (hs : st.state = s)
    (hshape : (s = STATE.S_CODE ∧ ws1 = [] ∧ star = [] ∧ ws2 = [])
      ∨ (s = STATE.S_DOXY_BLOCK_COMMENT ∧ (∀ c ∈ ws1, isspace c = true)
          ∧ (star = [] ∨ star = ['*']) ∧ (∀ c ∈ ws2, isspace c = true)))
    (hlook : ¬ (rest = [] ∨ isspace (deref rest) = true) → (read_language rest).1 ≠ [] →
      (get_index fs st.world (read_language rest).1).isSome = true) :
    ∃ st1, process_line fs st (ws1 ++ star ++ ws2 ++ List.replicate n fc ++ rest) = some st1
      ∧ st1.state = STATE.S_FENCED ∧ st1.fence_return_state = s ∧ st1.fence_char = fc
      ∧ st1.fence_char_count = (n : Int)
      ∧ st1.fence_indent
          = if st1.doxygen_is_handling_fenced_code then 0
            else ((ws1 ++ star ++ ws2).length : Int) := by
  rcases hshape with ⟨h0, rfl, rfl, rfl⟩ | ⟨h0, h1, hstar, h2⟩
  · subst h0
    obtain ⟨⟨st3, adv⟩, hr, e1, e2, e3, e4, e5, -⟩ :=
      set_fence_values_fields fs { st with fence_char_count := (n : Int) } fc rest 0 hlook
    simp only [List.append_nil, List.nil_append, process_line, hs]
    rw [code_line_fence fs _ st fc n rest hfc hn hrest, hr]
    simp only at e1 e2 e3 e4 e5
    by_cases hd : st3.doxygen_is_handling_fenced_code = true
    · simp only [hd, if_true]
      refine ⟨_, rfl, e1, by rw [← hs]; exact e2, e3, e4, ?_⟩
      show st3.fence_indent = _
      rw [e5]
      split <;> simp
    · simp only [hd, if_false]
      refine ⟨_, rfl, e1, by rw [← hs]; exact e2, e3, e4, ?_⟩
      show st3.fence_indent = _
      rw [e5]
      split <;> simp
  · subst h0
    obtain ⟨⟨st3, adv⟩, hr, e1, e2, e3, e4, e5, -⟩ :=
      set_fence_values_fields fs { st with fence_char := fc, fence_char_count := (n : Int) }
        fc rest (((ws1 ++ star ++ ws2).length : Nat) : Int) hlook
    simp only [process_line, hs]
    rw [doxy_line_fence _ fs st fc n ws1 star ws2 rest hfc hn hrest h1 hstar h2, hr]
    simp only at e1 e2 e3 e4 e5
    by_cases hd : st3.doxygen_is_handling_fenced_code = true
    · simp only [hd, if_true]
      refine ⟨_, rfl, e1, by rw [← hs]; exact e2, e3, e4, ?_⟩
      have : (({ st3 with fence_indent := 0 }.puts
          (ws1 ++ star ++ ws2 ++ List.replicate n fc ++ rest)).puts
            ['\n']).doxygen_is_handling_fenced_code = true := hd
      rw [if_pos this]
      rfl
    · simp only [hd, if_false]
      refine ⟨_, rfl, e1, by rw [← hs]; exact e2, e3, e4, ?_⟩
      have : ((st3.eputs "*** Begin fenced code, fencedfilter handling! ***\n".toList).puts
          code_start_text).doxygen_is_handling_fenced_code = st3.doxygen_is_handling_fenced_code :=
        rfl
      rw [this, if_neg hd]
      exact e5

/-- A fence opener whose one lookup faults is not processed. -/
theorem fence_opener_fault (fs : FileSystem) (st : Scanner) (s : STATE) (fc : Char)
    (n : Nat) (ws1 star ws2 rest : List Char)
    (hfc : fc = BACKTICK ∨ fc = '~') (hn : 3 ≤ n) (hrest : deref rest ≠ fc)
    (hs : st.state = s)
    (hshape : (s = STATE.S_CODE ∧ ws1 = [] ∧ star = [] ∧ ws2 = [])
      ∨ (s = STATE.S_DOXY_BLOCK_COMMENT ∧ (∀ c ∈ ws1, isspace c = true)
          ∧ (star = [] ∨ star = ['*']) ∧ (∀ c ∈ ws2, isspace c = true)))
    (h0 : ¬ (rest = [] ∨ isspace (deref rest) = true))
    (hl : (read_language rest).1 ≠ [])
    (hg : get_index fs st.world (read_language rest).1 = none) :
    process_line fs st (ws1 ++ star ++ ws2 ++ List.replicate n fc ++ rest) = none := by
  rcases hshape with ⟨h1, rfl, rfl, rfl⟩ | ⟨h1, h2, hstar, h3⟩
  · subst h1
    simp only [List.append_nil, List.nil_append, process_line, hs]
    rw [code_line_fence fs _ st fc n rest hfc hn hrest,
      set_fence_values_fault fs { st with fence_char_count := (n : Int) } fc rest 0 h0 hl hg]
  · subst h1
    simp only [process_line, hs]
    rw [doxy_line_fence _ fs st fc n ws1 star ws2 rest hfc hn hrest h2 hstar h3,
      set_fence_values_fault fs { st with fence_char := fc, fence_char_count := (n : Int) }
        fc rest _ h0 hl hg]

/-- C9: let the line be `ws1 ++ star ++ ws2 ++ fc^n ++ rest` with `fc` a backtick or a
tilde, `n >= 3` and `rest` not starting with `fc`, read in state `s`, where either
`s = S_CODE` and the run stands at column 0, or `s = S_DOXY_BLOCK_COMMENT` and
`ws1`, `ws2` are white space and `star` is empty or one `*`.  The line makes at
most one lookup, `get_index` for the language its info string `rest` declares.
When the line declares no language, or when that lookup returns, the line is
processed and afterwards the state is `S_FENCED`, `fence_return_state = s`,
`fence_char = fc`, `fence_char_count = n`, and `fence_indent` is the column of the
run when the filter renders the block and 0 when the block is passed through to
the doc generator; nothing is asked of any other rule file.  When that lookup
faults, the line faults with it. -/
theorem C9_fence_opener_records_fence (fs : FileSystem) (st : Scanner) (s : STATE) (fc : Char)
    (n : Nat) (ws1 star ws2 rest : List Char)
    (hfc : fc = BACKTICK ∨ fc = '~') (hn : 3 ≤ n) (hrest : deref rest ≠ fc)
    (hs : st.state = s)
    (hshape : (s = STATE.S_CODE ∧ ws1 = [] ∧ star = [] ∧ ws2 = [])
      ∨ (s = STATE.S_DOXY_BLOCK_COMMENT ∧ (∀ c ∈ ws1, isspace c = true)
          ∧ (star = [] ∨ star = ['*']) ∧ (∀ c ∈ ws2, isspace c = true))) :
    ((rest = [] ∨ isspace (deref rest) = true ∨ (read_language rest).1 = []
        ∨ (get_index fs st.world (read_language rest).1).isSome = true) →
      ∃ st1, process_line fs st (ws1 ++ star ++ ws2 ++ List.replicate n fc ++ rest) = some st1
        ∧ st1.state = STATE.S_FENCED ∧ st1.fence_return_state = s ∧ st1.fence_char = fc
        ∧ st1.fence_char_count = (n : Int)
        ∧ st1.fence_indent
            = if st1.doxygen_is_handling_fenced_code then 0
              else ((ws1 ++ star ++ ws2).length : Int))
    ∧ (¬ (rest = [] ∨ isspace (deref rest) = true) → (read_language rest).1 ≠ [] →
        get_index fs st.world (read_language rest).1 = none →
        process_line fs st (ws1 ++ star ++ ws2 ++ List.replicate n fc ++ rest) = none) := by
  refine ⟨fun hcond => ?_, fun h0 hl hg =>
    fence_opener_fault fs st s fc n ws1 star ws2 rest hfc hn hrest hs hshape h0 hl hg⟩
  refine fence_opener_fields fs st s fc n ws1 star ws2 rest hfc hn hrest hs hshape ?_
  intro h0 hl
  rcases hcond with a | a | a | a
  · exact absurd (Or.inl a) h0
  · exact absurd (Or.inr a) h0
  · exact absurd a hl
  · exact a

/-- Witness of C9: the line ` * ~~~.sql` read in `S_DOXY_BLOCK_COMMENT` with `sql.hl`
at hand. -/
theorem C9_fence_opener_records_fence_witness :
    ∃ st1, process_line sql_files in_doxy_comment
        (" ".toList ++ "*".toList ++ " ".toList ++ List.replicate 3 '~' ++ ".sql".toList)
          = some st1
      ∧ st1.state = STATE.S_FENCED ∧ st1.fence_return_state = STATE.S_DOXY_BLOCK_COMMENT
      ∧ st1.fence_char = '~' ∧ st1.fence_char_count = ((3 : Nat) : Int)
      ∧ st1.fence_indent
          = if st1.doxygen_is_handling_fenced_code then 0
            else ((" ".toList ++ "*".toList ++ " ".toList).length : Int) :=
  (C9_fence_opener_records_fence sql_files in_doxy_comment STATE.S_DOXY_BLOCK_COMMENT '~' 3
    " ".toList "*".toList " ".toList ".sql".toList (Or.inr rfl) (by decide) (by decide) rfl
    (Or.inr ⟨rfl, by decide, Or.inr rfl, by decide⟩)).1
    (Or.inr (Or.inr (Or.inr (sql_files_index_total _))))

/-- Without braces the copying loop copies a text without white space up to its room. -/
theorem language_loop_unbraced :
    ∀ (room : Nat) (w : List Char), (∀ c ∈ w, isspace c = false) →
      (language_loop false room w).1 = w.take room
  | 0, w, _ => by simp [language_loop]
  | room + 1, [], _ => by simp [language_loop]
  | room + 1, c :: w, h => by
    have hc : isspace c = false := h c (by simp)
    have ih := language_loop_unbraced room w (fun d hd => h d (by simp [hd]))
    simp [language_loop, hc, ih]

/-- Inside braces the copying loop copies a text without closing brace up to its room. -/
theorem language_loop_braced :
    ∀ (room : Nat) (w : List Char), (∀ c ∈ w, c ≠ '\x7d') →
      (language_loop true room (w ++ ['\x7d'])).1 = w.take room
  | 0, w, _ => by simp [language_loop]
  | room + 1, [], _ => by simp [language_loop]
  | room + 1, c :: w, h => by
    have hc : c ≠ '\x7d' := h c (by simp)
    have ih := language_loop_braced room w (fun d hd => h d (by simp [hd]))
    simp [language_loop, hc, ih]

/-- The four forms of an info string for `w` yield the first nine characters of `w`. -/
theorem read_language_forms (w : List Char)
    (hw : ∀ c ∈ w, isspace c = false ∧ c ≠ '\x7b' ∧ c ≠ '\x7d') (hdot : w.head? ≠ some '.') :
    (w ≠ [] → (read_language w).1 = w.take 9)
    ∧ (read_language ('.' :: w)).1 = w.take 9
    ∧ (read_language ('\x7b' :: (w ++ ['\x7d']))).1 = w.take 9
    ∧ (read_language ('\x7b' :: '.' :: (w ++ ['\x7d']))).1 = w.take 9 := by
  have hU := language_loop_unbraced 9 w (fun c hc => (hw c hc).1)
  have hB := language_loop_braced 9 w (fun c hc => (hw c hc).2.2)
  have hhead : deref (w ++ ['\x7d']) ≠ '.' := by
    cases w with
    | nil => simp [deref]
    | cons c w => simpa [deref] using hdot
  refine ⟨?_, ?_, ?_, ?_⟩
  · intro hne
    cases w with
    | nil => exact absurd rfl hne
    | cons c w =>
      have hc := hw c (by simp)
      have hd : c ≠ '.' := by simpa using hdot
      simp only [read_language, deref, List.headD_cons, hc.2.1, hd, decide_False, if_false,
        Bool.false_eq_true]
      exact hU
  · simp [read_language, deref, hU]
  · simp only [read_language, deref, List.headD_cons, decide_True, if_true, List.drop_one,
      List.tail_cons]
    have : (w ++ ['\x7d']).headD NUL ≠ '.' := hhead
    simp only [this, if_false]
    exact hB
  · simp [read_language, deref, hB]

/-- The four forms of an info string for `w` when the one lookup they make returns:
`set_fence_values` returns for each of them and records the first nine characters of
`w` (see `C10_info_string_forms_same_language`). -/
theorem info_string_forms_recorded (fs : FileSystem) (st : Scanner) (prev : Char)
    (indented : Int) (w : List Char)
    (hw : ∀ c ∈ w, isspace c = false ∧ c ≠ '\x7b' ∧ c ≠ '\x7d') (hdot : w.head? ≠ some '.')
    (hlook : w ≠ [] → (get_index fs st.world (w.take 9)).isSome = true) :
    (∃ r, set_fence_values fs st prev w indented = some r ∧ r.1.fenced_language = w.take 9)
    ∧ (∃ r, set_fence_values fs st prev ('.' :: w) indented = some r
        ∧ r.1.fenced_language = w.take 9)
    ∧ (∃ r, set_fence_values fs st prev ('\x7b' :: (w ++ ['\x7d'])) indented = some r
        ∧ r.1.fenced_language = w.take 9)
    ∧ (∃ r, set_fence_values fs st prev ('\x7b' :: '.' :: (w ++ ['\x7d'])) indented = some r
        ∧ r.1.fenced_language = w.take 9)
    ∧ (w.length ≤ 9 → w.take 9 = w) := by
  obtain ⟨h1, h2, h3, h4⟩ := read_language_forms w hw hdot
  have hne : w.take 9 ≠ [] → w ≠ [] := by
    intro h hh
    rw [hh] at h
    exact h rfl
  refine ⟨?_, ?_, ?_, ?_, fun h => List.take_of_length_le h⟩
  · obtain ⟨r, hr, _, _, _, _, _, hl⟩ := set_fence_values_fields fs st prev w indented
      (fun _ hl => by
        have hw0 : w ≠ [] := fun hh => hl (by rw [hh]; rfl)
        rw [h1 hw0] at hl ⊢
        exact hlook hw0)
    refine ⟨r, hr, ?_⟩
    rw [hl]
    cases w with
    | nil => simp
    | cons c w =>
      have hc := hw c (by simp)
      simp only [deref, List.headD_cons, hc.1, reduceCtorEq, or_self, if_false,
        Bool.false_eq_true]
      exact h1 (by simp)
  · obtain ⟨r, hr, _, _, _, _, _, hl⟩ :=
      set_fence_values_fields fs st prev ('.' :: w) indented
        (fun _ hl => by rw [h2] at hl ⊢; exact hlook (hne hl))
    refine ⟨r, hr, ?_⟩
    rw [hl, ← h2]
    simp [deref, isspace]
  · obtain ⟨r, hr, _, _, _, _, _, hl⟩ :=
      set_fence_values_fields fs st prev ('\x7b' :: (w ++ ['\x7d'])) indented
        (fun _ hl => by rw [h3] at hl ⊢; exact hlook (hne hl))
    refine ⟨r, hr, ?_⟩
    rw [hl, ← h3]
    simp [deref, isspace]
  · obtain ⟨r, hr, _, _, _, _, _, hl⟩ :=
      set_fence_values_fields fs st prev ('\x7b' :: '.' :: (w ++ ['\x7d'])) indented
        (fun _ hl => by rw [h4] at hl ⊢; exact hlook (hne hl))
    refine ⟨r, hr, ?_⟩
    rw [hl, ← h4]
    simp [deref, isspace]

/-- C10: for every `w` without white space and braces that does not start with a
period: the language that `set_fence_values` reads from each of the info strings
`w` (for `w` not empty), `.w`, `(brace)w(brace)` and `(brace).w(brace)` is the first
nine characters of `w`.  The four info strings make at most one lookup, `get_index`
for that language: when `w` is empty or the lookup returns, `set_fence_values`
returns for each of the four and records that language, which is `w` itself when
`w` has at most nine characters; nothing is asked of any other rule file.  When the
lookup faults, `set_fence_values` faults for each of the four. -/
theorem C10_info_string_forms_same_language (fs : FileSystem) (st : Scanner) (prev : Char)
    (indented : Int) (w : List Char)
    (hw : ∀ c ∈ w, isspace c = false ∧ c ≠ '\x7b' ∧ c ≠ '\x7d') (hdot : w.head? ≠ some '.') :
    ((w ≠ [] → (read_language w).1 = w.take 9)
      ∧ (read_language ('.' :: w)).1 = w.take 9
      ∧ (read_language ('\x7b' :: (w ++ ['\x7d']))).1 = w.take 9
      ∧ (read_language ('\x7b' :: '.' :: (w ++ ['\x7d']))).1 = w.take 9)
    ∧ ((w = [] ∨ (get_index fs st.world (w.take 9)).isSome = true) →
      (∃ r, set_fence_values fs st prev w indented = some r ∧ r.1.fenced_language = w.take 9)
      ∧ (∃ r, set_fence_values fs st prev ('.' :: w) indented = some r
          ∧ r.1.fenced_language = w.take 9)
      ∧ (∃ r, set_fence_values fs st prev ('\x7b' :: (w ++ ['\x7d'])) indented = some r
          ∧ r.1.fenced_language = w.take 9)
      ∧ (∃ r, set_fence_values fs st prev ('\x7b' :: '.' :: (w ++ ['\x7d'])) indented = some r
          ∧ r.1.fenced_language = w.take 9)
      ∧ (w.length ≤ 9 → w.take 9 = w))
    ∧ (w ≠ [] → get_index fs st.world (w.take 9) = none →
      set_fence_values fs st prev w indented = none
      ∧ set_fence_values fs st prev ('.' :: w) indented = none
      ∧ set_fence_values fs st prev ('\x7b' :: (w ++ ['\x7d'])) indented = none
      ∧ set_fence_values fs st prev ('\x7b' :: '.' :: (w ++ ['\x7d'])) indented = none) := by
  obtain ⟨h1, h2, h3, h4⟩ := read_language_forms w hw hdot
  refine ⟨⟨h1, h2, h3, h4⟩, fun hcond => ?_, fun hne hg => ?_⟩
  · refine info_string_forms_recorded fs st prev indented w hw hdot ?_
    intro hne
    rcases hcond with a | a
    · exact absurd a hne
    · exact a
  · have hlang : w.take 9 ≠ [] := by
      cases w with
      | nil => exact absurd rfl hne
      | cons c w => simp
    have hfirst : ¬ (w = [] ∨ isspace (deref w) = true) := by
      cases w with
      | nil => exact absurd rfl hne
      | cons c w =>
        have hc := hw c (by simp)
        simp [deref, hc.1]
    refine ⟨?_, ?_, ?_, ?_⟩
    · exact set_fence_values_fault fs st prev w indented hfirst
        (by rw [h1 hne]; exact hlang) (by rw [h1 hne]; exact hg)
    · exact set_fence_values_fault fs st prev _ indented (by simp [deref, isspace])
        (by rw [h2]; exact hlang) (by rw [h2]; exact hg)
    · exact set_fence_values_fault fs st prev _ indented (by simp [deref, isspace])
        (by rw [h3]; exact hlang) (by rw [h3]; exact hg)
    · exact set_fence_values_fault fs st prev _ indented (by simp [deref, isspace])
        (by rw [h4]; exact hlang) (by rw [h4]; exact hg)

/-- Witness of C10: the four forms for `sql`, with `sql.hl` at hand. -/
theorem C10_info_string_forms_same_language_witness :
    (∃ r, set_fence_values sql_files Scanner.init '~' "sql".toList 0 = some r
        ∧ r.1.fenced_language = "sql".toList.take 9)
    ∧ (∃ r, set_fence_values sql_files Scanner.init '~' ('.' :: "sql".toList) 0 = some r
        ∧ r.1.fenced_language = "sql".toList.take 9)
    ∧ (∃ r, set_fence_values sql_files Scanner.init '~' ('\x7b' :: ("sql".toList ++ ['\x7d'])) 0
          = some r ∧ r.1.fenced_language = "sql".toList.take 9)
    ∧ (∃ r, set_fence_values sql_files Scanner.init '~'
          ('\x7b' :: '.' :: ("sql".toList ++ ['\x7d'])) 0 = some r
        ∧ r.1.fenced_language = "sql".toList.take 9)
    ∧ ("sql".toList.length ≤ 9 → "sql".toList.take 9 = "sql".toList) :=
  (C10_info_string_forms_same_language sql_files Scanner.init '~' 0 "sql".toList
    (by decide) (by decide)).2.1 (Or.inr (sql_files_index_total _))

/-! ### The handler a fence opener installs (C11, C12) -/

/-- C11 (code defect): an info string that is not empty and does not start with
white space but yields no language (`.`, `\x7b\x7d`, `\x7b.\x7d`) leaves
`fenced_language` empty and does not touch `fenced_line_func`.  As the first fence
of a run the handler is still `unspecified_fenced_line_func`; after a fence of
`sql` it is still `print_fenced_line_with_highlighting`, and the next fenced line
is highlighted with the rules of `sql`.  Only the empty info string installs
`print_fenced_line_with_doxygen`. -/
theorem C11_empty_language_keeps_handler :
    (process_lines sql_files Scanner.init ["~~~.".toList]).map
        (fun st => (st.state, st.fenced_language, st.fenced_line_func))
      = some (STATE.S_FENCED, [], Fenced_Line_Func.unspecified_fenced_line_func)
    ∧ (process_lines sql_files Scanner.init ["~~~sql".toList, "~~~".toList, "~~~.".toList]).map
        (fun st => (st.state, st.fenced_language, st.fenced_line_func))
      = some (STATE.S_FENCED, [], Fenced_Line_Func.print_fenced_line_with_highlighting)
    ∧ (process_lines sql_files Scanner.init
          ["~~~sql".toList, "~~~".toList, "~~~\x7b\x7d".toList]).map
        (fun st => (st.state, st.fenced_language, st.fenced_line_func))
      = some (STATE.S_FENCED, [], Fenced_Line_Func.print_fenced_line_with_highlighting)
    ∧ (process_lines sql_files Scanner.init
          ["~~~sql".toList, "~~~".toList, "~~~\x7b.\x7d".toList]).map
        (fun st => (st.state, st.fenced_language, st.fenced_line_func))
      = some (STATE.S_FENCED, [], Fenced_Line_Func.print_fenced_line_with_highlighting)
    ∧ (process_lines sql_files Scanner.init
          ["~~~sql".toList, "~~~".toList, "~~~.".toList, "select x".toList]).map
        (fun st => st.out)
      = some ("  @htmlonly <div class=\"fragment\">\n  </div> @endhtmlonly\n".toList
          ++ "  @htmlonly <div class=\"fragment\">\n".toList
          ++ "  <div class=\"line\"><span class=\"keywordflow\">select</span> x</div>\n".toList)
    ∧ (process_lines sql_files Scanner.init ["~~~sql".toList, "~~~".toList, "~~~".toList]).map
        (fun st => (st.state, st.fenced_language, st.fenced_line_func))
      = some (STATE.S_FENCED, [], Fenced_Line_Func.print_fenced_line_with_doxygen) := by
  decide!

/-- `get_index` never returns an empty index. -/
theorem get_index_not_empty (fs : FileSystem) (w w1 : IndexWorld) (L : List Char)
    (idx : HLIndex) (h : get_index fs w L = some (w1, some idx)) : idx.is_empty = false := by
  unfold get_index at h
  split at h
  · cases h
  · rename_i i _
    cases he : i.is_empty
    · simp only [he, Bool.false_eq_true, if_false, Option.some.injEq, Prod.mk.injEq] at h
      rw [← h.2]; exact he
    · simp [he] at h
  · split at h
    · simp at h
    · split at h
      · cases h
      · split at h
        · cases h
        · rename_i i _
          cases he : i.is_empty
          · simp only [he, Bool.false_eq_true, if_false, Option.some.injEq, Prod.mk.injEq] at h
            rw [← h.2]; exact he
          · simp [he] at h

/-- A language that is not in the registry and has no rule file gets a null pointer, and the registry is left as it is. -/
theorem get_index_missing_file (fs : FileSystem) (w : IndexWorld) (L : List Char)
    (hseek : seek_index w.registry L = some none) (hfile : find_and_open_file fs L = none) :
    get_index fs w L = some (w, none) := by
  simp [get_index, hseek, hfile]

/-- `set_fence_values` at an info string that declares a language: the handler is chosen from the result of `get_index`. -/
theorem set_fence_values_language (fs : FileSystem) (st : Scanner) (prev : Char)
    (fence : List Char) (indented : Int)
    (h0 : ¬ (fence = [] ∨ isspace (deref fence) = true))
    (hl : (read_language fence).1 ≠ []) :
    (∀ w r, get_index fs st.world (read_language fence).1 = some (w, r) →
      ∃ res, set_fence_values fs st prev fence indented = some res
        ∧ res.1.state = STATE.S_FENCED
        ∧ res.1.fenced_language = (read_language fence).1
        ∧ res.1.world = w ∧ res.1.g_hlindex = r
        ∧ res.1.fenced_line_func
            = (match r with
              | some _ => Fenced_Line_Func.print_fenced_line_with_highlighting
              | none =>
                if (read_language fence).1 = "text".toList ∨ (read_language fence).1 = "txt".toList
                then Fenced_Line_Func.print_fenced_line_as_text
                else Fenced_Line_Func.print_fenced_line_with_doxygen))
    ∧ (get_index fs st.world (read_language fence).1 = none →
        set_fence_values fs st prev fence indented = none) := by
  unfold set_fence_values
  simp only [if_neg h0, ne_eq, hl, not_false_eq_true, if_true]
  unfold set_fenced_language_function
  simp only [ne_eq, hl, not_false_eq_true, if_true]
  constructor
  · intro w r hg
    rw [hg]
    cases r with
    | some idx => exact ⟨_, rfl, rfl, rfl, rfl, rfl, rfl⟩
    | none =>
      simp only []
      by_cases ht : (read_language fence).1 = "text".toList ∨ (read_language fence).1 = "txt".toList
      · rw [if_pos ht]
        refine ⟨_, rfl, rfl, rfl, rfl, rfl, ?_⟩
        simp only [if_pos ht]
      · rw [if_neg ht]
        refine ⟨_, rfl, rfl, rfl, rfl, rfl, ?_⟩
        simp only [if_neg ht]
  · intro hg
    rw [hg]

/-- C12: let the line be a fence opener as in C9 whose info string `rest` is not
empty, does not start with white space and declares the language
`L = (read_language rest).1`, `L` not empty.  If `get_index` returns `(w, r)` for
`L`, the line is processed, the state is `S_FENCED`, the language recorded is `L`,
`g_hlindex` is `r`, and the handler is `print_fenced_line_with_highlighting` when
`r` is an index (which is then not empty), otherwise `print_fenced_line_as_text`
when `L` is `text` or `txt`, otherwise `print_fenced_line_with_doxygen`.  A language
that is not registered and has no rule file makes `get_index` return the null
pointer without a fault, so the scan goes on. -/
theorem C12_handler_after_language (fs : FileSystem) (st : Scanner) (s : STATE) (fc : Char)
    (n : Nat) (ws1 star ws2 rest : List Char)
    (hfc : fc = BACKTICK ∨ fc = '~') (hn : 3 ≤ n) (hrest : deref rest ≠ fc)
    (hs : st.state = s)
    (hshape : (s = STATE.S_CODE ∧ ws1 = [] ∧ star = [] ∧ ws2 = [])
      ∨ (s = STATE.S_DOXY_BLOCK_COMMENT ∧ (∀ c ∈ ws1, isspace c = true)
          ∧ (star = [] ∨ star = ['*']) ∧ (∀ c ∈ ws2, isspace c = true)))
    (hinfo : ¬ (rest = [] ∨ isspace (deref rest) = true))
    (hlang : (read_language rest).1 ≠ []) :
    (∀ w r, get_index fs st.world (read_language rest).1 = some (w, r) →
      ∃ st1, process_line fs st (ws1 ++ star ++ ws2 ++ List.replicate n fc ++ rest) = some st1
        ∧ st1.state = STATE.S_FENCED
        ∧ st1.fenced_language = (read_language rest).1
        ∧ st1.g_hlindex = r
        ∧ (st1.fenced_line_func = Fenced_Line_Func.print_fenced_line_with_highlighting
            ↔ ∃ idx, r = some idx ∧ idx.is_empty = false)
        ∧ (r = none →
            (st1.fenced_line_func = Fenced_Line_Func.print_fenced_line_as_text
              ↔ ((read_language rest).1 = "text".toList ∨ (read_language rest).1 = "txt".toList)))
        ∧ (r = none →
            ¬ ((read_language rest).1 = "text".toList ∨ (read_language rest).1 = "txt".toList) →
            st1.fenced_line_func = Fenced_Line_Func.print_fenced_line_with_doxygen))
    ∧ (seek_index st.world.registry (read_language rest).1 = some none →
        find_and_open_file fs (read_language rest).1 = none →
        get_index fs st.world (read_language rest).1 = some (st.world, none)) := by
  refine ⟨?_, get_index_missing_file fs st.world _⟩
  intro w r hg
  have key : ∀ st0 : Scanner, st0.world = st.world → ∀ (prev : Char) (ind : Int),
      ∃ res, set_fence_values fs st0 prev rest ind = some res
        ∧ res.1.state = STATE.S_FENCED
        ∧ res.1.fenced_language = (read_language rest).1
        ∧ res.1.g_hlindex = r
        ∧ (res.1.fenced_line_func = Fenced_Line_Func.print_fenced_line_with_highlighting
            ↔ ∃ idx, r = some idx ∧ idx.is_empty = false)
        ∧ (r = none →
            (res.1.fenced_line_func = Fenced_Line_Func.print_fenced_line_as_text
              ↔ ((read_language rest).1 = "text".toList ∨ (read_language rest).1 = "txt".toList)))
        ∧ (r = none →
            ¬ ((read_language rest).1 = "text".toList ∨ (read_language rest).1 = "txt".toList) →
            res.1.fenced_line_func = Fenced_Line_Func.print_fenced_line_with_doxygen) := by
    intro st0 hw prev ind
    obtain ⟨res, h1, h2, h3, -, h5, h6⟩ :=
      (set_fence_values_language fs st0 prev rest ind hinfo hlang).1 w r (by rw [hw]; exact hg)
    refine ⟨res, h1, h2, h3, h5, ?_, ?_, ?_⟩
    · rw [h6]
      cases r with
      | some idx =>
        simp only [true_iff]
        exact ⟨idx, rfl, get_index_not_empty fs st.world w _ idx hg⟩
      | none =>
        simp only []
        constructor
        · intro h
          split at h <;> cases h
        · rintro ⟨idx, h, -⟩
          cases h
    · intro hr
      subst hr
      rw [h6]
      simp only []
      constructor
      · intro h
        by_contra hc
        rw [if_neg hc] at h
        cases h
      · intro h
        rw [if_pos h]
    · intro hr hc
      subst hr
      rw [h6]
      simp only []
      rw [if_neg hc]
  rcases hshape with ⟨h0, rfl, rfl, rfl⟩ | ⟨h0, h1, hstar, h2⟩
  · subst h0
    obtain ⟨⟨st3, adv⟩, hr, e⟩ := key { st with fence_char_count := (n : Int) } rfl fc 0
    simp only [List.append_nil, List.nil_append, process_line, hs]
    rw [code_line_fence fs _ st fc n rest hfc hn hrest, hr]
    by_cases hd : st3.doxygen_is_handling_fenced_code = true
    · simp only [hd, if_true]
      exact ⟨_, rfl, e⟩
    · simp only [hd, if_false]
      exact ⟨_, rfl, e⟩
  · subst h0
    obtain ⟨⟨st3, adv⟩, hr, e⟩ :=
      key { st with fence_char := fc, fence_char_count := (n : Int) } rfl fc
        (((ws1 ++ star ++ ws2).length : Nat) : Int)
    simp only [process_line, hs]
    rw [doxy_line_fence _ fs st fc n ws1 star ws2 rest hfc hn hrest h1 hstar h2, hr]
    by_cases hd : st3.doxygen_is_handling_fenced_code = true
    · simp only [hd, if_true]
      exact ⟨_, rfl, e⟩
    · simp only [hd, if_false]
      exact ⟨_, rfl, e⟩

/-- Witness of C12: from the initial state with `sql.hl` as the only rule file, the
opener `~~~sql` installs the highlighter, `~~~txt` the plain-text wrapper and
`~~~python` the passthrough; the state is `S_FENCED` each time. -/
theorem C12_handler_after_language_witness :
    (∃ st1, process_line sql_files Scanner.init
          ([] ++ [] ++ [] ++ List.replicate 3 '~' ++ "sql".toList) = some st1
        ∧ st1.state = STATE.S_FENCED
        ∧ st1.fenced_line_func = Fenced_Line_Func.print_fenced_line_with_highlighting)
    ∧ (∃ st1, process_line sql_files Scanner.init
          ([] ++ [] ++ [] ++ List.replicate 3 '~' ++ "txt".toList) = some st1
        ∧ st1.state = STATE.S_FENCED
        ∧ st1.fenced_line_func = Fenced_Line_Func.print_fenced_line_as_text)
    ∧ (∃ st1, process_line sql_files Scanner.init
          ([] ++ [] ++ [] ++ List.replicate 3 '~' ++ "python".toList) = some st1
        ∧ st1.state = STATE.S_FENCED
        ∧ st1.fenced_line_func = Fenced_Line_Func.print_fenced_line_with_doxygen) := by
  refine ⟨?_, ?_, ?_⟩
  · obtain ⟨st1, h1, h2, -, -, h5, -, -⟩ :=
      (C12_handler_after_language sql_files Scanner.init STATE.S_CODE '~' 3 [] [] []
        "sql".toList (Or.inr rfl) (by decide) (by decide) rfl (Or.inl ⟨rfl, rfl, rfl, rfl⟩)
        (by decide) (by decide)).1 sql_world (some sql_index) (by decide!)
    exact ⟨st1, h1, h2, h5.2 ⟨sql_index, rfl, by decide!⟩⟩
  · obtain ⟨st1, h1, h2, -, -, -, h6, -⟩ :=
      (C12_handler_after_language sql_files Scanner.init STATE.S_CODE '~' 3 [] [] []
        "txt".toList (Or.inr rfl) (by decide) (by decide) rfl (Or.inl ⟨rfl, rfl, rfl, rfl⟩)
        (by decide) (by decide)).1 Scanner.init.world none (by decide!)
    exact ⟨st1, h1, h2, (h6 rfl).2 (by decide)⟩
  · obtain ⟨st1, h1, h2, -, -, -, -, h7⟩ :=
      (C12_handler_after_language sql_files Scanner.init STATE.S_CODE '~' 3 [] [] []
        "python".toList (Or.inr rfl) (by decide) (by decide) rfl (Or.inl ⟨rfl, rfl, rfl, rfl⟩)
        (by decide) (by decide)).1 Scanner.init.world none (by decide!)
    exact ⟨st1, h1, h2, h7 rfl (by decide)⟩

/-! ### The matchers and the two lookups (C13, C14) -/

/-- The loop of the matchers stops behind the longest common prefix: the pointers
are the two strings advanced by the count, and the needle is used up exactly when
it is a prefix of the folded haystack. -/
theorem match_run_spec (f : Char → Char) :
    ∀ hay needle : List Char,
      (match_run f hay needle).2.1 = hay.drop (match_run f hay needle).1
      ∧ (match_run f hay needle).2.2 = needle.drop (match_run f hay needle).1
      ∧ ((match_run f hay needle).2.2 = [] ↔ (hay.map f).take needle.length = needle)
      ∧ ((match_run f hay needle).2.2 = [] → (match_run f hay needle).1 = needle.length)
  | [], [] => by simp [match_run]
  | [], n :: ns => by simp [match_run]
  | h :: hs, [] => by simp [match_run]
  | h :: hs, n :: ns => by
    obtain ⟨i1, i2, i3, i4⟩ := match_run_spec f hs ns
    by_cases e : n = f h
    · simp only [match_run, if_pos e, List.drop_succ_cons, List.map_cons, List.length_cons,
        List.take_succ_cons, List.cons.injEq]
      refine ⟨i1, i2, ?_, ?_⟩
      · rw [i3]
        constructor
        · intro hh; exact ⟨e.symm, hh⟩
        · intro hh; exact hh.2
      · intro hh
        rw [i4 hh]
    · simp only [match_run, if_neg e, List.drop_zero, List.map_cons, List.length_cons,
        List.take_succ_cons, List.cons.injEq, true_and]
      refine ⟨⟨fun hh => (by cases hh), fun hh => absurd hh.1.symm e⟩, fun hh => (by cases hh)⟩

/-- The test `full_str_match_made` at the pointers the loop leaves. -/
theorem full_match_spec (f : Char → Char) (hyphen : Bool) (hay needle : List Char)
    (is_tag : Bool) :
    full_str_match_made hyphen (match_run f hay needle).2.1 (match_run f hay needle).2.2 is_tag
      = (decide ((hay.map f).take needle.length = needle)
          && (match hay.drop needle.length with
              | [] => true
              | c :: _ => !is_tag || !allowed_in_name hyphen c)) := by
  obtain ⟨h1, -, h3, h4⟩ := match_run_spec f hay needle
  by_cases hp : (hay.map f).take needle.length = needle
  · have h2 := h3.2 hp
    have hc := h4 h2
    rw [h1, h2, hc]
    simp only [hp, decide_True, Bool.true_and, full_str_match_made]
  · have h2 : (match_run f hay needle).2.2 ≠ [] := fun hh => hp (h3.1 hh)
    simp only [hp, decide_False, Bool.false_and]
    cases hr : (match_run f hay needle).2.2 with
    | nil => exact absurd hr h2
    | cons a as => rfl

/-- The case-sensitive matcher returns the length of a needle that is not empty
when the needle is a prefix of the haystack and the boundary test passes, and 0
otherwise. -/
theorem str_match_sensitive_spec (hyphen : Bool) (hay needle : List Char) (is_tag : Bool)
    (hne : needle ≠ []) :
    str_match_sensitive hyphen hay needle is_tag
      = if (decide (hay.take needle.length = needle)
            && (match hay.drop needle.length with
                | [] => true
                | c :: _ => !is_tag || !allowed_in_name hyphen c)) = true
        then needle.length else 0 := by
  have hf := full_match_spec id hyphen hay needle is_tag
  obtain ⟨-, -, h3, h4⟩ := match_run_spec id hay needle
  simp only [List.map_id] at hf h3
  unfold str_match_sensitive
  simp only [hf]
  by_cases hp : hay.take needle.length = needle
  · have hg : deref hay = deref needle := by
      cases needle with
      | nil => exact absurd rfl hne
      | cons n ns =>
        cases hay with
        | nil => simp at hp
        | cons h hs =>
          simp only [List.length_cons, List.take_succ_cons, List.cons.injEq] at hp
          simp [deref, hp.1]
    rw [if_pos hg]
    simp only [hp, decide_True, Bool.true_and]
    split
    · exact h4 (h3.2 hp)
    · rfl
  · simp [hp]

/-- The case-insensitive matcher returns the length of a needle that is not empty
when the needle is a prefix of the haystack folded to lower case and the boundary
test passes, and 0 otherwise. -/
theorem str_match_insensitive_spec (hyphen : Bool) (hay needle : List Char) (is_tag : Bool)
    (hne : needle ≠ []) :
    str_match_insensitive hyphen hay needle is_tag
      = if (decide ((hay.map toLowerCase).take needle.length = needle)
            && (match hay.drop needle.length with
                | [] => true
                | c :: _ => !is_tag || !allowed_in_name hyphen c)) = true
        then needle.length else 0 := by
  have hf := full_match_spec toLowerCase hyphen hay needle is_tag
  obtain ⟨-, -, h3, h4⟩ := match_run_spec toLowerCase hay needle
  unfold str_match_insensitive
  simp only [hf]
  by_cases hp : (hay.map toLowerCase).take needle.length = needle
  · have hg : toLowerCase (deref hay) = deref needle := by
      cases needle with
      | nil => exact absurd rfl hne
      | cons n ns =>
        cases hay with
        | nil => simp at hp
        | cons h hs =>
          simp only [List.map_cons, List.length_cons, List.take_succ_cons, List.cons.injEq] at hp
          simp [deref, hp.1]
    rw [if_pos hg]
    simp only [hp, decide_True, Bool.true_and]
    split
    · exact h4 (h3.2 hp)
    · rfl
  · simp [hp]

/-- The matcher of an index finds a tag that is not empty exactly when the
specification says that the tag matches: a word tag with `is_tag`, a comment tag
without. -/
theorem str_match_ne_zero (idx : HLIndex) (hyphen : Bool) (text tag : List Char)
    (hne : tag ≠ []) :
    (idx.str_match hyphen text tag true ≠ 0
        ↔ word_tag_matches idx.m_case_insensitive hyphen tag text = true)
    ∧ (idx.str_match hyphen text tag false ≠ 0
        ↔ comment_tag_matches idx.m_case_insensitive tag text = true) := by
  have hl : tag.length ≠ 0 := by
    cases tag with
    | nil => exact absurd rfl hne
    | cons a as => simp
  unfold HLIndex.str_match word_tag_matches comment_tag_matches folded_text
  cases idx.m_case_insensitive
  · simp only [Bool.false_eq_true, if_false, str_match_sensitive_spec hyphen text tag _ hne]
    constructor
    · simp only [Bool.not_true, Bool.false_or]
      split <;> simp_all
    · simp only [Bool.not_false, Bool.true_or]
      cases text.drop tag.length <;> simp [hl]
  · simp only [if_true, str_match_insensitive_spec hyphen text tag _ hne]
    constructor
    · simp only [Bool.not_true, Bool.false_or]
      split <;> simp_all
    · simp only [Bool.not_false, Bool.true_or]
      cases text.drop tag.length <;> simp [hl]

/-- With tags at hand the loop of the two lookups returns the first node of the array whose tag the matcher finds. -/
theorem seek_loop_find (idx : HLIndex) (hyphen : Bool) (text : List Char) (is_tag : Bool) :
    ∀ l : List Nat, (∀ n ∈ l, has_tag idx.nodes n = true) →
      seek_loop idx hyphen text is_tag l
        = some (l.find? (fun n =>
            decide (idx.str_match hyphen text ((node_tag idx.nodes n).getD []) is_tag ≠ 0)))
  | [], _ => rfl
  | n :: rest, h => by
    have hn : has_tag idx.nodes n = true := h n (by simp)
    have ih := seek_loop_find idx hyphen text is_tag rest (fun m hm => h m (by simp [hm]))
    unfold has_tag at hn
    cases ht : node_tag idx.nodes n with
    | none => simp [ht] at hn
    | some c =>
      simp only [seek_loop, ht, Option.getD_some, List.find?_cons]
      by_cases hm : idx.str_match hyphen text c is_tag ≠ 0
      · simp [hm]
      · rw [if_neg hm, ih]
        simp [hm]

/-- The first element found does not change when the test is replaced by one that agrees with it on the list. -/
theorem find_agree (p q : Nat → Bool) :
    ∀ l : List Nat, (∀ n ∈ l, p n = q n) → l.find? p = l.find? q
  | [], _ => rfl
  | n :: rest, h => by
    have hn : p n = q n := h n (by simp)
    have ih := find_agree p q rest (fun m hm => h m (by simp [hm]))
    simp only [List.find?_cons, hn, ih]

/-- A node with a tag has a tag that is not empty. -/
theorem has_tag_ne_nil (nodes : List HLNode) (n : Nat) (h : has_tag nodes n = true) :
    (node_tag nodes n).getD [] ≠ [] ∧ node_tag nodes n = some ((node_tag nodes n).getD []) := by
  unfold has_tag at h
  cases ht : node_tag nodes n with
  | none => simp [ht] at h
  | some c =>
    cases c with
    | nil => simp [ht] at h
    | cons a as => simp

/-- `seek_word` returns the first node of the word set whose tag matches as a word tag. -/
theorem seek_word_find (idx : HLIndex) (hyphen : Bool) (text : List Char)
    (hwf : ∀ n ∈ idx.m_entries, has_tag idx.nodes n = true) :
    idx.seek_word hyphen text
      = some (idx.m_entries.find? (fun n =>
          word_tag_matches idx.m_case_insensitive hyphen ((node_tag idx.nodes n).getD []) text)) := by
  unfold HLIndex.seek_word
  rw [seek_loop_find idx hyphen text true _ hwf]
  congr 1
  apply find_agree
  intro n hn
  have hne := (has_tag_ne_nil idx.nodes n (hwf n hn)).1
  have := (str_match_ne_zero idx hyphen text _ hne).1
  rw [Bool.eq_iff_iff, decide_eq_true_eq]
  exact this

/-- `seek_comment` returns the first node of the comment set whose tag matches as a comment tag. -/
theorem seek_comment_find (idx : HLIndex) (hyphen : Bool) (text : List Char)
    (hwf : ∀ n ∈ idx.m_comments, has_tag idx.nodes n = true) :
    idx.seek_comment hyphen text
      = some (idx.m_comments.find? (fun n =>
          comment_tag_matches idx.m_case_insensitive ((node_tag idx.nodes n).getD []) text)) := by
  unfold HLIndex.seek_comment
  rw [seek_loop_find idx hyphen text false _ hwf]
  congr 1
  apply find_agree
  intro n hn
  have hne := (has_tag_ne_nil idx.nodes n (hwf n hn)).1
  have := (str_match_ne_zero idx hyphen text _ hne).2
  rw [Bool.eq_iff_iff, decide_eq_true_eq]
  exact this

/-- C13: for an index whose word set holds nodes with tags that are not empty (as
every index built from a rule file does), `seek_word` at `text` returns the first
node, in the order of the word set, whose tag is a prefix of the text (the text
folded to lower case when the index is case-insensitive) and is followed in the
text by the end of the string or by a character that is not name-eligible; it
returns the null pointer exactly when no tag of the word set matches so. -/
theorem C13_seek_word_first_match (idx : HLIndex) (hyphen : Bool) (text : List Char)
    (hwf : ∀ n ∈ idx.m_entries, has_tag idx.nodes n = true) :
    idx.seek_word hyphen text
        = some (idx.m_entries.find? (fun n =>
            word_tag_matches idx.m_case_insensitive hyphen
              ((node_tag idx.nodes n).getD []) text))
    ∧ (idx.seek_word hyphen text = some none
        ↔ ∀ n ∈ idx.m_entries,
            word_tag_matches idx.m_case_insensitive hyphen
              ((node_tag idx.nodes n).getD []) text = false) := by
  have h := seek_word_find idx hyphen text hwf
  refine ⟨h, ?_⟩
  rw [h]
  simp only [Option.some.injEq, List.find?_eq_none]
  constructor
  · intro hh n hn
    exact Bool.eq_false_iff.mpr (hh n hn)
  · intro hh n hn
    exact Bool.eq_false_iff.mp (hh n hn)

/-- Witness of C13: in the index of the keyword `int` the tag does not match at
`integer` and matches at `int x`. -/
theorem C13_seek_word_first_match_witness :
    (∀ n ∈ int_index.m_entries, has_tag int_index.nodes n = true)
    ∧ int_index.m_entries.map (node_tag int_index.nodes) = [some "int".toList]
    ∧ int_index.seek_word false "int x".toList = some (some 2)
    ∧ node_tag int_index.nodes 2 = some "int".toList
    ∧ int_index.seek_word false "integer".toList = some none :=
  ⟨by decide!, by decide!,
    (C13_seek_word_first_match int_index false "int x".toList (by decide!)).1.trans (by decide!),
    by decide!,
    (C13_seek_word_first_match int_index false "integer".toList (by decide!)).2.2 (by decide!)⟩

/-- C14, counterexample: in the case-insensitive index with the comment marker
`//TODO` the tag is stored as `//todo`, which is not a prefix of the text
`//TODO fix`; `seek_comment` returns its node all the same, because the matcher
folds the text. -/
theorem C14_counterexample_folded_comment :
    todo_index.m_comments.map (node_tag todo_index.nodes) = [some "//todo".toList]
    ∧ "//TODO fix".toList.take "//todo".toList.length ≠ "//todo".toList
    ∧ todo_index.seek_comment false "//TODO fix".toList = some (some 3)
    ∧ node_tag todo_index.nodes 3 = some "//todo".toList := by
  decide!

/-- C14, amended: for an index whose comment set holds nodes with tags that are not
empty, `seek_comment` at `text` returns the first node, in the order of the comment
set, whose tag is a prefix of the text, the text folded to lower case when the
index is case-insensitive, whatever character follows the prefix; it returns the
null pointer exactly when no tag of the comment set is such a prefix.  The
case-sensitive matcher finds the needle `<!-- ` at
`<!-- This is a block comment -->` with length 5 and does not find `<!- ` or
` <!-- ` there. -/
theorem C14_seek_comment_first_match (idx : HLIndex) (hyphen : Bool) (text : List Char)
    (hwf : ∀ n ∈ idx.m_comments, has_tag idx.nodes n = true) :
    idx.seek_comment hyphen text
        = some (idx.m_comments.find? (fun n =>
            comment_tag_matches idx.m_case_insensitive ((node_tag idx.nodes n).getD []) text))
    ∧ (idx.seek_comment hyphen text = some none
        ↔ ∀ n ∈ idx.m_comments,
            comment_tag_matches idx.m_case_insensitive
              ((node_tag idx.nodes n).getD []) text = false)
    ∧ str_match_sensitive hyphen "<!-- This is a block comment -->".toList "<!-- ".toList false
        = 5
    ∧ str_match_sensitive hyphen "<!-- This is a block comment -->".toList "<!- ".toList false
        = 0
    ∧ str_match_sensitive hyphen "<!-- This is a block comment -->".toList " <!-- ".toList false
        = 0 := by
  have h := seek_comment_find idx hyphen text hwf
  refine ⟨h, ?_, by cases hyphen <;> decide, by cases hyphen <;> decide,
    by cases hyphen <;> decide⟩
  rw [h]
  simp only [Option.some.injEq, List.find?_eq_none]
  constructor
  · intro hh n hn
    exact Bool.eq_false_iff.mpr (hh n hn)
  · intro hh n hn
    exact Bool.eq_false_iff.mp (hh n hn)

/-- Witness of C14: the index with the marker `//TODO` at the texts `//TODO fix`
and `/ TODO`. -/
theorem C14_seek_comment_first_match_witness :
    (∀ n ∈ todo_index.m_comments, has_tag todo_index.nodes n = true)
    ∧ todo_index.seek_comment false "//TODO fix".toList = some (some 3)
    ∧ todo_index.seek_comment false "/ TODO".toList = some none :=
  ⟨by decide!,
    (C14_seek_comment_first_match todo_index false "//TODO fix".toList (by decide!)).1.trans
      (by decide!),
    (C14_seek_comment_first_match todo_index false "/ TODO".toList (by decide!)).2.1.2
      (by decide!)⟩

/-! ### Tags of the nodes an index holds -/

/-- `save_str` never yields the empty string. -/
theorem save_str_ne_nil (s : Option (List Char)) : save_str s ≠ some [] := by
  unfold save_str
  cases s with
  | none => simp
  | some t =>
    simp only []
    split
    · intro h
      simp only [Option.some.injEq] at h
      simp_all
    · simp

/-- A change of a node that keeps its tag keeps the tags of the arena. -/
theorem map_tag_modify (f : HLNode → HLNode) (hf : ∀ h, (f h).m_tag = h.m_tag) :
    ∀ (nodes : List HLNode) (i : Nat),
      (nodes.modify f i).map (fun n => n.m_tag) = nodes.map (fun n => n.m_tag)
  | [], _ => by simp
  | n :: rest, 0 => by simp [hf]
  | n :: rest, i + 1 => by
    simp [map_tag_modify f hf rest i]

/-- `direct_add_child` appends the saved tag to the tags of the arena. -/
theorem direct_add_child_tags (nodes : List HLNode) (host : Nat) (tag value : Option (List Char)) :
    (direct_add_child nodes host tag value).1.map (fun n => n.m_tag)
      = nodes.map (fun n => n.m_tag) ++ [save_str tag] := by
  unfold direct_add_child
  simp only []
  rw [map_tag_modify (fun h => { h with m_child := some nodes.length }) (fun _ => rfl)]
  simp [HLNode.new]

/-- `direct_add_sibling` appends the saved tag to the tags of the arena. -/
theorem direct_add_sibling_tags (nodes : List HLNode) (host : Nat)
    (tag value : Option (List Char)) :
    (direct_add_sibling nodes host tag value).1.map (fun n => n.m_tag)
      = nodes.map (fun n => n.m_tag) ++ [save_str tag] := by
  unfold direct_add_sibling
  simp only []
  rw [map_tag_modify (fun h => { h with m_sibling := some nodes.length }) (fun _ => rfl)]
  simp [HLNode.new]

/-- The parser adds no node with an empty tag: tags are null or hold a character. -/
theorem do_node_loop_tags :
    ∀ (fuel : Nat) (ps : HLParser) (nodes : List HLNode) (host : Nat) (lvl : Int)
      (r : HLParser × List HLNode),
      HLParser.do_node_loop fuel ps nodes host lvl = some r →
      some [] ∉ nodes.map (fun n => n.m_tag) →
      some [] ∉ r.2.map (fun n => n.m_tag)
  | 0, _, _, _, _, _, h, _ => by simp [HLParser.do_node_loop] at h
  | fuel + 1, ps, nodes, host, lvl, r, h, hn => by
    unfold HLParser.do_node_loop at h
    split at h
    · cases h; exact hn
    · split at h
      · simp only [] at h
        split at h
        · split at h
          · cases h
          · rename_i ps2 nodes2 h1
            have a1 := do_node_loop_tags fuel _ _ _ _ _ h1 (by
              rw [direct_add_child_tags]
              simp only [List.mem_append, List.mem_singleton, not_or]
              exact ⟨hn, fun hh => save_str_ne_nil _ hh.symm⟩)
            exact do_node_loop_tags fuel _ _ _ _ _ h a1
        · split at h
          · cases h; exact hn
          · exact do_node_loop_tags fuel _ _ _ _ _ h (by
              rw [direct_add_sibling_tags]
              simp only [List.mem_append, List.mem_singleton, not_or]
              exact ⟨hn, fun hh => save_str_ne_nil _ hh.symm⟩)
      · exact do_node_loop_tags fuel _ _ _ _ _ h hn

/-- The tree the parser builds for a language holds no empty tag. -/
theorem parser_tags (buff f type : List Char) (r : HLParser × List HLNode)
    (h : HLParser.new buff f [HLNode.new (some type) none none] = some r) :
    some [] ∉ r.2.map (fun n => n.m_tag) := by
  unfold HLParser.new HLParser.do_node at h
  refine do_node_loop_tags _ _ _ _ _ _ h ?_
  simp only [List.map_cons, List.map_nil, List.mem_singleton, HLNode.new]
  exact fun hh => save_str_ne_nil _ hh.symm

/-! ### The order of the two sets -/

/-- `strcmp` is asymmetric. -/
theorem strcmp_lt_asymm : ∀ a b : List Char, strcmp_lt a b = true → strcmp_lt b a = false
  | [], [], _ => rfl
  | [], _ :: _, _ => rfl
  | _ :: _, [], h => by simp [strcmp_lt] at h
  | x :: as, y :: bs, h => by
    unfold strcmp_lt at h ⊢
    by_cases h1 : x.toNat < y.toNat
    · have h2 : ¬ y.toNat < x.toNat := by omega
      simp [h1, h2]
    · by_cases h2 : y.toNat < x.toNat
      · simp [h1, h2] at h
      · simp only [h1, h2, if_false] at h ⊢
        exact strcmp_lt_asymm as bs h

/-- The order `strcmp(a, b) <= 0` is transitive. -/
theorem strcmp_le_trans : ∀ a b c : List Char,
    strcmp_lt b a = false → strcmp_lt c b = false → strcmp_lt c a = false
  | [], _, [], _, _ => rfl
  | [], _, _ :: _, _, _ => by simp [strcmp_lt]
  | _ :: _, [], _, h1, _ => by simp [strcmp_lt] at h1
  | _ :: _, _ :: _, [], _, h2 => by simp [strcmp_lt] at h2
  | x :: as, y :: bs, z :: cs, h1, h2 => by
    unfold strcmp_lt at h1 h2 ⊢
    by_cases a1 : y.toNat < x.toNat
    · simp [a1] at h1
    · by_cases a2 : x.toNat < y.toNat
      · by_cases b1 : z.toNat < y.toNat
        · simp [b1] at h2
        · have c1 : ¬ z.toNat < x.toNat := by omega
          have c2 : x.toNat < z.toNat := by omega
          simp [c1, c2]
      · simp only [a1, a2, if_false] at h1
        by_cases b1 : z.toNat < y.toNat
        · simp [b1] at h2
        · by_cases b2 : y.toNat < z.toNat
          · have c1 : ¬ z.toNat < x.toNat := by omega
            have c2 : x.toNat < z.toNat := by omega
            simp [c1, c2]
          · simp only [b1, b2, if_false] at h2
            have c1 : ¬ z.toNat < x.toNat := by omega
            have c2 : ¬ x.toNat < z.toNat := by omega
            simp only [c1, c2, if_false]
            exact strcmp_le_trans as bs cs h1 h2

/-- Of two prefixes of the same string the shorter one is not the greater in the order of `strcmp`. -/
theorem strcmp_lt_take : ∀ (x : List Char) (m n : Nat),
    (x.take m).length < (x.take n).length → strcmp_lt (x.take m) (x.take n) = true
  | [], _, _, h => by simp at h
  | c :: x, 0, 0, h => by simp at h
  | c :: x, 0, n + 1, _ => by simp [strcmp_lt]
  | c :: x, m + 1, 0, h => by simp at h
  | c :: x, m + 1, n + 1, h => by
    simp only [List.take_succ_cons, List.length_cons, Nat.add_lt_add_iff_right] at h
    simp only [List.take_succ_cons, strcmp_lt, Nat.lt_irrefl, if_false]
    exact strcmp_lt_take x m n h

/-- The nodes of the array after an insertion. -/
theorem insert_by_tag_mem (nodes : List HLNode) (i m : Nat) :
    ∀ l : List Nat, m ∈ insert_by_tag nodes i l ↔ m = i ∨ m ∈ l
  | [] => by simp [insert_by_tag]
  | j :: rest => by
    unfold insert_by_tag
    split
    · simp only [List.mem_cons, insert_by_tag_mem nodes i m rest]
      tauto
    · simp only [List.mem_cons]

/-- The nodes of the sorted array are the nodes of the array. -/
theorem sort_by_tag_mem (nodes : List HLNode) (m : Nat) :
    ∀ l : List Nat, m ∈ sort_by_tag nodes l ↔ m ∈ l
  | [] => by simp [sort_by_tag]
  | j :: rest => by
    have ih := sort_by_tag_mem nodes m rest
    unfold sort_by_tag at ih ⊢
    simp only [List.foldr_cons, insert_by_tag_mem, ih, List.mem_cons]

/-- An insertion keeps the array sorted by tag. -/
theorem insert_by_tag_sorted (nodes : List HLNode) (i : Nat) :
    ∀ l : List Nat,
      l.Pairwise (fun a b =>
        strcmp_lt ((node_tag nodes b).getD []) ((node_tag nodes a).getD []) = false) →
      (insert_by_tag nodes i l).Pairwise (fun a b =>
        strcmp_lt ((node_tag nodes b).getD []) ((node_tag nodes a).getD []) = false)
  | [], _ => by simp [insert_by_tag]
  | j :: rest, h => by
    rw [List.pairwise_cons] at h
    unfold insert_by_tag
    by_cases hlt : strcmp_lt ((node_tag nodes j).getD []) ((node_tag nodes i).getD []) = true
    · rw [if_pos hlt, List.pairwise_cons]
      refine ⟨?_, insert_by_tag_sorted nodes i rest h.2⟩
      intro m hm
      rcases (insert_by_tag_mem nodes i m rest).mp hm with rfl | hm
      · exact strcmp_lt_asymm _ _ hlt
      · exact h.1 m hm
    · rw [if_neg hlt, List.pairwise_cons, List.pairwise_cons]
      have hle : strcmp_lt ((node_tag nodes j).getD []) ((node_tag nodes i).getD []) = false := by
        simpa using hlt
      refine ⟨?_, h⟩
      intro m hm
      rcases List.mem_cons.mp hm with rfl | hm
      · exact hle
      · exact strcmp_le_trans _ _ _ hle (h.1 m hm)

/-- The array `qsort` leaves is sorted by tag. -/
theorem sort_by_tag_sorted (nodes : List HLNode) :
    ∀ l : List Nat, (sort_by_tag nodes l).Pairwise (fun a b =>
      strcmp_lt ((node_tag nodes b).getD []) ((node_tag nodes a).getD []) = false)
  | [] => by simp [sort_by_tag]
  | j :: rest => by
    have ih := sort_by_tag_sorted nodes rest
    unfold sort_by_tag at ih ⊢
    exact insert_by_tag_sorted nodes j _ ih

/-! ### Folding to lower case -/

/-- The code of the folded character: the capital letters move by 32, the others stay. -/
theorem toLowerCase_toNat (c : Char) :
    (toLowerCase c).toNat = if 65 ≤ c.toNat ∧ c.toNat ≤ 90 then c.toNat + 32 else c.toNat := by
  unfold toLowerCase
  by_cases h : 65 ≤ c.toNat ∧ c.toNat ≤ 90
  · rw [if_pos h, if_pos h]
    obtain ⟨h1, h2⟩ := h
    generalize c.toNat = n at h1 h2
    interval_cases n <;> rfl
  · rw [if_neg h, if_neg h]

/-- Folding twice is folding once. -/
theorem toLowerCase_idem (c : Char) : toLowerCase (toLowerCase c) = toLowerCase c := by
  have h := toLowerCase_toNat c
  have hn : ¬ (65 ≤ (toLowerCase c).toNat ∧ (toLowerCase c).toNat ≤ 90) := by
    rw [h]
    split <;> omega
  have key : ∀ d : Char, ¬ (65 ≤ d.toNat ∧ d.toNat ≤ 90) → toLowerCase d = d := by
    intro d hd
    unfold toLowerCase
    rw [if_neg hd]
  exact key _ hn

/-- Folding a folded string changes nothing. -/
theorem map_toLowerCase_idem (t : List Char) :
    (t.map toLowerCase).map toLowerCase = t.map toLowerCase := by
  simp only [List.map_map]
  apply List.map_congr_left
  intro c _
  exact toLowerCase_idem c

/-- Two characters with the same folding are both name-eligible or both not. -/
theorem allowed_in_name_fold (hyphen : Bool) (a b : Char)
    (h : toLowerCase a = toLowerCase b) : allowed_in_name hyphen a = allowed_in_name hyphen b := by
  have h1 := toLowerCase_toNat a
  have h2 := toLowerCase_toNat b
  rw [h] at h1
  rw [h1] at h2
  rw [Bool.eq_iff_iff]
  unfold allowed_in_name hyphenated_name_allow simple_name_allow
  cases hyphen <;>
    simp only [Bool.false_eq_true, if_false, if_true, Bool.or_eq_true, Bool.and_eq_true,
      decide_eq_true_eq] <;>
    split at h2 <;> split at h2 <;> omega

/-- The tag of a node after `tag_to_lower_case` on the node at index `i`. -/
theorem node_tag_modify (nodes : List HLNode) (i n : Nat) :
    node_tag (nodes.modify HLNode.tag_to_lower_case i) n
      = if i = n then (node_tag nodes n).map (fun t => t.map toLowerCase)
        else node_tag nodes n := by
  unfold node_tag
  rw [List.get?_eq_getElem?, List.get?_eq_getElem?, List.getElem?_modify]
  by_cases h : i = n
  · subst h
    simp only [if_true]
    cases nodes[i]? <;> simp [HLNode.tag_to_lower_case]
  · simp only [h, if_false]
    cases nodes[n]? <;> simp

/-- The tag of a node after the tags of the leaves have been folded. -/
theorem node_tag_lowered (n : Nat) :
    ∀ (leaves : List Nat) (nodes : List HLNode),
      node_tag (leaves.foldl (fun ns i => ns.modify HLNode.tag_to_lower_case i) nodes) n
        = if n ∈ leaves then (node_tag nodes n).map (fun t => t.map toLowerCase)
          else node_tag nodes n
  | [], _ => by simp
  | i :: rest, nodes => by
    rw [List.foldl_cons, node_tag_lowered n rest, node_tag_modify]
    by_cases h1 : i = n
    · subst h1
      simp only [if_true, List.mem_cons, true_or]
      split
      · cases node_tag nodes i with
        | none => rfl
        | some t =>
          simp only [Option.map_some', Option.some.injEq]
          exact map_toLowerCase_idem t
      · rfl
    · have h2 : ¬ n = i := fun hh => h1 hh.symm
      simp only [h1, if_false, List.mem_cons, h2, false_or]

/-- A tag read at an index is a tag of the arena. -/
theorem node_tag_mem (nodes : List HLNode) (n : Nat) (t : List Char)
    (h : node_tag nodes n = some t) : some t ∈ nodes.map (fun nd => nd.m_tag) := by
  unfold node_tag at h
  cases hg : nodes.get? n with
  | none =>
    rw [hg] at h
    cases h
  | some nd =>
    rw [hg] at h
    simp only [Option.some_bind] at h
    rw [List.mem_map]
    exact ⟨nd, List.get?_mem hg, h⟩

/-- A name-eligible first character shows a tag that is not empty. -/
theorem has_tag_of_allowed (hyphen : Bool) (nodes : List HLNode) (n : Nat)
    (h : allowed_in_name hyphen (deref ((node_tag nodes n).getD [])) = true) :
    has_tag nodes n = true := by
  unfold has_tag
  cases ht : node_tag nodes n with
  | none =>
    rw [ht] at h
    cases hyphen <;> exact absurd h (by decide)
  | some t =>
    cases t with
    | nil =>
      rw [ht] at h
      cases hyphen <;> exact absurd h (by decide)
    | cons a as => rfl

/-- The two sets `source_scan` builds: every node of the word set has a tag that
is not empty; so has every node of the comment set when the arena holds no empty
tag; both sets are sorted by tag; and the tags of both sets are folded to lower
case when the index is case-insensitive. -/
theorem source_scan_sets (hyphen ci : Bool) (nodes nodes1 : List HLNode)
    (entries comments : List Nat)
    (h : source_scan hyphen ci nodes = some (nodes1, entries, comments)) :
    (∀ n ∈ entries, has_tag nodes1 n = true)
    ∧ (some [] ∉ nodes.map (fun nd => nd.m_tag) → ∀ n ∈ comments, has_tag nodes1 n = true)
    ∧ entries.Pairwise (fun a b =>
        strcmp_lt ((node_tag nodes1 b).getD []) ((node_tag nodes1 a).getD []) = false)
    ∧ comments.Pairwise (fun a b =>
        strcmp_lt ((node_tag nodes1 b).getD []) ((node_tag nodes1 a).getD []) = false)
    ∧ (ci = true → ∀ n ∈ entries ++ comments, ∀ t, node_tag nodes1 n = some t →
        t.map toLowerCase = t) := by
  unfold source_scan at h
  simp only [] at h
  split at h
  · cases h
  · rename_i hfault
    split at h
    · simp only [Option.some.injEq, Prod.mk.injEq] at h
      obtain ⟨-, rfl, rfl⟩ := h
      simp
    · simp only [Option.some.injEq, Prod.mk.injEq] at h
      obtain ⟨hn1, rfl, rfl⟩ := h
      subst hn1
      have hpresent : ∀ n ∈ walk_tags nodes, ∃ t, node_tag nodes n = some t := by
        intro n hn
        cases ht : node_tag nodes n with
        | none =>
          exfalso
          apply hfault
          rw [List.any_eq_true]
          exact ⟨n, hn, by simp [ht]⟩
        | some t => exact ⟨t, rfl⟩
      have htag1 : ∀ n ∈ walk_tags nodes, ∃ t, node_tag nodes n = some t
          ∧ node_tag (if ci = true
                then (walk_tags nodes).foldl (fun ns i => ns.modify HLNode.tag_to_lower_case i) nodes
                else nodes) n
              = some (if ci = true then t.map toLowerCase else t) := by
        intro n hn
        obtain ⟨t, ht⟩ := hpresent n hn
        refine ⟨t, ht, ?_⟩
        cases ci
        · simpa using ht
        · simp only [if_true]
          rw [node_tag_lowered, if_pos hn, ht]
          rfl
      refine ⟨?_, ?_, sort_by_tag_sorted _ _, sort_by_tag_sorted _ _, ?_⟩
      · intro n hn
        rw [sort_by_tag_mem, List.mem_filter] at hn
        exact has_tag_of_allowed hyphen _ n hn.2
      · intro hne n hn
        rw [sort_by_tag_mem, List.mem_filter] at hn
        obtain ⟨t, ht, ht1⟩ := htag1 n hn.1
        have hte : t ≠ [] := by
          intro hh
          subst hh
          exact hne (node_tag_mem nodes n [] ht)
        unfold has_tag
        rw [ht1]
        cases t with
        | nil => exact absurd rfl hte
        | cons a as => cases ci <;> rfl
      · intro hci n hn t ht
        subst hci
        have hl : n ∈ walk_tags nodes := by
          rcases List.mem_append.mp hn with hh | hh
          · rw [sort_by_tag_mem, List.mem_filter] at hh
            exact hh.1
          · rw [sort_by_tag_mem, List.mem_filter] at hh
            exact hh.1
        obtain ⟨t0, -, ht1⟩ := htag1 n hl
        rw [ht1] at ht
        simp only [if_true, Option.some.injEq] at ht
        rw [← ht]
        exact map_toLowerCase_idem t0

/-- The index `seek_index` returns is one of the registry. -/
theorem seek_index_mem (L : List Char) (idx : HLIndex) :
    ∀ reg : List HLIndex, seek_index reg L = some (some idx) → idx ∈ reg
  | [], h => by simp [seek_index] at h
  | i :: rest, h => by
    unfold seek_index at h
    split at h
    · exact List.mem_cons_of_mem _ (seek_index_mem L idx rest h)
    · split at h
      · cases h
      · simp only [Option.some.injEq] at h
        rw [h]
        exact List.mem_cons_self _ _
      · exact List.mem_cons_of_mem _ (seek_index_mem L idx rest h)

/-- Every index `get_index` builds is well formed: the registry stays a list of
well-formed indices, and the index returned is one of them. -/
theorem get_index_well_formed (fs : FileSystem) (w w1 : IndexWorld) (L : List Char)
    (r : Option HLIndex) (h : get_index fs w L = some (w1, r))
    (hw : ∀ idx ∈ w.registry, idx.well_formed) :
    (∀ idx ∈ w1.registry, idx.well_formed) ∧ (∀ idx, r = some idx → idx.well_formed) := by
  unfold get_index at h
  split at h
  · cases h
  · rename_i i hs
    simp only [Option.some.injEq, Prod.mk.injEq] at h
    obtain ⟨rfl, rfl⟩ := h
    refine ⟨hw, ?_⟩
    intro idx hidx
    split at hidx
    · cases hidx
    · simp only [Option.some.injEq] at hidx
      rw [← hidx]
      exact hw i (seek_index_mem L i _ hs)
  · split at h
    · simp only [Option.some.injEq, Prod.mk.injEq] at h
      obtain ⟨rfl, rfl⟩ := h
      exact ⟨hw, fun idx hidx => by cases hidx⟩
    · split at h
      · cases h
      · rename_i f hf hlp nodes hp
        split at h
        · cases h
        · rename_i hy i hi
          simp only [Option.some.injEq, Prod.mk.injEq] at h
          obtain ⟨rfl, rfl⟩ := h
          have hwf : i.well_formed := by
            unfold HLIndex.new at hi
            split at hi
            · cases hi
            · rename_i nodes1 entries comments hss
              simp only [Option.some.injEq, Prod.mk.injEq] at hi
              obtain ⟨-, rfl⟩ := hi
              obtain ⟨a1, a2, a3, a4, -⟩ := source_scan_sets _ _ _ _ _ _ hss
              exact ⟨a1, a2 (parser_tags _ _ _ _ hp), a3, a4⟩
          refine ⟨?_, ?_⟩
          · intro idx hidx
            rcases List.mem_append.mp hidx with hh | hh
            · exact hw idx hh
            · rw [List.mem_singleton.mp hh]
              exact hwf
          · intro idx hidx
            split at hidx
            · cases hidx
            · simp only [Option.some.injEq] at hidx
              rw [← hidx]
              exact hwf

/-! ### The first match is the shortest match (C15) -/

/-- In an array sorted by tag, the first node whose tag passes a test that only
prefixes of one string pass has the shortest tag among the nodes that pass. -/
theorem first_match_shortest (nodes : List HLNode) (ft : List Char) (p : Nat → Bool)
    (l : List Nat)
    (hs : l.Pairwise (fun a b =>
      strcmp_lt ((node_tag nodes b).getD []) ((node_tag nodes a).getD []) = false))
    (hp : ∀ m ∈ l, p m = true →
      ft.take ((node_tag nodes m).getD []).length = (node_tag nodes m).getD [])
    (n : Nat) (hf : l.find? p = some n) :
    n ∈ l ∧ p n = true ∧ ∀ m ∈ l, p m = true →
      ((node_tag nodes n).getD []).length ≤ ((node_tag nodes m).getD []).length := by
  have hmem := List.mem_of_find?_eq_some hf
  obtain ⟨hpn, as, bs, hl, has⟩ := List.find?_eq_some.mp hf
  refine ⟨hmem, hpn, ?_⟩
  intro m hm hpm
  rw [hl] at hm hs
  rcases List.mem_append.mp hm with h1 | h1
  · have := has m h1
    simp [hpm] at this
  · rcases List.mem_cons.mp h1 with h2 | h2
    · rw [h2]
    · have hs2 := (List.pairwise_append.mp hs).2.1
      have hR := (List.pairwise_cons.mp hs2).1 m h2
      by_contra hlt
      have e1 := hp n hmem hpn
      have e2 := hp m (by rw [hl]; exact hm) hpm
      have := strcmp_lt_take ft ((node_tag nodes m).getD []).length
        ((node_tag nodes n).getD []).length (by rw [e1, e2]; omega)
      rw [e1, e2, hR] at this
      cases this

/-- C15, counterexample: with the comment markers `-` and `--` both defined,
`seek_comment` at `-- note` returns the node of `-`, the shorter of the two tags
that match; with the keywords `a` and `a.b`, `seek_word` at `a.b c` returns the
node of `a`. -/
theorem C15_counterexample_shorter_tag_returned :
    dash_index.m_comments.map (node_tag dash_index.nodes) = [some "-".toList, some "--".toList]
    ∧ dash_index.seek_comment false "-- note".toList = some (some 3)
    ∧ node_tag dash_index.nodes 3 = some "-".toList
    ∧ comment_tag_matches false "--".toList "-- note".toList = true
    ∧ dash_index.m_entries.map (node_tag dash_index.nodes) = [some "a".toList, some "a.b".toList]
    ∧ dash_index.seek_word false "a.b c".toList = some (some 6)
    ∧ node_tag dash_index.nodes 6 = some "a".toList
    ∧ word_tag_matches false false "a.b".toList "a.b c".toList = true := by
  decide!

/-- C15, amended: for a well-formed index (tags not empty, sets sorted by tag, as
`get_index` builds them) the node returned by `seek_comment`, and the node returned
by `seek_word`, is a node of its set whose tag matches at the start of the text,
and its tag is the shortest among the tags of its set that match there: the sets
are searched from the smallest tag on and the first match is returned. -/
theorem C15_first_match_is_shortest (idx : HLIndex) (hyphen : Bool) (text : List Char)
    (hwf : idx.well_formed) :
    (∀ n, idx.seek_comment hyphen text = some (some n) →
      n ∈ idx.m_comments
      ∧ comment_tag_matches idx.m_case_insensitive ((node_tag idx.nodes n).getD []) text = true
      ∧ ∀ m ∈ idx.m_comments,
          comment_tag_matches idx.m_case_insensitive ((node_tag idx.nodes m).getD []) text = true →
          ((node_tag idx.nodes n).getD []).length ≤ ((node_tag idx.nodes m).getD []).length)
    ∧ (∀ n, idx.seek_word hyphen text = some (some n) →
      n ∈ idx.m_entries
      ∧ word_tag_matches idx.m_case_insensitive hyphen ((node_tag idx.nodes n).getD []) text
          = true
      ∧ ∀ m ∈ idx.m_entries,
          word_tag_matches idx.m_case_insensitive hyphen ((node_tag idx.nodes m).getD []) text
            = true →
          ((node_tag idx.nodes n).getD []).length ≤ ((node_tag idx.nodes m).getD []).length) := by
  obtain ⟨w1, w2, w3, w4⟩ := hwf
  constructor
  · intro n hn
    rw [seek_comment_find idx hyphen text w2] at hn
    simp only [Option.some.injEq] at hn
    refine first_match_shortest idx.nodes (folded_text idx.m_case_insensitive text) _ _ w4 ?_ n hn
    intro m _ hm
    unfold comment_tag_matches at hm
    simpa using hm
  · intro n hn
    rw [seek_word_find idx hyphen text w1] at hn
    simp only [Option.some.injEq] at hn
    refine first_match_shortest idx.nodes (folded_text idx.m_case_insensitive text) _ _ w3 ?_ n hn
    intro m _ hm
    unfold word_tag_matches at hm
    simp only [Bool.and_eq_true, decide_eq_true_eq] at hm
    exact hm.1

/-- Witness of C15: the index with the markers `-` and `--` at the text `-- note`;
the node returned has the tag `-`, which is not longer than the tag `--` of node 2. -/
theorem C15_first_match_is_shortest_witness :
    dash_index.well_formed
    ∧ dash_index.seek_comment false "-- note".toList = some (some 3)
    ∧ ((node_tag dash_index.nodes 3).getD []).length
        ≤ ((node_tag dash_index.nodes 2).getD []).length :=
  ⟨by decide!, by decide!,
    ((C15_first_match_is_shortest dash_index false "-- note".toList (by decide!)).1 3
      (by decide!)).2.2 2 (by decide!) (by decide!)⟩

/-! ### Case-insensitive lookups (C16) -/

/-- The loop of the case-insensitive matcher on two haystacks with the same folding:
the counts and the needle pointers agree, and the haystack pointers have the same
folding. -/
theorem match_run_fold : ∀ (t1 t2 c : List Char),
    t1.map toLowerCase = t2.map toLowerCase →
    (match_run toLowerCase t1 c).1 = (match_run toLowerCase t2 c).1
    ∧ (match_run toLowerCase t1 c).2.2 = (match_run toLowerCase t2 c).2.2
    ∧ (match_run toLowerCase t1 c).2.1.map toLowerCase
        = (match_run toLowerCase t2 c).2.1.map toLowerCase
  | [], [], c, _ => ⟨rfl, rfl, rfl⟩
  | [], _ :: _, _, h => by simp at h
  | _ :: _, [], _, h => by simp at h
  | a :: t1, b :: t2, [], h => by
    exact ⟨by simp [match_run], by simp [match_run], by simpa [match_run] using h⟩
  | a :: t1, b :: t2, n :: ns, h => by
    simp only [List.map_cons, List.cons.injEq] at h
    obtain ⟨i1, i2, i3⟩ := match_run_fold t1 t2 ns h.2
    simp only [match_run, h.1]
    by_cases e : n = toLowerCase b
    · simp only [if_pos e]
      exact ⟨by rw [i1], i2, i3⟩
    · simp [if_neg e, h.1, h.2]

/-- The test `full_str_match_made` on two haystack pointers with the same folding. -/
theorem full_match_fold (hyphen : Bool) (s1 s2 n : List Char) (is_tag : Bool)
    (h : s1.map toLowerCase = s2.map toLowerCase) :
    full_str_match_made hyphen s1 n is_tag = full_str_match_made hyphen s2 n is_tag := by
  cases n with
  | cons _ _ => rfl
  | nil =>
    cases s1 with
    | nil =>
      cases s2 with
      | nil => rfl
      | cons _ _ => simp at h
    | cons a s1 =>
      cases s2 with
      | nil => simp at h
      | cons b s2 =>
        simp only [List.map_cons, List.cons.injEq] at h
        simp only [full_str_match_made, allowed_in_name_fold hyphen a b h.1]

/-- The case-insensitive matcher gives the same result at two texts with the same folding. -/
theorem str_match_insensitive_fold (hyphen : Bool) (t1 t2 c : List Char) (is_tag : Bool)
    (h : t1.map toLowerCase = t2.map toLowerCase) :
    str_match_insensitive hyphen t1 c is_tag = str_match_insensitive hyphen t2 c is_tag := by
  obtain ⟨i1, i2, i3⟩ := match_run_fold t1 t2 c h
  have hd : toLowerCase (deref t1) = toLowerCase (deref t2) := by
    cases t1 with
    | nil =>
      cases t2 with
      | nil => rfl
      | cons _ _ => simp at h
    | cons a t1 =>
      cases t2 with
      | nil => simp at h
      | cons b t2 =>
        simp only [List.map_cons, List.cons.injEq] at h
        simpa [deref] using h.1
  unfold str_match_insensitive
  simp only [hd, i1, i2, full_match_fold hyphen _ _ _ is_tag i3]

/-- The loop of the lookups of a case-insensitive index gives the same result at two texts with the same folding. -/
theorem seek_loop_fold (idx : HLIndex) (hyphen : Bool) (t1 t2 : List Char) (is_tag : Bool)
    (hci : idx.m_case_insensitive = true) (h : t1.map toLowerCase = t2.map toLowerCase) :
    ∀ l : List Nat, seek_loop idx hyphen t1 is_tag l = seek_loop idx hyphen t2 is_tag l
  | [] => rfl
  | n :: rest => by
    have ih := seek_loop_fold idx hyphen t1 t2 is_tag hci h rest
    unfold seek_loop
    cases node_tag idx.nodes n with
    | none => rfl
    | some c =>
      simp only [HLIndex.str_match, hci, if_true,
        str_match_insensitive_fold hyphen t1 t2 c is_tag h, ih]

/-- C16: for an index built with the case-insensitive flag, `seek_word` and
`seek_comment` give the same result at two texts that differ only in the case of
ASCII letters (texts with the same folding), and every tag of its two sets is
stored folded to lower case, whatever the case in which the rule file wrote it. -/
theorem C16_case_insensitive_lookup (nodes : List HLNode) (ht hy hyphen : Bool)
    (idx : HLIndex) (t1 t2 : List Char)
    (hnew : HLIndex.new nodes ht true = some (hy, idx))
    (hcase : t1.map toLowerCase = t2.map toLowerCase) :
    idx.seek_word hyphen t1 = idx.seek_word hyphen t2
    ∧ idx.seek_comment hyphen t1 = idx.seek_comment hyphen t2
    ∧ (∀ n ∈ idx.m_entries ++ idx.m_comments, ∀ t, node_tag idx.nodes n = some t →
        t.map toLowerCase = t) := by
  unfold HLIndex.new at hnew
  split at hnew
  · cases hnew
  · rename_i nodes1 entries comments hss
    simp only [Option.some.injEq, Prod.mk.injEq] at hnew
    obtain ⟨-, rfl⟩ := hnew
    obtain ⟨-, -, -, -, a5⟩ := source_scan_sets _ _ _ _ _ _ hss
    exact ⟨seek_loop_fold _ hyphen t1 t2 true rfl hcase _,
      seek_loop_fold _ hyphen t1 t2 false rfl hcase _, a5 rfl⟩

/-- Witness of C16: the rule tag `SELECT` of a case-insensitive rule file is stored
as `select` and is matched by `SELECT`, `select` and `Select`; so is the rule tag
`select` of `sql.hl`. -/
theorem C16_case_insensitive_lookup_witness :
    HLIndex.new select_tree false true = some (false, select_index)
    ∧ "SELECT x".toList.map toLowerCase = "select x".toList.map toLowerCase
    ∧ select_index.seek_word false "SELECT x".toList
        = select_index.seek_word false "select x".toList
    ∧ select_index.m_entries.map (node_tag select_index.nodes) = [some "select".toList]
    ∧ select_index.seek_word false "SELECT x".toList = some (some 3)
    ∧ select_index.seek_word false "select x".toList = some (some 3)
    ∧ select_index.seek_word false "Select x".toList = some (some 3)
    ∧ sql_index.seek_word false "SELECT x".toList = some (some 3)
    ∧ sql_index.seek_word false "select x".toList = some (some 3)
    ∧ sql_index.seek_word false "Select x".toList = some (some 3) :=
  ⟨by decide!, by decide,
    (C16_case_insensitive_lookup select_tree false false false select_index "SELECT x".toList
      "select x".toList (by decide!) (by decide)).1,
    by decide!, by decide!, by decide!, by decide!, by decide!, by decide!, by decide!⟩

/-! ### The name predicate and the word boundary (C17) -/

/-- The hyphen-inclusive predicate accepts the ASCII letters and digits, the underscore and the hyphen. -/
theorem hyphenated_name_allow_classes (c : Char) :
    hyphenated_name_allow c = (c.isAlphanum || c = '_' || c = '-') := by
  have h1 : (c = '_') ↔ c.toNat = 95 := by
    constructor
    · intro h; rw [h]; rfl
    · intro h
      rw [← Char.ofNat_toNat c, h]
  have h2 : (c = '-') ↔ c.toNat = 45 := by
    constructor
    · intro h; rw [h]; rfl
    · intro h
      rw [← Char.ofNat_toNat c, h]
  rw [Bool.eq_iff_iff]
  simp only [hyphenated_name_allow, Char.isAlphanum, Char.isAlpha, Char.isUpper, Char.isLower,
    Char.isDigit, Bool.or_eq_true, Bool.and_eq_true, decide_eq_true_eq, h1, h2, ge_iff_le,
    UInt32.le_def, Char.toNat, UInt32.toNat, BitVec.le_def]
  have e1 : (UInt32.toBitVec 65).toNat = 65 := rfl
  have e2 : (UInt32.toBitVec 90).toNat = 90 := rfl
  have e3 : (UInt32.toBitVec 97).toNat = 97 := rfl
  have e4 : (UInt32.toBitVec 122).toNat = 122 := rfl
  have e5 : (UInt32.toBitVec 48).toNat = 48 := rfl
  have e6 : (UInt32.toBitVec 57).toNat = 57 := rfl
  rw [e1, e2, e3, e4, e5, e6]
  constructor <;> intro h <;> omega

/-- The node a lookup returns is a node of the array whose tag the matcher found. -/
theorem seek_loop_some (idx : HLIndex) (hyphen : Bool) (text : List Char) (is_tag : Bool)
    (n : Nat) :
    ∀ l : List Nat, seek_loop idx hyphen text is_tag l = some (some n) →
      n ∈ l ∧ ∃ c, node_tag idx.nodes n = some c ∧ idx.str_match hyphen text c is_tag ≠ 0
  | [], h => by simp [seek_loop] at h
  | m :: rest, h => by
    unfold seek_loop at h
    cases ht : node_tag idx.nodes m with
    | none => simp [ht] at h
    | some c =>
      simp only [ht] at h
      by_cases hm : idx.str_match hyphen text c is_tag ≠ 0
      · rw [if_pos hm] at h
        simp only [Option.some.injEq] at h
        subst h
        exact ⟨List.mem_cons_self _ _, c, ht, hm⟩
      · rw [if_neg hm] at h
        obtain ⟨h1, h2⟩ := seek_loop_some idx hyphen text is_tag n rest h
        exact ⟨List.mem_cons_of_mem _ h1, h2⟩

/-- The matcher does not find an empty needle. -/
theorem str_match_nil (idx : HLIndex) (hyphen : Bool) (text : List Char) (is_tag : Bool) :
    idx.str_match hyphen text [] is_tag = 0 := by
  unfold HLIndex.str_match str_match_insensitive str_match_sensitive
  cases text <;> cases idx.m_case_insensitive <;> simp [match_run]

/-- C17: with the hyphen-inclusive name predicate active, the word tag `seek_word`
returns is followed in the text by the end of the string or by a character that is
neither a letter, a digit, an underscore nor `-`.  With the word tags `background`
and `background-color`, `seek_word` at `background-color: red` returns
`background-color` under the hyphen-inclusive predicate (rule file with `!hyphen`)
and `background` under the simple predicate (rule file without it), for which `-`
is not name-eligible. -/
theorem C17_hyphen_predicate_boundary (idx : HLIndex) (text : List Char) (n : Nat)
    (t : List Char) (c : Char)
    (hseek : idx.seek_word true text = some (some n))
    (htag : node_tag idx.nodes n = some t)
    (hnext : (text.drop t.length).head? = some c) :
    (c.isAlphanum = false ∧ c ≠ '_' ∧ c ≠ '-')
    ∧ css_world.hyphen = true
    ∧ css_index.m_entries.map (node_tag css_index.nodes)
        = [some "background".toList, some "background-color".toList]
    ∧ (css_index.seek_word css_world.hyphen "background-color: red".toList).map
        (fun r => r.bind (node_tag css_index.nodes)) = some (some "background-color".toList)
    ∧ css_plain_world.hyphen = false
    ∧ css_plain_index.m_entries.map (node_tag css_plain_index.nodes)
        = [some "background".toList, some "background-color".toList]
    ∧ (css_plain_index.seek_word css_plain_world.hyphen "background-color: red".toList).map
        (fun r => r.bind (node_tag css_plain_index.nodes)) = some (some "background".toList)
    ∧ allowed_in_name false '-' = false ∧ allowed_in_name true '-' = true := by
  refine ⟨?_, by decide!, by decide!, by decide!, by decide!, by decide!, by decide!,
    by decide, by decide⟩
  obtain ⟨-, c0, hc0, hm⟩ := seek_loop_some idx true text true n _ hseek
  rw [htag] at hc0
  simp only [Option.some.injEq] at hc0
  subst hc0
  have hne : t ≠ [] := by
    intro hh
    subst hh
    exact hm (str_match_nil idx true text true)
  have hw := ((str_match_ne_zero idx true text t hne).1).1 hm
  unfold word_tag_matches at hw
  simp only [Bool.and_eq_true, decide_eq_true_eq] at hw
  have hb := hw.2
  cases hd : text.drop t.length with
  | nil => rw [hd] at hnext; cases hnext
  | cons d ds =>
    rw [hd] at hnext hb
    simp only [List.head?_cons, Option.some.injEq] at hnext
    subst hnext
    simp only [allowed_in_name, if_true, Bool.not_eq_true', hyphenated_name_allow_classes,
      Bool.or_eq_false_iff, decide_eq_false_iff_not] at hb
    exact ⟨hb.1.1, hb.1.2, hb.2⟩

/-- Witness of C17: the index of `css_rule_file` at `background-color: red`; the
character behind the tag returned is `:`. -/
theorem C17_hyphen_predicate_boundary_witness :
    css_index.seek_word true "background-color: red".toList = some (some 4)
    ∧ node_tag css_index.nodes 4 = some "background-color".toList
    ∧ ("background-color: red".toList.drop "background-color".toList.length).head? = some ':'
    ∧ (':'.isAlphanum = false ∧ ':' ≠ '_' ∧ ':' ≠ '-') :=
  ⟨by decide!, by decide!, by decide,
    (C17_hyphen_predicate_boundary css_index "background-color: red".toList 4
      "background-color".toList ':' (by decide!) (by decide!) (by decide)).1⟩

/-! ### The registry and the rule-file parser (C18, C19, C20) -/

/-- C18 (code defect): the root of a new index gets its tag through `save_str`,
which resolves escapes, and `seek_index` compares that tag with the raw language.
For the language `a\b` with the rule file `a\b.hl` the first `get_index` builds a
non-empty index whose root is tagged `ab`; the second `get_index` does not find it,
opens and parses the file again and appends a second index.  With the file gone
the second call returns the null pointer.  For `sql` the second call returns what
the first returned and needs no file. -/
theorem C18_escaped_language_parsed_again :
    (get_index escaped_name_files Scanner.init.world "a\\b".toList).map
        (fun r => (r.1.registry.length, r.2.isSome, r.1.registry.map (fun i => node_tag i.nodes 0)))
      = some (1, true, [some "ab".toList])
    ∧ ((get_index escaped_name_files Scanner.init.world "a\\b".toList).bind
          (fun r => get_index escaped_name_files r.1 "a\\b".toList)).map
        (fun r => (r.1.registry.length, r.2.isSome))
      = some (2, true)
    ∧ ((get_index escaped_name_files Scanner.init.world "a\\b".toList).bind
          (fun r => get_index no_files r.1 "a\\b".toList)).map
        (fun r => (r.1.registry.length, r.2.isSome))
      = some (1, false)
    ∧ (get_index sql_files Scanner.init.world "sql".toList).bind
          (fun r => get_index no_files r.1 "sql".toList)
      = get_index sql_files Scanner.init.world "sql".toList
    ∧ (get_index sql_files Scanner.init.world "sql".toList).map (fun r => r.2.isSome)
      = some true := by
  decide!

/-- C19 (code defect): a flag line sets `m_cur_tag` before the flag is recognized, so
`do_node` makes a node of it.  The rule file `!ci`, `keyword: k`, `   a` gives a
tree with a node tagged `!ci` that the file without the flag line does not have;
and a flag line between two leaves takes the second leaf away from its category:
`b` becomes the child of the node `!ci`. -/
theorem C19_flag_line_adds_node :
    parsed_tree "!ci\nkeyword: k\n   a\n".toList
      = some [(none, some "x".toList), (some 0, some "!ci".toList),
          (some 0, some "keyword".toList), (some 2, some "a".toList)]
    ∧ parsed_tree "keyword: k\n   a\n".toList
      = some [(none, some "x".toList),
          (some 0, some "keyword".toList), (some 1, some "a".toList)]
    ∧ parsed_tree "keyword: k\n   a\n!ci\n   b\n".toList
      = some [(none, some "x".toList),
          (some 0, some "keyword".toList), (some 1, some "a".toList),
          (some 0, some "!ci".toList), (some 3, some "b".toList)]
    ∧ parsed_tree "keyword: k\n   a\n   b\n".toList
      = some [(none, some "x".toList),
          (some 0, some "keyword".toList), (some 1, some "a".toList),
          (some 1, some "b".toList)] := by
  refine ⟨by decide!, by decide!, by decide!, by decide!⟩

/-- C20 (code defect): a comment-only line sets `m_cur_tag` at its `#`, which is then
overwritten by the terminator, so `do_node` makes a node with a null tag of it.  The
rule file `# c`, `keyword: k`, `   a` gives a tree with such a node that the file
without the comment line does not have; a comment-only line among the leaves makes
`source_scan` read the first character of a null tag, a fault.  Blank lines add no
node. -/
theorem C20_comment_line_adds_node :
    parsed_tree "# c\nkeyword: k\n   a\n".toList
      = some [(none, some "x".toList), (some 0, none),
          (some 0, some "keyword".toList), (some 2, some "a".toList)]
    ∧ parsed_tree "keyword: k\n   a\n".toList
      = some [(none, some "x".toList),
          (some 0, some "keyword".toList), (some 1, some "a".toList)]
    ∧ parsed_tree "keyword: k\n\n   \n   a\n".toList
      = parsed_tree "keyword: k\n   a\n".toList
    ∧ get_index (fun _ => some "keyword: k\n   a\n   # d\n   b\n".toList) Scanner.init.world
        "x".toList = none
    ∧ (get_index (fun _ => some "keyword: k\n   a\n   b\n".toList) Scanner.init.world
        "x".toList).map (fun r => r.2.isSome) = some true := by
  refine ⟨by decide!, by decide!, by decide!, by decide!, by decide!⟩

/-! ### The cache of `get_index` for a language without escapes -/

/-- An element of a list changed at one index is an element of the list or the change of one. -/
theorem mem_modify (f : HLNode → HLNode) (nd : HLNode) :
    ∀ (nodes : List HLNode) (i : Nat), nd ∈ nodes.modify f i →
      nd ∈ nodes ∨ ∃ h ∈ nodes, nd = f h
  | [], _, h => by simp at h
  | n :: rest, 0, h => by
    simp only [List.modify_zero_cons, List.mem_cons] at h
    rcases h with h | h
    · exact Or.inr ⟨n, List.mem_cons_self _ _, h⟩
    · exact Or.inl (List.mem_cons_of_mem _ h)
  | n :: rest, i + 1, h => by
    simp only [List.modify_succ_cons, List.mem_cons] at h
    rcases h with h | h
    · exact Or.inl (by rw [h]; exact List.mem_cons_self _ _)
    · rcases mem_modify f nd rest i h with h1 | ⟨x, hx, hxe⟩
      · exact Or.inl (List.mem_cons_of_mem _ h1)
      · exact Or.inr ⟨x, List.mem_cons_of_mem _ hx, hxe⟩

/-- `direct_add_child` keeps an arena in which no link points at the root. -/
theorem direct_add_child_links (nodes : List HLNode) (host : Nat)
    (tag value : Option (List Char)) (hne : nodes ≠ [])
    (h : ∀ nd ∈ nodes, nd.m_child ≠ some 0 ∧ nd.m_sibling ≠ some 0) :
    (direct_add_child nodes host tag value).1 ≠ []
    ∧ ∀ nd ∈ (direct_add_child nodes host tag value).1,
        nd.m_child ≠ some 0 ∧ nd.m_sibling ≠ some 0 := by
  have hlen : nodes.length ≠ 0 := by
    cases nodes with
    | nil => exact absurd rfl hne
    | cons _ _ => simp
  have hall : ∀ nd ∈ nodes ++ [HLNode.new tag value (some host)],
      nd.m_child ≠ some 0 ∧ nd.m_sibling ≠ some 0 := by
    intro nd hnd
    rcases List.mem_append.mp hnd with h1 | h1
    · exact h nd h1
    · rw [List.mem_singleton.mp h1]
      simp [HLNode.new]
  unfold direct_add_child
  constructor
  · simp [List.modify_eq_nil_iff]
  · intro nd hnd
    rcases mem_modify _ nd _ _ hnd with h1 | ⟨x, hx, rfl⟩
    · exact hall nd h1
    · refine ⟨?_, (hall x hx).2⟩
      simp only [ne_eq, Option.some.injEq]
      exact hlen

/-- `direct_add_sibling` keeps an arena in which no link points at the root. -/
theorem direct_add_sibling_links (nodes : List HLNode) (host : Nat)
    (tag value : Option (List Char)) (hne : nodes ≠ [])
    (h : ∀ nd ∈ nodes, nd.m_child ≠ some 0 ∧ nd.m_sibling ≠ some 0) :
    (direct_add_sibling nodes host tag value).1 ≠ []
    ∧ ∀ nd ∈ (direct_add_sibling nodes host tag value).1,
        nd.m_child ≠ some 0 ∧ nd.m_sibling ≠ some 0 := by
  have hlen : nodes.length ≠ 0 := by
    cases nodes with
    | nil => exact absurd rfl hne
    | cons _ _ => simp
  have hall : ∀ nd ∈ nodes ++ [HLNode.new tag value ((nodes.get? host).bind (fun h => h.m_parent))],
      nd.m_child ≠ some 0 ∧ nd.m_sibling ≠ some 0 := by
    intro nd hnd
    rcases List.mem_append.mp hnd with h1 | h1
    · exact h nd h1
    · rw [List.mem_singleton.mp h1]
      simp [HLNode.new]
  unfold direct_add_sibling
  constructor
  · simp [List.modify_eq_nil_iff]
  · intro nd hnd
    rcases mem_modify _ nd _ _ hnd with h1 | ⟨x, hx, rfl⟩
    · exact hall nd h1
    · refine ⟨(hall x hx).1, ?_⟩
      simp only [ne_eq, Option.some.injEq]
      exact hlen

/-- The parser keeps the tags of the nodes it finds in the arena, and no link it sets points at the root. -/
theorem do_node_loop_arena :
    ∀ (fuel : Nat) (ps : HLParser) (nodes : List HLNode) (host : Nat) (lvl : Int)
      (r : HLParser × List HLNode),
      HLParser.do_node_loop fuel ps nodes host lvl = some r →
      nodes ≠ [] → (∀ nd ∈ nodes, nd.m_child ≠ some 0 ∧ nd.m_sibling ≠ some 0) →
      (∃ more, r.2.map (fun n => n.m_tag) = nodes.map (fun n => n.m_tag) ++ more)
      ∧ r.2 ≠ [] ∧ (∀ nd ∈ r.2, nd.m_child ≠ some 0 ∧ nd.m_sibling ≠ some 0)
  | 0, _, _, _, _, _, h, _, _ => by simp [HLParser.do_node_loop] at h
  | fuel + 1, ps, nodes, host, lvl, r, h, hne, hl => by
    unfold HLParser.do_node_loop at h
    split at h
    · cases h; exact ⟨⟨[], by simp⟩, hne, hl⟩
    · split at h
      · simp only [] at h
        split at h
        · split at h
          · cases h
          · rename_i ps2 nodes2 h1
            obtain ⟨c1, c2⟩ := direct_add_child_links nodes host ps.tag ps.value hne hl
            obtain ⟨⟨m1, a1⟩, a2, a3⟩ := do_node_loop_arena fuel _ _ _ _ _ h1 c1 c2
            obtain ⟨⟨m2, b1⟩, b2, b3⟩ := do_node_loop_arena fuel _ _ _ _ _ h a2 a3
            refine ⟨⟨[save_str ps.tag] ++ m1 ++ m2, ?_⟩, b2, b3⟩
            rw [b1, a1, direct_add_child_tags]
            simp
        · split at h
          · cases h; exact ⟨⟨[], by simp⟩, hne, hl⟩
          · obtain ⟨c1, c2⟩ := direct_add_sibling_links nodes host ps.tag ps.value hne hl
            obtain ⟨⟨m1, a1⟩, a2, a3⟩ := do_node_loop_arena fuel _ _ _ _ _ h c1 c2
            refine ⟨⟨[save_str ps.tag] ++ m1, ?_⟩, a2, a3⟩
            rw [a1, direct_add_sibling_tags]
            simp
      · exact do_node_loop_arena fuel _ _ _ _ _ h hne hl

/-- A chain of siblings that does not start at the root does not reach it. -/
theorem sibling_chain_ne_zero (nodes : List HLNode)
    (hl : ∀ nd ∈ nodes, nd.m_child ≠ some 0 ∧ nd.m_sibling ≠ some 0) :
    ∀ (fuel : Nat) (start : Option Nat), start ≠ some 0 →
      ∀ i ∈ sibling_chain nodes fuel start, i ≠ 0
  | 0, _, _, i, hi => by simp [sibling_chain] at hi
  | _ + 1, none, _, i, hi => by simp [sibling_chain] at hi
  | fuel + 1, some j, hs, i, hi => by
    unfold sibling_chain at hi
    cases hg : nodes.get? j with
    | none =>
      rw [hg] at hi
      cases hi
    | some n =>
      rw [hg] at hi
      simp only [List.mem_cons] at hi
      rcases hi with h1 | h1
      · rw [h1]
        intro hh
        exact hs (by rw [hh])
      · exact sibling_chain_ne_zero nodes hl fuel n.m_sibling (hl n (List.get?_mem hg)).2 i h1

/-- The root is not among the nodes `walk_tags` visits. -/
theorem walk_tags_ne_zero (nodes : List HLNode)
    (hl : ∀ nd ∈ nodes, nd.m_child ≠ some 0 ∧ nd.m_sibling ≠ some 0) :
    0 ∉ walk_tags nodes := by
  unfold walk_tags
  intro h
  rw [List.mem_flatMap] at h
  obtain ⟨j, -, hj⟩ := h
  unfold children at hj
  cases hg : nodes.get? j with
  | none =>
    rw [hg] at hj
    cases hj
  | some n =>
    rw [hg] at hj
    exact sibling_chain_ne_zero nodes hl _ n.m_child (hl n (List.get?_mem hg)).1 0 hj rfl

/-- The tree the parser builds keeps the tag of its root, and `walk_tags` does not visit the root. -/
theorem parser_root (buff f type : List Char) (r : HLParser × List HLNode)
    (h : HLParser.new buff f [HLNode.new (some type) none none] = some r) :
    node_tag r.2 0 = save_str (some type) ∧ 0 ∉ walk_tags r.2 := by
  unfold HLParser.new HLParser.do_node at h
  obtain ⟨⟨more, a1⟩, a2, a3⟩ := do_node_loop_arena _ _ _ _ _ _ h (by simp) (by
    intro nd hnd
    rw [List.mem_singleton.mp hnd]
    simp [HLNode.new])
  refine ⟨?_, walk_tags_ne_zero r.2 a3⟩
  cases hr : r.2 with
  | nil => exact absurd hr a2
  | cons n0 rest =>
    rw [hr] at a1
    simp only [List.map_cons, List.map_nil, List.singleton_append, List.cons.injEq,
      HLNode.new] at a1
    simp [node_tag, a1.1]

/-- `source_scan` keeps the tag of a root that `walk_tags` does not visit. -/
theorem source_scan_root (hyphen ci : Bool) (nodes nodes1 : List HLNode)
    (entries comments : List Nat)
    (h : source_scan hyphen ci nodes = some (nodes1, entries, comments))
    (h0 : 0 ∉ walk_tags nodes) : node_tag nodes1 0 = node_tag nodes 0 := by
  unfold source_scan at h
  simp only [] at h
  split at h
  · cases h
  · split at h
    · simp only [Option.some.injEq, Prod.mk.injEq] at h
      rw [← h.1]
    · simp only [Option.some.injEq, Prod.mk.injEq] at h
      rw [← h.1]
      cases ci
      · rfl
      · simp only [if_true]
        rw [node_tag_lowered, if_neg h0]

/-- Behind indices that do not match, `seek_index` looks at the index that was appended. -/
theorem seek_index_append (L : List Char) (idx : HLIndex) :
    ∀ reg : List HLIndex, seek_index reg L = some none →
      seek_index (reg ++ [idx]) L = seek_index [idx] L
  | [], _ => rfl
  | i :: rest, h => by
    rw [List.cons_append, seek_index]
    rw [seek_index] at h
    cases hg : i.nodes.get? 0 with
    | none =>
      rw [hg] at h
      simp only [] at h ⊢
      exact seek_index_append L idx rest h
    | some root =>
      rw [hg] at h
      simp only [] at h ⊢
      cases he : root.is_equal L with
      | none => rw [he] at h; cases h
      | some b =>
        rw [he] at h
        cases b with
        | true => cases h
        | false => exact seek_index_append L idx rest h

/-- The cache of `get_index`: for a language whose name `save_str` does not change
and that was not registered, once `get_index` has built a non-empty index, the next
`get_index` for the language returns that index and leaves the static state as it
is, whatever rule files there are. -/
theorem get_index_cached (fs fs2 : FileSystem) (w w1 : IndexWorld) (L : List Char)
    (idx : HLIndex) (hL : save_str (some L) = some L)
    (hs : seek_index w.registry L = some none)
    (h : get_index fs w L = some (w1, some idx)) :
    get_index fs2 w1 L = some (w1, some idx) := by
  unfold get_index at h
  rw [hs] at h
  simp only [] at h
  split at h
  · cases h
  · split at h
    · cases h
    · rename_i f hf hlp nodes hp
      split at h
      · cases h
      · rename_i hy i hi
        simp only [Option.some.injEq, Prod.mk.injEq] at h
        obtain ⟨hw1, hr⟩ := h
        have hemp : i.is_empty = false ∧ i = idx := by
          cases he : i.is_empty
          · simp only [he, Bool.false_eq_true, if_false, Option.some.injEq] at hr
            exact ⟨rfl, hr⟩
          · simp [he] at hr
        obtain ⟨he, rfl⟩ := hemp
        obtain ⟨p1, p2⟩ := parser_root _ _ _ _ hp
        have hroot : node_tag i.nodes 0 = some L := by
          unfold HLIndex.new at hi
          split at hi
          · cases hi
          · rename_i nodes1 entries comments hss
            simp only [Option.some.injEq, Prod.mk.injEq] at hi
            rw [← hi.2]
            simp only []
            rw [source_scan_root _ _ _ _ _ _ hss p2, p1, hL]
        have hseek : seek_index w1.registry L = some (some i) := by
          rw [← hw1]
          simp only []
          rw [seek_index_append L i _ hs]
          unfold node_tag at hroot
          cases hg : i.nodes.get? 0 with
          | none =>
            rw [hg] at hroot
            cases hroot
          | some root =>
            rw [hg] at hroot
            simp only [Option.some_bind] at hroot
            rw [seek_index, hg]
            simp [HLNode.is_equal, hroot]
        unfold get_index
        rw [hseek]
        simp [he]

/-! ### Escaped output and elements (C26, C27, C28) -/

/-- C26: `print_char_translated` writes `&commat;` for `@`, `&lt;` for `<`, `&gt;`
for `>`, `&amp;` for `&`, `&quot;` for `"`, `&apos;` for the apostrophe, and every
other character unchanged as a single character. -/
theorem C26_print_char_translated_table :
    print_char_translated '@' = "&commat;".toList
    ∧ print_char_translated '<' = "&lt;".toList
    ∧ print_char_translated '>' = "&gt;".toList
    ∧ print_char_translated '&' = "&amp;".toList
    ∧ print_char_translated '"' = "&quot;".toList
    ∧ print_char_translated APOS = "&apos;".toList
    ∧ ∀ c : Char, c ≠ '@' → c ≠ '<' → c ≠ '>' → c ≠ '&' → c ≠ '"' → c ≠ APOS →
        print_char_translated c = [c] := by
  refine ⟨by decide, by decide, by decide, by decide, by decide, by decide, ?_⟩
  intro c h1 h2 h3 h4 h5 h6
  simp only [print_char_translated, h1, h2, h3, h4, h5, h6, if_false]

/-- With room for the whole string, `print_string_translated` writes the escaped first character and then the escaped rest. -/
theorem print_string_translated_cons (c : Char) (s : List Char) (len : Nat) :
    print_string_translated (c :: s) (len + 1)
      = print_char_translated c ++ print_string_translated s len := by
  simp [print_string_translated]

/-- The unescaping reads the escape of a character back as the character. -/
theorem unescape_loop_char (c : Char) (y : List Char) (fuel : Nat)
    (hf : y.length ≤ fuel) :
    ∃ fuel1, y.length ≤ fuel1
      ∧ unescape_loop (fuel + 1) (print_char_translated c ++ y) = c :: unescape_loop fuel1 y := by
  unfold print_char_translated
  by_cases h1 : c = '@'
  · subst h1; exact ⟨fuel, hf, by simp [unescape_loop]⟩
  by_cases h2 : c = '<'
  · subst h2; exact ⟨fuel, hf, by simp [unescape_loop]⟩
  by_cases h3 : c = '>'
  · subst h3; exact ⟨fuel, hf, by simp [unescape_loop]⟩
  by_cases h4 : c = '&'
  · subst h4; exact ⟨fuel, hf, by simp [unescape_loop]⟩
  by_cases h5 : c = '"'
  · subst h5; exact ⟨fuel, hf, by simp [unescape_loop]⟩
  by_cases h6 : c = APOS
  · subst h6; exact ⟨fuel, hf, by simp [unescape_loop]⟩
  refine ⟨fuel, hf, ?_⟩
  simp only [h1, h2, h3, h4, h5, h6, if_false, List.singleton_append, unescape_loop]

/-- With enough fuel the unescaping recovers a string from its escaped output. -/
theorem unescape_loop_escape :
    ∀ (s : List Char) (len fuel : Nat), s.length ≤ len →
      (print_string_translated s len).length ≤ fuel →
      unescape_loop fuel (print_string_translated s len) = s
  | [], len, fuel, _, _ => by
    cases len <;> cases fuel <;> simp [print_string_translated, unescape_loop]
  | c :: s, 0, _, h, _ => by simp at h
  | c :: s, len + 1, 0, _, hf => by
    rw [print_string_translated_cons] at hf
    have : 0 < (print_char_translated c).length := by
      unfold print_char_translated
      repeat' split
      all_goals simp
    simp only [List.length_append] at hf
    omega
  | c :: s, len + 1, fuel + 1, h, hf => by
    rw [print_string_translated_cons] at hf ⊢
    have hpos : 0 < (print_char_translated c).length := by
      unfold print_char_translated
      repeat' split
      all_goals simp
    simp only [List.length_append] at hf
    obtain ⟨fuel1, hf1, e⟩ := unescape_loop_char c (print_string_translated s len) fuel
      (by omega)
    rw [e, unescape_loop_escape s len fuel1 (by simpa using h) hf1]

/-- C27: escaping is injective on whole strings: two strings of at most `len`
characters for which `print_string_translated` writes the same output are equal;
and the unescaping `unescape` recovers every such string from its escaped output. -/
theorem C27_escaping_injective (s t : List Char) (len : Nat)
    (hs : s.length ≤ len) (ht : t.length ≤ len) :
    (print_string_translated s len = print_string_translated t len → s = t)
    ∧ unescape (print_string_translated s len) = s := by
  have key : ∀ u : List Char, u.length ≤ len → unescape (print_string_translated u len) = u :=
    fun u hu => unescape_loop_escape u len _ hu (Nat.le_refl _)
  refine ⟨?_, key s hs⟩
  intro h
  rw [← key s hs, ← key t ht, h]

/-- Witness of C27: the strings `a<b` and `a&lt;b` have different escaped outputs,
and `a<b & "c"` is recovered from its escaped output. -/
theorem C27_escaping_injective_witness :
    "a<b & \"c\"".toList.length ≤ 2048 ∧ "a&lt;b".toList.length ≤ 2048
    ∧ print_string_translated "a<b & \"c\"".toList 2048
        = "a&lt;b &amp; &quot;c&quot;".toList
    ∧ unescape (print_string_translated "a<b & \"c\"".toList 2048) = "a<b & \"c\"".toList
    ∧ (print_string_translated "a<b & \"c\"".toList 2048
          = print_string_translated "a&lt;b".toList 2048 →
        "a<b & \"c\"".toList = "a&lt;b".toList) :=
  ⟨by decide, by decide, by decide,
    (C27_escaping_injective "a<b & \"c\"".toList "a&lt;b".toList 2048 (by decide) (by decide)).2,
    (C27_escaping_injective "a<b & \"c\"".toList "a&lt;b".toList 2048 (by decide) (by decide)).1⟩

/-- The loop of `print_open_element` over an element name without a period in front of a period. -/
theorem print_open_element_loop_class (C : List Char) :
    ∀ E : List Char, '.' ∉ E →
      print_open_element_loop (E ++ '.' :: C) = E ++ " class=\"".toList ++ C ++ ['"']
  | [], _ => by simp [print_open_element_loop]
  | c :: E, h => by
    have hc : c ≠ '.' := fun hh => h (by simp [hh])
    have hE : '.' ∉ E := fun hh => h (by simp [hh])
    rw [List.cons_append, print_open_element_loop, if_neg hc,
      print_open_element_loop_class C E hE]
    simp

/-- The loop of `print_open_element` over an element name without a period. -/
theorem print_open_element_loop_plain :
    ∀ E : List Char, '.' ∉ E → print_open_element_loop E = E
  | [], _ => rfl
  | c :: E, h => by
    have hc : c ≠ '.' := fun hh => h (by simp [hh])
    have hE : '.' ∉ E := fun hh => h (by simp [hh])
    simp only [print_open_element_loop, hc, if_false, print_open_element_loop_plain E hE]

/-- The characters in front of the first period of a value. -/
theorem takeWhile_element (C : List Char) :
    ∀ E : List Char, '.' ∉ E →
      (E ++ '.' :: C).takeWhile (fun c => c ≠ '.') = E
        ∧ E.takeWhile (fun c => c ≠ '.') = E
  | [], _ => by simp
  | c :: E, h => by
    have hc : c ≠ '.' := fun hh => h (by simp [hh])
    have hE : '.' ∉ E := fun hh => h (by simp [hh])
    obtain ⟨i1, i2⟩ := takeWhile_element C E hE
    have hd : decide (c ≠ '.') = true := decide_eq_true hc
    rw [List.cons_append, List.takeWhile_cons, List.takeWhile_cons]
    simp only [hd, if_true, i1, i2, and_self]

/-- C28: for a category value `E.C` where `E` holds no period, `print_open_element`
writes `<E class="C">` and `print_close_element` writes `</E>`; for a value `E`
without a period they write `<E>` and `</E>`. -/
theorem C28_element_open_close (E C : List Char) (hE : '.' ∉ E) :
    print_open_element (E ++ '.' :: C) = "<".toList ++ E ++ " class=\"".toList ++ C ++ "\">".toList
    ∧ print_close_element (E ++ '.' :: C) = "</".toList ++ E ++ ">".toList
    ∧ print_open_element E = "<".toList ++ E ++ ">".toList
    ∧ print_close_element E = "</".toList ++ E ++ ">".toList := by
  obtain ⟨t1, t2⟩ := takeWhile_element C E hE
  refine ⟨?_, ?_, ?_, ?_⟩
  · simp [print_open_element, print_open_element_loop_class C E hE]
  · unfold print_close_element
    rw [t1]
    simp
  · simp [print_open_element, print_open_element_loop_plain E hE]
  · unfold print_close_element
    rw [t2]
    simp

/-- Witness of C28: the value `span.keywordflow` and the value `b`. -/
theorem C28_element_open_close_witness :
    '.' ∉ "span".toList
    ∧ print_open_element "span.keywordflow".toList = "<span class=\"keywordflow\">".toList
    ∧ print_close_element "span.keywordflow".toList = "</span>".toList
    ∧ print_open_element "span".toList = "<span>".toList
    ∧ print_close_element "span".toList = "</span>".toList :=
  ⟨by decide,
    (C28_element_open_close "span".toList "keywordflow".toList (by decide)).1,
    (C28_element_open_close "span".toList "keywordflow".toList (by decide)).2.1,
    (C28_element_open_close "span".toList "keywordflow".toList (by decide)).2.2.1,
    (C28_element_open_close "span".toList "keywordflow".toList (by decide)).2.2.2⟩

/-! ### Escapes in saved strings (C24) -/

/-- `walk_str` hands over a string without backslashes as it is, and goes on behind it. -/
theorem walk_str_plain (b : List Char) :
    ∀ a : List Char, '\\' ∉ a → walk_str (a ++ b) = a ++ walk_str b
  | [], _ => rfl
  | c :: a, h => by
    have hc : c ≠ '\\' := fun hh => h (by simp [hh])
    have ha : '\\' ∉ a := fun hh => h (by simp [hh])
    rw [List.cons_append, walk_str.eq_def]
    simp only [hc, if_false, walk_str_plain b a ha, List.cons_append]

/-- C24 (evaluation at the failing input): `save_str` of the two characters
backslash, `n` is the same two characters, not the one character `n`, and so for
`r` and `t`: in front of `n`, `r` and `t` the backslash is handed on as well,
wherever the escape stands in the string.  For every other character `X` the
backslash is removed and `X` is kept: `save_str` of backslash, `X` is `X`, also
behind a part `a` without backslashes, where the rest `b` is walked on; a string
without backslashes that is not empty is returned unchanged; and
`My \#\ \\Mama.` becomes `My # \Mama.`. -/
theorem C24_backslash_kept_before_nrt :
    (save_str (some "\\n".toList) = some "\\n".toList
      ∧ save_str (some "\\r".toList) = some "\\r".toList
      ∧ save_str (some "\\t".toList) = some "\\t".toList
      ∧ save_str (some "\\n".toList) ≠ some "n".toList
      ∧ save_str (some "a\\tb".toList) = some "a\\tb".toList)
    ∧ (∀ X : Char, X ≠ 'n' → X ≠ 'r' → X ≠ 't' → save_str (some ['\\', X]) = some [X])
    ∧ (∀ X : Char, X = 'n' ∨ X = 'r' ∨ X = 't' → save_str (some ['\\', X]) = some ['\\', X])
    ∧ (∀ (a b : List Char) (X : Char), '\\' ∉ a → X ≠ 'n' → X ≠ 'r' → X ≠ 't' →
        save_str (some (a ++ '\\' :: X :: b)) = some (a ++ X :: walk_str b))
    ∧ (∀ (a b : List Char) (X : Char), '\\' ∉ a → X = 'n' ∨ X = 'r' ∨ X = 't' →
        save_str (some (a ++ '\\' :: X :: b)) = some (a ++ '\\' :: X :: walk_str b))
    ∧ (∀ s : List Char, s ≠ [] → '\\' ∉ s → save_str (some s) = some s)
    ∧ save_str (some "My \\#\\ \\\\Mama.".toList) = some "My # \\Mama.".toList := by
  have e1 : ∀ (b : List Char) (X : Char), X ≠ 'n' → X ≠ 'r' → X ≠ 't' →
      walk_str ('\\' :: X :: b) = X :: walk_str b := by
    intro b X h1 h2 h3
    simp [walk_str, h1, h2, h3]
  have e2 : ∀ (b : List Char) (X : Char), X = 'n' ∨ X = 'r' ∨ X = 't' →
      walk_str ('\\' :: X :: b) = '\\' :: X :: walk_str b := by
    intro b X h
    simp [walk_str, h]
  have hsome : ∀ s r : List Char, walk_str s = r → r ≠ [] → save_str (some s) = some r := by
    intro s r h hr
    have : r.length > 0 := List.length_pos.mpr hr
    simp [save_str, h, this]
  refine ⟨by decide, ?_, ?_, ?_, ?_, ?_, by decide⟩
  · intro X h1 h2 h3
    exact hsome _ _ (by rw [e1 [] X h1 h2 h3]; rfl) (by simp)
  · intro X h
    exact hsome _ _ (by rw [e2 [] X h]; rfl) (by simp)
  · intro a b X ha h1 h2 h3
    exact hsome _ _ (by rw [walk_str_plain _ a ha, e1 b X h1 h2 h3]) (by simp)
  · intro a b X ha h
    exact hsome _ _ (by rw [walk_str_plain _ a ha, e2 b X h]) (by simp)
  · intro s hs h
    have := walk_str_plain [] s h
    simp only [List.append_nil] at this
    exact hsome _ _ (by rw [this]; simp [walk_str]) hs

/-! ### Flag lines (C23) -/

/-- The character at an offset of a buffer is the character at the start of the buffer cut there. -/
theorem buff_at_drop (buff : List Char) (p i : Nat) :
    buff_at buff (p + i) = (buff.drop p).getD i NUL := by
  simp [buff_at, List.getD_eq_getElem?_getD, List.getElem?_drop]

/-- A C string equals a word without NUL exactly when the buffer starts with the word and a NUL follows. -/
theorem takeWhile_eq_word :
    ∀ (w l : List Char), NUL ∉ w →
      (l.takeWhile (fun c => c ≠ NUL) = w ↔ l.take w.length = w ∧ l.getD w.length NUL = NUL)
  | [], [], _ => by simp
  | [], c :: l, _ => by
    by_cases hc : c = NUL <;> simp [List.takeWhile, hc]
  | a :: w, [], _ => by simp
  | a :: w, c :: l, h => by
    have ha : a ≠ NUL := fun hh => h (by simp [hh])
    have hw : NUL ∉ w := fun hh => h (by simp [hh])
    have ih := takeWhile_eq_word w l hw
    by_cases hc : c = NUL
    · subst hc
      simp [List.takeWhile, Ne.symm ha]
    · simp only [List.takeWhile, ne_eq, hc, not_false_eq_true, decide_True, List.cons.injEq,
        List.length_cons, List.take_succ_cons, List.getD_cons_succ, ih]
      tauto

/-- A C string starts with a word without NUL exactly when the buffer does. -/
theorem take_takeWhile_word :
    ∀ (w l : List Char), NUL ∉ w →
      ((l.takeWhile (fun c => c ≠ NUL)).take w.length = w ↔ l.take w.length = w)
  | [], _, _ => by simp
  | a :: w, [], _ => by simp
  | a :: w, c :: l, h => by
    have ha : a ≠ NUL := fun hh => h (by simp [hh])
    have hw : NUL ∉ w := fun hh => h (by simp [hh])
    have ih := take_takeWhile_word w l hw
    by_cases hc : c = NUL
    · subst hc
      simp [List.takeWhile, Ne.symm ha]
    · simp only [List.takeWhile, ne_eq, hc, not_false_eq_true, decide_True, List.cons.injEq,
        List.length_cons, List.take_succ_cons, ih]

/-- A buffer starts with a word without NUL exactly when its characters, read with NUL behind the end, are those of the word. -/
theorem take_eq_word :
    ∀ (w l : List Char), NUL ∉ w →
      (l.take w.length = w ↔ ∀ i, i < w.length → l.getD i NUL = w.getD i NUL)
  | [], _, _ => by simp
  | a :: w, [], h => by
    have ha : a ≠ NUL := fun hh => h (by simp [hh])
    constructor
    · intro hh
      simp at hh
    · intro hh
      have := hh 0 (by simp)
      simp only [List.getD_nil, List.getD_cons_zero] at this
      exact absurd this.symm ha
  | a :: w, c :: l, h => by
    have hw : NUL ∉ w := fun hh => h (by simp [hh])
    have ih := take_eq_word w l hw
    simp only [List.length_cons, List.take_succ_cons, List.cons.injEq, ih]
    constructor
    · rintro ⟨rfl, h2⟩ i hi
      cases i with
      | zero => simp
      | succ j => simpa using h2 j (by omega)
    · intro h2
      refine ⟨by simpa using h2 0 (by omega), ?_⟩
      intro i hi
      simpa using h2 (i + 1) (by omega)

/-- The six characters `strncmp` compares: the test of `set_flag_from_line` for a word of six characters behind the `!`. -/
theorem flag_word_test (l : List Char) (w : List Char) (hw : w.length = 6) (hn : NUL ∉ w)
    (h0 : l.getD 0 NUL = '!') :
    (List.range 6).all (fun i => decide (l.getD (1 + i) NUL = w.getD i NUL))
      = decide (l.take 7 = '!' :: w) := by
  have hr : List.range 6 = [0, 1, 2, 3, 4, 5] := by decide
  have hn2 : NUL ∉ '!' :: w := by
    intro hh
    rcases List.mem_cons.mp hh with h1 | h1
    · exact absurd h1 (by decide)
    · exact hn h1
  have key := take_eq_word ('!' :: w) l hn2
  simp only [List.length_cons, hw] at key
  rw [Bool.eq_iff_iff, decide_eq_true_eq, key, hr]
  simp only [List.all_cons, List.all_nil, Bool.and_true, Bool.and_eq_true, decide_eq_true_eq]
  constructor
  · rintro ⟨a0, a1, a2, a3, a4, a5⟩ i hi
    interval_cases i
    · simpa using h0
    · simpa using a0
    · simpa using a1
    · simpa using a2
    · simpa using a3
    · simpa using a4
    · simpa using a5
  · intro h
    refine ⟨?_, ?_, ?_, ?_, ?_, ?_⟩
    · simpa using h 1 (by omega)
    · simpa using h 2 (by omega)
    · simpa using h 3 (by omega)
    · simpa using h 4 (by omega)
    · simpa using h 5 (by omega)
    · simpa using h 6 (by omega)

/-- C23: for the line that starts at `str` (the C string at offset `p` of the read
buffer), `set_flag_from_line` sets the hyphenated-tags flag exactly when the line is
`!ht` or starts with `!hyphen`, sets the case-insensitive flag exactly when the line
is `!ci` or starts with `!case-i`, returns true exactly when it set a flag, clears no
flag that is set, changes nothing else, and never sets both flags at once. -/
theorem C23_set_flag_from_line (ps : HLParser) (p : Nat) :
    (ps.set_flag_from_line p).1
        = { ps with
            m_hyphenated_tags :=
              ps.m_hyphenated_tags || is_hyphen_flag_line (cstr_at ps.s_read_buff p)
            m_case_insensitive :=
              ps.m_case_insensitive || is_case_flag_line (cstr_at ps.s_read_buff p) }
    ∧ (ps.set_flag_from_line p).2
        = (is_hyphen_flag_line (cstr_at ps.s_read_buff p)
            || is_case_flag_line (cstr_at ps.s_read_buff p))
    ∧ (is_hyphen_flag_line (cstr_at ps.s_read_buff p) = true →
        is_case_flag_line (cstr_at ps.s_read_buff p) = false) := by
  have hn3 : NUL ∉ "!ht".toList := by decide
  have hc3 : NUL ∉ "!ci".toList := by decide
  have hn7 : NUL ∉ "!hyphen".toList := by decide
  have hc7 : NUL ∉ "!case-i".toList := by decide
  have b0 := buff_at_drop ps.s_read_buff p 0
  have b1 := buff_at_drop ps.s_read_buff p 1
  have b2 := buff_at_drop ps.s_read_buff p 2
  have b3 := buff_at_drop ps.s_read_buff p 3
  have bi : ∀ i, buff_at ps.s_read_buff (p + 1 + i) = (ps.s_read_buff.drop p).getD (1 + i) NUL := by
    intro i
    rw [Nat.add_assoc]
    exact buff_at_drop ps.s_read_buff p (1 + i)
  rw [Nat.add_zero] at b0
  unfold HLParser.set_flag_from_line is_hyphen_flag_line is_case_flag_line cstr_at
  simp only [b0, b1, b2, b3, bi]
  generalize ps.s_read_buff.drop p = l
  have s3 := takeWhile_eq_word "!ht".toList l hn3
  have t3 := takeWhile_eq_word "!ci".toList l hc3
  have s7 := take_takeWhile_word "!hyphen".toList l hn7
  have t7 := take_takeWhile_word "!case-i".toList l hc7
  have u3 := take_eq_word "!ht".toList l hn3
  have v3 := take_eq_word "!ci".toList l hc3
  have u7 := take_eq_word "!hyphen".toList l hn7
  have v7 := take_eq_word "!case-i".toList l hc7
  have len3 : "!ht".toList.length = 3 := by decide
  have len3c : "!ci".toList.length = 3 := by decide
  have len7 : "!hyphen".toList.length = 7 := by decide
  have len7c : "!case-i".toList.length = 7 := by decide
  rw [len3] at s3 u3
  rw [len3c] at t3 v3
  rw [len7] at s7 u7
  rw [len7c] at t7 v7
  simp only [s3, t3, s7, t7]
  by_cases h0 : l.getD 0 NUL = '!'
  · have w1 := flag_word_test l "hyphen".toList (by decide) (by decide) h0
    have w2 := flag_word_test l "case-i".toList (by decide) (by decide) h0
    have e1 : '!' :: "hyphen".toList = "!hyphen".toList := by decide
    have e2 : '!' :: "case-i".toList = "!case-i".toList := by decide
    rw [e1] at w1
    rw [e2] at w2
    simp only [h0, ne_eq, not_true_eq_false, if_false, w1, w2]
    have a3 : l.take 3 = "!ht".toList ↔ (l.getD 1 NUL = 'h' ∧ l.getD 2 NUL = 't') := by
      rw [u3]
      constructor
      · intro h
        exact ⟨by simpa using h 1 (by omega), by simpa using h 2 (by omega)⟩
      · rintro ⟨x1, x2⟩ i hi
        interval_cases i
        · simpa using h0
        · simpa using x1
        · simpa using x2
    have c3 : l.take 3 = "!ci".toList ↔ (l.getD 1 NUL = 'c' ∧ l.getD 2 NUL = 'i') := by
      rw [v3]
      constructor
      · intro h
        exact ⟨by simpa using h 1 (by omega), by simpa using h 2 (by omega)⟩
      · rintro ⟨x1, x2⟩ i hi
        interval_cases i
        · simpa using h0
        · simpa using x1
        · simpa using x2
    have p7 : l.take 7 = "!hyphen".toList → l.getD 3 NUL = 'p' ∧ l.getD 1 NUL = 'h' := by
      intro h
      exact ⟨by simpa using (u7.mp h) 3 (by omega), by simpa using (u7.mp h) 1 (by omega)⟩
    have q7 : l.take 7 = "!case-i".toList → l.getD 3 NUL = 's' ∧ l.getD 1 NUL = 'c' := by
      intro h
      exact ⟨by simpa using (v7.mp h) 3 (by omega), by simpa using (v7.mp h) 1 (by omega)⟩
    simp only [a3, c3]
    by_cases h3 : l.getD 3 NUL = NUL
    · have n7 : ¬ l.take 7 = "!hyphen".toList := by
        intro h
        have := (p7 h).1
        rw [h3] at this
        exact absurd this (by decide)
      have m7 : ¬ l.take 7 = "!case-i".toList := by
        intro h
        have := (q7 h).1
        rw [h3] at this
        exact absurd this (by decide)
      simp only [h3, if_true, n7, m7, decide_False, Bool.or_false, and_true]
      by_cases hh : l.getD 1 NUL = 'h' ∧ l.getD 2 NUL = 't'
      · have hc : ¬ (l.getD 1 NUL = 'c' ∧ l.getD 2 NUL = 'i') := by
          intro x
          have := hh.1
          rw [x.1] at this
          exact absurd this (by decide)
        simp only [hh, and_self, if_true, hc, decide_True, decide_False, Bool.or_true,
          Bool.or_false]
        cases ps
        simp
      · by_cases hc : l.getD 1 NUL = 'c' ∧ l.getD 2 NUL = 'i'
        · simp only [hh, if_false, hc, and_self, if_true, decide_True, decide_False,
            Bool.or_true, Bool.or_false, Bool.false_or]
          cases ps
          simp
        · simp only [hh, if_false, hc, decide_False, Bool.or_false]
          cases ps
          simp
    · simp only [h3, if_false, and_false, decide_False, Bool.false_or]
      by_cases hh : l.take 7 = "!hyphen".toList
      · have hc : ¬ l.take 7 = "!case-i".toList := by
          intro x
          have := (p7 hh).2
          rw [(q7 x).2] at this
          exact absurd this (by decide)
        simp only [hh, decide_True, if_true, hc, decide_False, Bool.or_true, Bool.or_false]
        cases ps
        simp
      · by_cases hc : l.take 7 = "!case-i".toList
        · simp only [hh, decide_False, Bool.false_eq_true, if_false, hc, decide_True, if_true,
            Bool.or_true, Bool.or_false, Bool.false_or]
          cases ps
          simp
        · simp only [hh, decide_False, Bool.false_eq_true, if_false, hc, Bool.or_false]
          cases ps
          simp
  · have n3 : ¬ l.take 3 = "!ht".toList := by
      intro h
      exact h0 (by simpa using (u3.mp h) 0 (by omega))
    have m3 : ¬ l.take 3 = "!ci".toList := by
      intro h
      exact h0 (by simpa using (v3.mp h) 0 (by omega))
    have n7 : ¬ l.take 7 = "!hyphen".toList := by
      intro h
      exact h0 (by simpa using (u7.mp h) 0 (by omega))
    have m7 : ¬ l.take 7 = "!case-i".toList := by
      intro h
      exact h0 (by simpa using (v7.mp h) 0 (by omega))
    simp only [h0, ne_eq, not_false_eq_true, if_true, n3, m3, n7, m7, false_and, decide_False,
      Bool.or_false]
    cases ps
    simp

/-! ### Comments behind a value (C21) -/

/-- C21 (code defect): `HLParser::process_line` looks for `#` only while the colon
has not been found, so behind the colon the `#`, the comment and the white space in
front of it stay in the value: the rule line `keyword: span.keyword # the keywords`
stores the value `span.keyword # the keywords`, and trailing white space of a value
is stored too.  For `if # cond` the stored tag is `if`. -/
theorem C21_comment_stays_in_value :
    parsed_values "keyword: span.keyword # the keywords\n   if # cond\n".toList
      = some [(some "x".toList, none),
          (some "keyword".toList, some "span.keyword # the keywords".toList),
          (some "if".toList, none)]
    ∧ parsed_values "keyword: span.keyword   \n".toList
      = some [(some "x".toList, none),
          (some "keyword".toList, some "span.keyword   ".toList)]
    ∧ parsed_values "keyword: span.keyword\n   if\n".toList
      = some [(some "x".toList, none),
          (some "keyword".toList, some "span.keyword".toList),
          (some "if".toList, none)] := by
  refine ⟨by decide!, by decide!, by decide!⟩

/-! ### The name predicate behind a cached index (C30) -/

/-- C30 (code defect): the name predicate is set by the constructor of an index only.
With `css.hl` (hyphen flag) and `sql.hl` (no flag): the first `get_index` of `css`
leaves the hyphen-inclusive predicate active; `get_index` of `sql` builds its index
and activates the simple predicate; the next `get_index` of `css` returns the cached
index, whose flag is set, and leaves the simple predicate active.  The same line of a
`css` fence is then highlighted differently before and after a fence of `sql`. -/
theorem C30_cached_index_keeps_other_predicate :
    (get_index css_sql_files Scanner.init.world "css".toList).map
        (fun r => (r.1.hyphen, r.2.map (fun i => i.m_hyphenated_tags)))
      = some (true, some true)
    ∧ ((get_index css_sql_files Scanner.init.world "css".toList).bind
          (fun r => get_index css_sql_files r.1 "sql".toList)).map
        (fun r => (r.1.hyphen, r.2.map (fun i => i.m_hyphenated_tags)))
      = some (false, some false)
    ∧ (((get_index css_sql_files Scanner.init.world "css".toList).bind
          (fun r => get_index css_sql_files r.1 "sql".toList)).bind
          (fun r => get_index css_sql_files r.1 "css".toList)).map
        (fun r => (r.1.hyphen, r.2.map (fun i => i.m_hyphenated_tags)))
      = some (false, some true)
    ∧ (process_lines css_sql_files Scanner.init
          ["~~~css".toList, "background-color: red".toList, "~~~".toList,
           "~~~sql".toList, "~~~".toList,
           "~~~css".toList, "background-color: red".toList, "~~~".toList]).map
        (fun st => st.out)
      = some ("  @htmlonly <div class=\"fragment\">\n".toList
          ++ "  <div class=\"line\"><span class=\"keyword\">background-color</span>: red</div>\n".toList
          ++ "  </div> @endhtmlonly\n".toList
          ++ "  @htmlonly <div class=\"fragment\">\n".toList
          ++ "  </div> @endhtmlonly\n".toList
          ++ "  @htmlonly <div class=\"fragment\">\n".toList
          ++ "  <div class=\"line\"><span class=\"keyword\">background</span>-color: red</div>\n".toList
          ++ "  </div> @endhtmlonly\n".toList) := by
  refine ⟨by decide!, by decide!, by decide!, by decide!⟩

/-! ### Word tags that match at the same text (C29) -/

/-- Two word tags made of name-eligible characters that match at the same text are equal. -/
theorem word_tag_unique (fold hyphen : Bool) (t1 t2 text : List Char)
    (h1 : word_tag_matches fold hyphen t1 text = true)
    (h2 : word_tag_matches fold hyphen t2 text = true)
    (hn2 : ∀ c ∈ t2, allowed_in_name hyphen c = true)
    (hlt : t1.length ≤ t2.length) : t1 = t2 := by
  unfold word_tag_matches at h1 h2
  simp only [Bool.and_eq_true, decide_eq_true_eq] at h1 h2
  obtain ⟨p1, b1⟩ := h1
  obtain ⟨p2, -⟩ := h2
  rcases Nat.lt_or_ge t1.length t2.length with hl | hl
  · exfalso
    have hlen : (folded_text fold text).length = text.length := by
      unfold folded_text
      cases fold <;> simp
    have hft : t2.length ≤ (folded_text fold text).length := by
      have := congrArg List.length p2
      simp only [List.length_take] at this
      omega
    have htl : t1.length < text.length := by omega
    cases hd : text.drop t1.length with
    | nil =>
      have := congrArg List.length hd
      simp only [List.length_drop, List.length_nil] at this
      omega
    | cons c rest =>
      rw [hd] at b1
      simp only [Bool.not_eq_true'] at b1
      have hc : text[t1.length]? = some c := by
        have := List.head?_drop text t1.length
        rw [hd] at this
        simpa using this.symm
      have hfc : (folded_text fold text)[t1.length]?
          = some (if fold = true then toLowerCase c else c) := by
        unfold folded_text
        cases fold
        · simpa using hc
        · simp [List.getElem?_map, hc]
      have ht2 : t2[t1.length]? = some (if fold = true then toLowerCase c else c) := by
        rw [← p2, List.getElem?_take_of_lt hl, hfc]
      have hmem : (if fold = true then toLowerCase c else c) ∈ t2 :=
        List.getElem?_mem ht2
      have hal := hn2 _ hmem
      have : allowed_in_name hyphen (if fold = true then toLowerCase c else c)
          = allowed_in_name hyphen c := by
        cases fold
        · rfl
        · exact allowed_in_name_fold hyphen _ _ (toLowerCase_idem c)
      rw [this, b1] at hal
      cases hal
  · have e : t1.length = t2.length := by omega
    rw [← p1, ← p2, e]

/-- When at most one element of a list passes a test, the first element that passes is the same in every order of the list. -/
theorem find_perm_unique (p : Nat → Bool) (l l2 : List Nat)
    (hu : ∀ a ∈ l, ∀ b ∈ l, p a = true → p b = true → a = b) (hp : l2.Perm l) :
    l2.find? p = l.find? p := by
  cases h : l.find? p with
  | none =>
    rw [List.find?_eq_none] at h ⊢
    intro x hx
    exact h x (hp.mem_iff.mp hx)
  | some a =>
    have ha := List.find?_some h
    have hal := List.mem_of_find?_eq_some h
    cases h2 : l2.find? p with
    | none =>
      rw [List.find?_eq_none] at h2
      exact absurd ha (h2 a (hp.mem_iff.mpr hal))
    | some b =>
      have hb := List.find?_some h2
      have hbl := hp.mem_iff.mp (List.mem_of_find?_eq_some h2)
      rw [hu a hal b hbl ha hb]

/-- C29, counterexample: the word tags `background` and `background-color` are
distinct, and under the simple name predicate both match at
`background-color: red` (a hyphen is a word boundary); `seek_word` returns the node
of `background`, and the same loop over the word set in the opposite order returns
the node of `background-color`. -/
theorem C29_counterexample_two_tags_match :
    css_plain_index.m_entries = [2, 3]
    ∧ node_tag css_plain_index.nodes 2 = some "background".toList
    ∧ node_tag css_plain_index.nodes 3 = some "background-color".toList
    ∧ word_tag_matches css_plain_index.m_case_insensitive false "background".toList
        "background-color: red".toList = true
    ∧ word_tag_matches css_plain_index.m_case_insensitive false "background-color".toList
        "background-color: red".toList = true
    ∧ css_plain_index.seek_word false "background-color: red".toList = some (some 2)
    ∧ seek_loop css_plain_index false "background-color: red".toList true
        css_plain_index.m_entries.reverse = some (some 3) := by
  refine ⟨by decide!, by decide!, by decide!, by decide!, by decide!, by decide!, by decide!⟩

/-- C29, amended: for an index whose word-set nodes have pairwise distinct tags that
are not empty and are made of characters that are name-eligible under the active
predicate, and for every text, at most one node of the word set has a tag that
satisfies the match condition of `seek_word`, and the loop of `seek_word` returns
the same result for every order of the word set. -/
theorem C29_name_tags_match_uniquely (idx : HLIndex) (hyphen : Bool) (text : List Char)
    (hwf : ∀ n ∈ idx.m_entries, has_tag idx.nodes n = true)
    (hname : ∀ n ∈ idx.m_entries, ∀ c ∈ (node_tag idx.nodes n).getD [],
      allowed_in_name hyphen c = true)
    (hdist : ∀ a ∈ idx.m_entries, ∀ b ∈ idx.m_entries,
      node_tag idx.nodes a = node_tag idx.nodes b → a = b) :
    (∀ a ∈ idx.m_entries, ∀ b ∈ idx.m_entries,
      word_tag_matches idx.m_case_insensitive hyphen ((node_tag idx.nodes a).getD []) text = true →
      word_tag_matches idx.m_case_insensitive hyphen ((node_tag idx.nodes b).getD []) text = true →
      a = b)
    ∧ (∀ l : List Nat, l.Perm idx.m_entries →
        seek_loop idx hyphen text true l = idx.seek_word hyphen text) := by
  have huniq : ∀ a ∈ idx.m_entries, ∀ b ∈ idx.m_entries,
      word_tag_matches idx.m_case_insensitive hyphen ((node_tag idx.nodes a).getD []) text = true →
      word_tag_matches idx.m_case_insensitive hyphen ((node_tag idx.nodes b).getD []) text = true →
      a = b := by
    intro a ha b hb ma mb
    apply hdist a ha b hb
    rw [(has_tag_ne_nil idx.nodes a (hwf a ha)).2, (has_tag_ne_nil idx.nodes b (hwf b hb)).2]
    congr 1
    rcases Nat.le_total ((node_tag idx.nodes a).getD []).length
        ((node_tag idx.nodes b).getD []).length with h | h
    · exact word_tag_unique _ hyphen _ _ text ma mb (hname b hb) h
    · exact (word_tag_unique _ hyphen _ _ text mb ma (hname a ha) h).symm
  refine ⟨huniq, ?_⟩
  intro l hl
  have hwfl : ∀ n ∈ l, has_tag idx.nodes n = true := fun n hn => hwf n (hl.mem_iff.mp hn)
  have e1 := seek_word_find idx hyphen text hwf
  have e2 : seek_loop idx hyphen text true l
      = some (l.find? (fun n => word_tag_matches idx.m_case_insensitive hyphen
          ((node_tag idx.nodes n).getD []) text)) := by
    rw [seek_loop_find idx hyphen text true l hwfl]
    congr 1
    apply find_agree
    intro n hn
    have hne := (has_tag_ne_nil idx.nodes n (hwfl n hn)).1
    have := (str_match_ne_zero idx hyphen text _ hne).1
    rw [Bool.eq_iff_iff, decide_eq_true_eq]
    exact this
  rw [e1, e2]
  congr 1
  exact find_perm_unique _ _ _ huniq hl

/-- Witness of C29: the index of `css_rule_file` under the hyphen-inclusive
predicate, for which `-` is name-eligible; only `background-color` matches at
`background-color: red`, in both orders of the word set. -/
theorem C29_name_tags_match_uniquely_witness :
    css_index.m_entries.map (node_tag css_index.nodes)
      = [some "background".toList, some "background-color".toList]
    ∧ css_index.seek_word true "background-color: red".toList = some (some 4)
    ∧ seek_loop css_index true "background-color: red".toList true css_index.m_entries.reverse
        = css_index.seek_word true "background-color: red".toList :=
  ⟨by decide!, by decide!,
    (C29_name_tags_match_uniquely css_index true "background-color: red".toList
      (by decide!) (by decide!) (by decide!)).2 _ (List.reverse_perm _)⟩

/-! ### Adding children and siblings (C25) -/

/-- The node at an index after a change of the node at index `l`. -/
theorem get_modify (g : HLNode → HLNode) (nodes : List HLNode) (l i : Nat) :
    (nodes.modify g l).get? i = if l = i then (nodes.get? i).map g else nodes.get? i := by
  rw [List.get?_eq_getElem?, List.get?_eq_getElem?, List.getElem?_modify]
  by_cases h : l = i
  · simp only [h, if_true]
    cases nodes[i]? <;> rfl
  · simp only [h, if_false]
    cases nodes[i]? <;> rfl

/-- The nodes of an arena stay where they are when a node is appended. -/
theorem get_append_old (nodes : List HLNode) (new : HLNode) (i : Nat) (nd : HLNode)
    (h : nodes.get? i = some nd) : (nodes ++ [new]).get? i = some nd := by
  rw [List.get?_eq_getElem?] at h ⊢
  have hi : i < nodes.length := by
    by_contra hc
    rw [List.getElem?_eq_none (by omega)] at h
    cases h
  rw [List.getElem?_append_left hi]
  exact h

/-- The appended node is at the index that was the length of the arena. -/
theorem get_append_new (nodes : List HLNode) (new : HLNode) :
    (nodes ++ [new]).get? nodes.length = some new := by
  rw [List.get?_eq_getElem?]
  simp

/-- An arena that passes `tree_links_check` has the links of a tree. -/
theorem tree_links_of_check (nodes : List HLNode) (h : tree_links_check nodes = true) :
    tree_links nodes := by
  intro i nd hg
  have hi : i < nodes.length := by
    by_contra hc
    rw [List.get?_eq_getElem?, List.getElem?_eq_none (by omega)] at hg
    cases hg
  unfold tree_links_check at h
  rw [List.all_eq_true] at h
  have hh := h i (List.mem_range.mpr hi)
  rw [hg] at hh
  simp only [Bool.and_eq_true] at hh
  constructor
  · intro c hc
    have h1 := hh.1
    rw [hc] at h1
    simp only [Bool.and_eq_true, decide_eq_true_eq] at h1
    obtain ⟨⟨a1, a2⟩, a3⟩ := h1
    cases hcn : nodes.get? c with
    | none => rw [hcn] at a3; cases a3
    | some cn =>
      rw [hcn] at a2
      exact ⟨a1, cn, rfl, a2⟩
  · intro s hs
    have h1 := hh.2
    rw [hs] at h1
    simp only [Bool.and_eq_true, decide_eq_true_eq] at h1
    obtain ⟨⟨a1, a2⟩, a3⟩ := h1
    cases hsn : nodes.get? s with
    | none => rw [hsn] at a3; cases a3
    | some sn =>
      rw [hsn] at a2
      exact ⟨a1, sn, rfl, a2⟩

/-- In a tree, with fuel for the rest of the arena, `last_sibling` finds the last
node `l` of the chain that starts at `s`; `l` has no sibling and the parent of `s`;
and once a node without sibling has been appended and linked behind `l`, the chain
from `s` is the old chain followed by the new node. -/
theorem chain_extend (nodes : List HLNode) (hok : tree_links nodes) (new : HLNode)
    (hnew : new.m_sibling = none) :
    ∀ (f s : Nat) (sn : HLNode), nodes.get? s = some sn → nodes.length - s ≤ f →
      ∃ l ln, last_sibling nodes f s = some l ∧ s ≤ l ∧ nodes.get? l = some ln
        ∧ ln.m_sibling = none ∧ ln.m_parent = sn.m_parent
        ∧ ∀ f2, f + 1 ≤ f2 →
            sibling_chain ((nodes ++ [new]).modify
                (fun x => { x with m_sibling := some nodes.length }) l) f2 (some s)
              = sibling_chain nodes f (some s) ++ [nodes.length]
  | 0, s, sn, hs, hf => by
    exfalso
    have hi : s < nodes.length := by
      by_contra hc
      rw [List.get?_eq_getElem?, List.getElem?_eq_none (by omega)] at hs
      cases hs
    omega
  | f + 1, s, sn, hs, hf => by
    have hi : s < nodes.length := by
      by_contra hc
      rw [List.get?_eq_getElem?, List.getElem?_eq_none (by omega)] at hs
      cases hs
    cases hsib : sn.m_sibling with
    | none =>
      have hl : last_sibling nodes (f + 1) s = some s := by
        rw [last_sibling, hs]
        simp only [hsib]
      refine ⟨s, sn, hl, Nat.le_refl _, hs, hsib, rfl, ?_⟩
      intro f2 hf2
      obtain ⟨f3, rfl⟩ : ∃ f3, f2 = f3 + 2 := ⟨f2 - 2, by omega⟩
      have g1 : ((nodes ++ [new]).modify
          (fun x => { x with m_sibling := some nodes.length }) s).get? s
          = some { sn with m_sibling := some nodes.length } := by
        rw [get_modify, if_pos rfl, get_append_old nodes new s sn hs]
        rfl
      have g2 : ((nodes ++ [new]).modify
          (fun x => { x with m_sibling := some nodes.length }) s).get? nodes.length
          = some new := by
        rw [get_modify, if_neg (by omega), get_append_new]
      rw [sibling_chain, g1]
      simp only []
      rw [sibling_chain, g2]
      simp only [hnew]
      have e0 : sibling_chain nodes (f + 1) (some s) = [s] := by
        rw [sibling_chain, hs]
        simp only [hsib]
        cases f <;> rfl
      rw [e0]
      cases f3 <;> rfl
    | some s2 =>
      obtain ⟨hlt, s2n, hs2, hpar⟩ := (hok s sn hs).2 s2 hsib
      have hi2 : s2 < nodes.length := by
        by_contra hc
        rw [List.get?_eq_getElem?, List.getElem?_eq_none (by omega)] at hs2
        cases hs2
      obtain ⟨l, ln, a1, a2, a3, a4, a5, a6⟩ :=
        chain_extend nodes hok new hnew f s2 s2n hs2 (by omega)
      have hl : last_sibling nodes (f + 1) s = some l := by
        rw [last_sibling, hs]
        simp only [hsib]
        exact a1
      refine ⟨l, ln, hl, by omega, a3, a4, by rw [a5, hpar], ?_⟩
      intro f2 hf2
      obtain ⟨f3, rfl⟩ : ∃ f3, f2 = f3 + 1 := ⟨f2 - 1, by omega⟩
      have g1 : ((nodes ++ [new]).modify
          (fun x => { x with m_sibling := some nodes.length }) l).get? s = some sn := by
        rw [get_modify, if_neg (by omega), get_append_old nodes new s sn hs]
      rw [sibling_chain, g1]
      simp only [hsib]
      rw [a6 f3 (by omega)]
      rw [sibling_chain, hs]
      simp only [hsib, List.cons_append]

/-- A node of the arena is found, with its parent, after a node was appended and a link was changed. -/
theorem get_after_link (g : HLNode → HLNode) (hg : ∀ x, (g x).m_parent = x.m_parent)
    (nodes : List HLNode) (new : HLNode) (l j : Nat) (nd : HLNode)
    (h : (nodes ++ [new]).get? j = some nd) :
    ∃ nd1, ((nodes ++ [new]).modify g l).get? j = some nd1 ∧ nd1.m_parent = nd.m_parent := by
  rw [get_modify, h]
  by_cases e : l = j
  · rw [if_pos e]
    exact ⟨g nd, rfl, hg nd⟩
  · rw [if_neg e]
    exact ⟨nd, rfl, rfl⟩

/-- A node of the appended arena is a node of the arena or the new node. -/
theorem get_append_cases (nodes : List HLNode) (new : HLNode) (i : Nat) (nd : HLNode)
    (h : (nodes ++ [new]).get? i = some nd) :
    (i < nodes.length ∧ nodes.get? i = some nd) ∨ (i = nodes.length ∧ nd = new) := by
  rw [List.get?_eq_getElem?] at h
  rcases Nat.lt_trichotomy i nodes.length with hi | hi | hi
  · left
    rw [List.getElem?_append_left hi] at h
    exact ⟨hi, by rw [List.get?_eq_getElem?]; exact h⟩
  · right
    subst hi
    simp only [List.getElem?_concat_length, Option.some.injEq] at h
    exact ⟨rfl, h.symm⟩
  · rw [List.getElem?_eq_none (by simp; omega)] at h
    cases h

/-- The links stay those of a tree when a node without links is appended and
installed as the sibling of a node with the same parent. -/
theorem links_after_sibling (nodes : List HLNode) (hok : tree_links nodes) (new : HLNode)
    (l : Nat) (ln : HLNode) (hl : nodes.get? l = some ln)
    (hc : new.m_child = none) (hs : new.m_sibling = none) (hp : new.m_parent = ln.m_parent) :
    tree_links ((nodes ++ [new]).modify
      (fun x => { x with m_sibling := some nodes.length }) l) := by
  have hll : l < nodes.length := by
    by_contra hcn
    rw [List.get?_eq_getElem?, List.getElem?_eq_none (by omega)] at hl
    cases hl
  intro i nd hg
  rw [get_modify] at hg
  have keep : ∀ j nd0, nodes.get? j = some nd0 →
      ∃ nd1, ((nodes ++ [new]).modify
        (fun x => { x with m_sibling := some nodes.length }) l).get? j = some nd1
        ∧ nd1.m_parent = nd0.m_parent :=
    fun j nd0 h0 => get_after_link (fun x => { x with m_sibling := some nodes.length }) (fun _ => rfl) nodes new l j nd0
      (get_append_old nodes new j nd0 h0)
  have knew : ∃ nd1, ((nodes ++ [new]).modify
        (fun x => { x with m_sibling := some nodes.length }) l).get? nodes.length = some nd1
        ∧ nd1.m_parent = new.m_parent :=
    get_after_link (fun x => { x with m_sibling := some nodes.length }) (fun _ => rfl) nodes new l nodes.length new (get_append_new nodes new)
  by_cases e : l = i
  · subst e
    rw [if_pos rfl, get_append_old nodes new l ln hl] at hg
    simp only [Option.map_some', Option.some.injEq] at hg
    subst hg
    constructor
    · intro c hcc
      obtain ⟨a1, cn, a2, a3⟩ := (hok l ln hl).1 c hcc
      obtain ⟨nd1, b1, b2⟩ := keep c cn a2
      exact ⟨a1, nd1, b1, by rw [b2, a3]⟩
    · intro s hss
      simp only [Option.some.injEq] at hss
      subst hss
      obtain ⟨nd1, b1, b2⟩ := knew
      exact ⟨hll, nd1, b1, by rw [b2, hp]⟩
  · rw [if_neg e] at hg
    rcases get_append_cases nodes new i nd hg with ⟨-, h1⟩ | ⟨-, h1⟩
    · constructor
      · intro c hcc
        obtain ⟨a1, cn, a2, a3⟩ := (hok i nd h1).1 c hcc
        obtain ⟨nd1, b1, b2⟩ := keep c cn a2
        exact ⟨a1, nd1, b1, by rw [b2, a3]⟩
      · intro s hss
        obtain ⟨a1, sn, a2, a3⟩ := (hok i nd h1).2 s hss
        obtain ⟨nd1, b1, b2⟩ := keep s sn a2
        exact ⟨a1, nd1, b1, by rw [b2, a3]⟩
    · subst h1
      constructor
      · intro c hcc
        rw [hc] at hcc
        cases hcc
      · intro s hss
        rw [hs] at hss
        cases hss

/-- The links stay those of a tree when a node without links is appended and
installed as the first child of its parent. -/
theorem links_after_child (nodes : List HLNode) (hok : tree_links nodes) (new : HLNode)
    (h : Nat) (hn : HLNode) (hh : nodes.get? h = some hn)
    (hc : new.m_child = none) (hs : new.m_sibling = none) (hp : new.m_parent = some h) :
    tree_links ((nodes ++ [new]).modify
      (fun x => { x with m_child := some nodes.length }) h) := by
  have hll : h < nodes.length := by
    by_contra hcn
    rw [List.get?_eq_getElem?, List.getElem?_eq_none (by omega)] at hh
    cases hh
  intro i nd hg
  rw [get_modify] at hg
  have keep : ∀ j nd0, nodes.get? j = some nd0 →
      ∃ nd1, ((nodes ++ [new]).modify
        (fun x => { x with m_child := some nodes.length }) h).get? j = some nd1
        ∧ nd1.m_parent = nd0.m_parent :=
    fun j nd0 h0 => get_after_link (fun x => { x with m_child := some nodes.length }) (fun _ => rfl) nodes new h j nd0
      (get_append_old nodes new j nd0 h0)
  have knew : ∃ nd1, ((nodes ++ [new]).modify
        (fun x => { x with m_child := some nodes.length }) h).get? nodes.length = some nd1
        ∧ nd1.m_parent = new.m_parent :=
    get_after_link (fun x => { x with m_child := some nodes.length }) (fun _ => rfl) nodes new h nodes.length new (get_append_new nodes new)
  by_cases e : h = i
  · subst e
    rw [if_pos rfl, get_append_old nodes new h hn hh] at hg
    simp only [Option.map_some', Option.some.injEq] at hg
    subst hg
    constructor
    · intro c hcc
      simp only [Option.some.injEq] at hcc
      subst hcc
      obtain ⟨nd1, b1, b2⟩ := knew
      exact ⟨hll, nd1, b1, by rw [b2, hp]⟩
    · intro s hss
      obtain ⟨a1, sn, a2, a3⟩ := (hok h hn hh).2 s hss
      obtain ⟨nd1, b1, b2⟩ := keep s sn a2
      exact ⟨a1, nd1, b1, by rw [b2, a3]⟩
  · rw [if_neg e] at hg
    rcases get_append_cases nodes new i nd hg with ⟨-, h1⟩ | ⟨-, h1⟩
    · constructor
      · intro c hcc
        obtain ⟨a1, cn, a2, a3⟩ := (hok i nd h1).1 c hcc
        obtain ⟨nd1, b1, b2⟩ := keep c cn a2
        exact ⟨a1, nd1, b1, by rw [b2, a3]⟩
      · intro s hss
        obtain ⟨a1, sn, a2, a3⟩ := (hok i nd h1).2 s hss
        obtain ⟨nd1, b1, b2⟩ := keep s sn a2
        exact ⟨a1, nd1, b1, by rw [b2, a3]⟩
    · subst h1
      constructor
      · intro c hcc
        rw [hc] at hcc
        cases hcc
      · intro s hss
        rw [hs] at hss
        cases hss

/-- A chain that starts at the null pointer is empty. -/
theorem sibling_chain_none (nodes : List HLNode) (f : Nat) : sibling_chain nodes f none = [] := by
  cases f <;> rfl

/-- C25: in a tree (`tree_links`), for every node `host`: `add_child` returns the
index of one new node, appended to the arena, whose parent is `host` and which has
no links; the children of `host` are afterwards its earlier children in their
order followed by the new node.  `add_sibling` returns the index of one new node
with the parent of `host`; the chain of siblings from `host` is afterwards the
earlier chain followed by the new node.  The links stay those of a tree.  In the
tree of `test_tree_building` the children of `keyword` are `if`, `case`, ` begin `,
`end`, `loop`, `while`: the two added through `seek_child` come last. -/
theorem C25_add_child_add_sibling (nodes : List HLNode) (host : Nat) (hn : HLNode)
    (tag value : Option (List Char)) (hok : tree_links nodes)
    (hh : nodes.get? host = some hn) :
    (∃ nodes1, add_child nodes host tag value = some (nodes1, nodes.length)
      ∧ nodes1.length = nodes.length + 1
      ∧ children nodes1 host = children nodes host ++ [nodes.length]
      ∧ nodes1.get? nodes.length = some (HLNode.new tag value (some host))
      ∧ tree_links nodes1)
    ∧ (∃ nodes1, add_sibling nodes host tag value = some (nodes1, nodes.length)
      ∧ nodes1.length = nodes.length + 1
      ∧ sibling_chain nodes1 nodes1.length (some host)
          = sibling_chain nodes nodes.length (some host) ++ [nodes.length]
      ∧ nodes1.get? nodes.length = some (HLNode.new tag value hn.m_parent)
      ∧ tree_links nodes1)
    ∧ test_tree.map (fun t => (children t 1).map (node_tag t))
        = some [some "if".toList, some "case".toList, some " begin ".toList,
            some "end".toList, some "loop".toList, some "while".toList] := by
  have hhl : host < nodes.length := by
    by_contra hc
    rw [List.get?_eq_getElem?, List.getElem?_eq_none (by omega)] at hh
    cases hh
  refine ⟨?_, ?_, by decide!⟩
  · unfold add_child
    rw [hh]
    simp only []
    cases hch : hn.m_child with
    | none =>
      simp only []
      have g1 : ((nodes ++ [HLNode.new tag value (some host)]).modify
          (fun x => { x with m_child := some nodes.length }) host).get? host
          = some { hn with m_child := some nodes.length } := by
        rw [get_modify, if_pos rfl, get_append_old nodes _ host hn hh]
        rfl
      have g2 : ((nodes ++ [HLNode.new tag value (some host)]).modify
          (fun x => { x with m_child := some nodes.length }) host).get? nodes.length
          = some (HLNode.new tag value (some host)) := by
        rw [get_modify, if_neg (by omega), get_append_new]
      refine ⟨_, rfl, by simp, ?_, g2, ?_⟩
      · unfold children
        rw [g1, hh]
        simp only [hch, sibling_chain_none, List.nil_append, List.length_modify,
          List.length_append, List.length_singleton]
        rw [sibling_chain, g2]
        simp only [HLNode.new, sibling_chain_none]
      · exact links_after_child nodes hok _ host hn hh rfl rfl rfl
    | some c =>
      obtain ⟨hlt, cn, hc1, hc2⟩ := (hok host hn hh).1 c hch
      obtain ⟨l, ln, a1, a2, a3, a4, a5, a6⟩ :=
        chain_extend nodes hok (HLNode.new tag value (some host)) rfl nodes.length c cn hc1
          (by omega)
      simp only [a1]
      have g1 : ((nodes ++ [HLNode.new tag value (some host)]).modify
          (fun x => { x with m_sibling := some nodes.length }) l).get? host = some hn := by
        rw [get_modify, if_neg (by omega), get_append_old nodes _ host hn hh]
      have hll : l < nodes.length := by
        by_contra hcn
        rw [List.get?_eq_getElem?, List.getElem?_eq_none (by omega)] at a3
        cases a3
      have g2 : ((nodes ++ [HLNode.new tag value (some host)]).modify
          (fun x => { x with m_sibling := some nodes.length }) l).get? nodes.length
          = some (HLNode.new tag value (some host)) := by
        rw [get_modify, if_neg (by omega), get_append_new]
      refine ⟨_, rfl, by simp, ?_, g2, ?_⟩
      · unfold children
        rw [g1, hh]
        simp only [hch, List.length_modify, List.length_append, List.length_singleton]
        exact a6 (nodes.length + 1) (Nat.le_refl _)
      · exact links_after_sibling nodes hok _ l ln a3 rfl rfl (by
          rw [a5, hc2]
          rfl)
  · obtain ⟨l, ln, a1, a2, a3, a4, a5, a6⟩ :=
      chain_extend nodes hok (HLNode.new tag value hn.m_parent) rfl nodes.length host hn hh
        (by omega)
    have hll : l < nodes.length := by
      by_contra hcn
      rw [List.get?_eq_getElem?, List.getElem?_eq_none (by omega)] at a3
      cases a3
    unfold add_sibling
    rw [a1]
    simp only [a3, Option.some_bind, a5]
    have g2 : ((nodes ++ [HLNode.new tag value hn.m_parent]).modify
        (fun x => { x with m_sibling := some nodes.length }) l).get? nodes.length
        = some (HLNode.new tag value hn.m_parent) := by
      rw [get_modify, if_neg (by omega), get_append_new]
    refine ⟨_, rfl, by simp, ?_, g2, ?_⟩
    · simp only [List.length_modify, List.length_append, List.length_singleton]
      exact a6 (nodes.length + 1) (Nat.le_refl _)
    · exact links_after_sibling nodes hok _ l ln a3 rfl rfl (by
        rw [a5]
        rfl)

/-- Witness of C25: `add_child` on the node `keyword` (index 1) of `keyword_branch`,
whose children are the nodes 2 to 5, gives the node 6 as its last child. -/
theorem C25_add_child_add_sibling_witness :
    tree_links keyword_branch
    ∧ children keyword_branch 1 = [2, 3, 4, 5]
    ∧ (∃ nodes1, add_child keyword_branch 1 (some "loop".toList) none = some (nodes1, 6)
        ∧ children nodes1 1 = [2, 3, 4, 5, 6]) := by
  have hl : tree_links keyword_branch := tree_links_of_check _ (by decide!)
  have hc : children keyword_branch 1 = [2, 3, 4, 5] := by decide!
  have hg : keyword_branch.get? 1 = some ((keyword_branch.get? 1).getD (HLNode.new none none none)) := by
    decide!
  obtain ⟨nodes1, b1, -, b3, -, -⟩ :=
    (C25_add_child_add_sibling keyword_branch 1 _ (some "loop".toList) none hl hg).1
  refine ⟨hl, hc, nodes1, ?_, ?_⟩
  · rw [b1]
    rfl
  · rw [b3, hc]
    rfl

/-- `direct_add_child` on a node of a tree leaves a tree, one node longer. -/
theorem direct_add_child_links_ok (nodes : List HLNode) (host : Nat)
    (tag value : Option (List Char)) (hok : tree_links nodes) (hh : host < nodes.length) :
    tree_links (direct_add_child nodes host tag value).1
    ∧ (direct_add_child nodes host tag value).1.length = nodes.length + 1
    ∧ (direct_add_child nodes host tag value).2 = nodes.length := by
  obtain ⟨hn, hg⟩ : ∃ hn, nodes.get? host = some hn := by
    rw [List.get?_eq_getElem?, List.getElem?_eq_getElem hh]
    exact ⟨_, rfl⟩
  unfold direct_add_child
  exact ⟨links_after_child nodes hok _ host hn hg rfl rfl rfl, by simp, rfl⟩

/-- `direct_add_sibling` on a node of a tree leaves a tree, one node longer. -/
theorem direct_add_sibling_links_ok (nodes : List HLNode) (host : Nat)
    (tag value : Option (List Char)) (hok : tree_links nodes) (hh : host < nodes.length) :
    tree_links (direct_add_sibling nodes host tag value).1
    ∧ (direct_add_sibling nodes host tag value).1.length = nodes.length + 1
    ∧ (direct_add_sibling nodes host tag value).2 = nodes.length := by
  obtain ⟨hn, hg⟩ : ∃ hn, nodes.get? host = some hn := by
    rw [List.get?_eq_getElem?, List.getElem?_eq_getElem hh]
    exact ⟨_, rfl⟩
  unfold direct_add_sibling
  refine ⟨links_after_sibling nodes hok _ host hn hg rfl rfl ?_, by simp, rfl⟩
  rw [hg]
  rfl

/-- The parser turns a tree into a tree and removes no node. -/
theorem do_node_loop_links :
    ∀ (fuel : Nat) (ps : HLParser) (nodes : List HLNode) (host : Nat) (lvl : Int)
      (r : HLParser × List HLNode),
      HLParser.do_node_loop fuel ps nodes host lvl = some r →
      tree_links nodes → host < nodes.length →
      tree_links r.2 ∧ nodes.length ≤ r.2.length
  | 0, _, _, _, _, _, h, _, _ => by simp [HLParser.do_node_loop] at h
  | fuel + 1, ps, nodes, host, lvl, r, h, hok, hh => by
    unfold HLParser.do_node_loop at h
    split at h
    · cases h; exact ⟨hok, Nat.le_refl _⟩
    · split at h
      · simp only [] at h
        split at h
        · split at h
          · cases h
          · rename_i ps2 nodes2 h1
            obtain ⟨c1, c2, c3⟩ := direct_add_child_links_ok nodes host ps.tag ps.value hok hh
            obtain ⟨a1, a2⟩ := do_node_loop_links fuel _ _ _ _ _ h1 c1 (by rw [c2, c3]; omega)
            obtain ⟨b1, b2⟩ := do_node_loop_links fuel _ _ _ _ _ h a1 (by
              simp only [] at a2
              omega)
            refine ⟨b1, ?_⟩
            simp only [] at a2 b2
            omega
        · split at h
          · cases h; exact ⟨hok, Nat.le_refl _⟩
          · obtain ⟨c1, c2, c3⟩ := direct_add_sibling_links_ok nodes host ps.tag ps.value hok hh
            obtain ⟨a1, a2⟩ := do_node_loop_links fuel _ _ _ _ _ h c1 (by rw [c2, c3]; omega)
            exact ⟨a1, by omega⟩
      · exact do_node_loop_links fuel _ _ _ _ _ h hok hh

/-- The tree the parser builds for a language has the links of a tree. -/
theorem parser_links (buff f type : List Char) (r : HLParser × List HLNode)
    (h : HLParser.new buff f [HLNode.new (some type) none none] = some r) :
    tree_links r.2 := by
  unfold HLParser.new HLParser.do_node at h
  refine (do_node_loop_links _ _ _ _ _ _ h ?_ (by simp)).1
  intro i nd hg
  cases i with
  | zero =>
    simp only [List.get?_cons_zero, Option.some.injEq] at hg
    subst hg
    exact ⟨fun c hc => (by cases hc), fun s hs => (by cases hs)⟩
  | succ j => simp at hg

/-! ### A plain rule line (C22) -/

/-- The character of a buffer behind a part `pre`. -/
theorem buff_at_append (pre : List Char) (c : Char) (suf : List Char) :
    buff_at (pre ++ c :: suf) pre.length = c := by
  induction pre with
  | nil => rfl
  | cons a pre ih => simpa [buff_at] using ih

/-- Writing a character behind a part `pre` of a buffer. -/
theorem set_append (pre : List Char) (c x : Char) (suf : List Char) :
    (pre ++ c :: suf).set pre.length x = pre ++ x :: suf := by
  induction pre with
  | nil => rfl
  | cons a pre ih => simp [ih]

/-- The C string behind a part `pre` of a buffer. -/
theorem cstr_at_append (pre v rest : List Char) (hv : NUL ∉ v) :
    cstr_at (pre ++ v ++ NUL :: rest) pre.length = v := by
  unfold cstr_at
  rw [List.append_assoc, List.drop_left']
  · induction v with
    | nil => simp [List.takeWhile]
    | cons a v ih =>
      have ha : a ≠ NUL := fun hh => hv (by simp [hh])
      have hv2 : NUL ∉ v := fun hh => hv (by simp [hh])
      simp only [List.cons_append, List.takeWhile_cons, ne_eq, ha, not_false_eq_true,
        decide_True, if_true, List.cons.injEq, true_and]
      exact ih hv2
  · rfl

/-- `skip_spaces` behind a part `pre` of a buffer: the white space `ws` is passed, and the scan stops in front of a character that is no white space. -/
theorem skip_spaces_append (pre ws : List Char) (c : Char) (suf : List Char)
    (hws : ∀ d ∈ ws, isspace d = true) (hc : isspace c = false) :
    skip_spaces (pre ++ ws ++ c :: suf) pre.length = pre.length + ws.length := by
  unfold skip_spaces
  rw [List.append_assoc, List.drop_left' rfl]
  congr 1
  induction ws with
  | nil => simp [List.takeWhile, hc]
  | cons a ws ih =>
    have ha : isspace a = true := hws a (by simp)
    simp only [List.cons_append, List.takeWhile_cons, ha, if_true, List.length_cons,
      Nat.add_right_cancel_iff]
    exact ih (fun d hd => hws d (by simp [hd]))

/-- The loop of `process_line` in front of the colon passes the characters of a tag
that are neither white space nor one of `:`, `#`, backslash, `!`. -/
theorem process_line_loop_tag :
    ∀ (t pre suf : List Char) (ps : HLParser) (f : Nat),
      ps.s_read_buff = pre ++ t ++ suf →
      (∀ c ∈ t, isspace c = false ∧ c ≠ ':' ∧ c ≠ '#' ∧ c ≠ '\\' ∧ c ≠ '!' ∧ c ≠ NUL) →
      HLParser.process_line_loop (t.length + f) ps pre.length false
        = HLParser.process_line_loop f ps (pre.length + t.length) false
  | [], pre, suf, ps, f, _, _ => by simp
  | c :: t, pre, suf, ps, f, hb, ht => by
    obtain ⟨h1, h2, h3, h4, h5, h6⟩ := ht c (by simp)
    have hc : buff_at ps.s_read_buff pre.length = c := by
      rw [hb, List.append_assoc]
      exact buff_at_append pre c (t ++ suf)
    have hb2 : ps.s_read_buff = (pre ++ [c]) ++ t ++ suf := by
      rw [hb]
      simp
    have ih := process_line_loop_tag t (pre ++ [c]) suf ps f hb2
      (fun d hd => ht d (by simp [hd]))
    have e1 : (c :: t).length + f = (t.length + f) + 1 := by
      simp only [List.length_cons]
      omega
    rw [e1, HLParser.process_line_loop]
    simp only [hc, h6, if_false, Bool.not_false, if_true, h4, h5, false_and, h2, h1, h3,
      Bool.false_eq_true]
    rw [show pre.length + 1 = (pre ++ [c]).length by simp, ih]
    congr 1
    simp only [List.length_append, List.length_singleton, List.length_cons, List.length_nil]
    omega

/-- The loop of `process_line` behind the colon runs to the end of the line and
sets `m_cur_value`, when it is not set, to the first character it meets. -/
theorem process_line_loop_value :
    ∀ (v pre rest : List Char) (ps : HLParser) (f : Nat),
      ps.s_read_buff = pre ++ v ++ NUL :: rest → NUL ∉ v →
      HLParser.process_line_loop (v.length + 1 + f) ps pre.length true
        = (if v = [] ∨ ps.m_cur_value ≠ none then ps
            else { ps with m_cur_value := some pre.length },
          pre.length + v.length, false)
  | [], pre, rest, ps, f, hb, _ => by
    have hc : buff_at ps.s_read_buff pre.length = NUL := by
      rw [hb, List.append_nil]
      exact buff_at_append pre NUL rest
    simp only [List.length_nil, Nat.zero_add, Nat.add_zero, true_or, if_true]
    rw [show 1 + f = f + 1 by omega, HLParser.process_line_loop]
    simp only [hc, if_true]
  | c :: v, pre, rest, ps, f, hb, hv => by
    have h6 : c ≠ NUL := fun hh => hv (by simp [hh])
    have hv2 : NUL ∉ v := fun hh => hv (by simp [hh])
    have hc : buff_at ps.s_read_buff pre.length = c := by
      rw [hb, List.append_assoc]
      exact buff_at_append pre c (v ++ NUL :: rest)
    have e1 : (c :: v).length + 1 + f = (v.length + 1 + f) + 1 := by
      simp only [List.length_cons]
      omega
    rw [e1, HLParser.process_line_loop]
    simp only [hc, h6, if_false, Bool.not_true, Bool.false_eq_true]
    have hb2 : ∀ ps1 : HLParser, ps1.s_read_buff = ps.s_read_buff →
        ps1.s_read_buff = (pre ++ [c]) ++ v ++ NUL :: rest := by
      intro ps1 h1
      rw [h1, hb]
      simp
    have hl : pre.length + 1 = (pre ++ [c]).length := by simp
    have hl2 : (pre ++ [c]).length + v.length = pre.length + (c :: v).length := by
      simp only [List.length_append, List.length_singleton, List.length_cons, List.length_nil]
      omega
    cases hval : ps.m_cur_value with
    | none =>
      simp only [if_true]
      rw [hl, process_line_loop_value v (pre ++ [c]) rest
        { ps with m_cur_value := some pre.length } f (hb2 _ rfl) hv2, hl2]
      simp
    | some x =>
      rw [if_neg (by simp)]
      rw [hl, process_line_loop_value v (pre ++ [c]) rest ps f (hb2 _ rfl) hv2, hl2]
      simp [hval]

/-- The last character of a buffer part that is not empty. -/
theorem buff_at_last (line suf : List Char) (c : Char) (hline : line ≠ [])
    (hc : c ∉ line) : buff_at (line ++ suf) (line.length - 1) ≠ c := by
  obtain ⟨init, last, rfl⟩ : ∃ init last, line = init ++ [last] :=
    ⟨line.dropLast, line.getLast hline, (List.dropLast_append_getLast hline).symm⟩
  have hl : (init ++ [last]).length - 1 = init.length := by simp
  rw [hl, List.append_assoc]
  simp only [List.singleton_append]
  rw [buff_at_append]
  intro hh
  exact hc (by simp [hh])

/-- `process_line` on a line that ends with a newline is `process_line` on the line without it. -/
theorem process_line_newline (ps : HLParser) (line stale : List Char)
    (hline : line ≠ []) (hnul : NUL ∉ line) (hnl : '\n' ∉ line)
    (hb : ps.s_read_buff = line ++ '\n' :: NUL :: stale) :
    ps.process_line
      = HLParser.process_line { ps with s_read_buff := line ++ NUL :: NUL :: stale } := by
  have hn2 : NUL ∉ line ++ ['\n'] := by
    intro hh
    rcases List.mem_append.mp hh with h1 | h1
    · exact hnul h1
    · simp at h1
      exact absurd h1 (by decide)
  have a1 : cstr_at ps.s_read_buff 0 = line ++ ['\n'] := by
    have := cstr_at_append [] (line ++ ['\n']) stale hn2
    simp only [List.nil_append, List.length_nil, List.append_assoc, List.singleton_append] at this
    rw [hb]
    exact this
  have hlen : (line ++ ['\n']).length - 1 = line.length := by simp
  have a2 : buff_at ps.s_read_buff line.length = '\n' := by
    rw [hb]
    exact buff_at_append line '\n' (NUL :: stale)
  have a3 : ps.s_read_buff.set line.length NUL = line ++ NUL :: NUL :: stale := by
    rw [hb]
    exact set_append line '\n' NUL (NUL :: stale)
  have b1 : cstr_at (line ++ NUL :: NUL :: stale) 0 = line := by
    have := cstr_at_append [] line (NUL :: stale) hnul
    simpa using this
  have b2 : buff_at (line ++ NUL :: NUL :: stale) (line.length - 1) ≠ '\n' :=
    buff_at_last line _ '\n' hline hnl
  unfold HLParser.process_line
  simp only [a1, hlen, a2, a3, b1, b2, if_true, if_false]

/-- `process_line` on a line without colon: leading white space, then a tag. -/
theorem process_line_tag_only (ps : HLParser) (ws0 tag rest : List Char)
    (htag : tag ≠ [])
    (hws0 : ∀ d ∈ ws0, isspace d = true ∧ d ≠ '\n' ∧ d ≠ NUL)
    (htagc : ∀ c ∈ tag, isspace c = false ∧ c ≠ ':' ∧ c ≠ '#' ∧ c ≠ '\\' ∧ c ≠ '!' ∧ c ≠ NUL)
    (hb : ps.s_read_buff = ws0 ++ tag ++ NUL :: rest) :
    ps.process_line.m_cur_level = (ws0.length : Int)
    ∧ ps.process_line.tag = some tag
    ∧ ps.process_line.value = none := by
  obtain ⟨c, t, rfl⟩ : ∃ c t, tag = c :: t := by
    cases tag with
    | nil => exact absurd rfl htag
    | cons c t => exact ⟨c, t, rfl⟩
  obtain ⟨hc1, -, -, -, -, hc6⟩ := htagc c (by simp)
  have hnult : NUL ∉ c :: t := fun hh => (htagc NUL hh).2.2.2.2.2 rfl
  have hnul : NUL ∉ ws0 ++ c :: t := by
    intro hh
    rcases List.mem_append.mp hh with h1 | h1
    · exact (hws0 NUL h1).2.2 rfl
    · exact hnult h1
  have hnl : '\n' ∉ ws0 ++ c :: t := by
    intro hh
    rcases List.mem_append.mp hh with h1 | h1
    · exact (hws0 '\n' h1).2.1 rfl
    · exact absurd (htagc '\n' h1).1 (by decide)
  have b1 : cstr_at ps.s_read_buff 0 = ws0 ++ c :: t := by
    have := cstr_at_append [] (ws0 ++ c :: t) rest hnul
    simp only [List.nil_append, List.length_nil] at this
    rw [hb]
    exact this
  have b2 : buff_at ps.s_read_buff ((ws0 ++ c :: t).length - 1) ≠ '\n' := by
    rw [hb]
    exact buff_at_last (ws0 ++ c :: t) _ '\n' (by simp) hnl
  have b3 : skip_spaces ps.s_read_buff 0 = ws0.length := by
    have := skip_spaces_append [] ws0 c (t ++ NUL :: rest) (fun d hd => (hws0 d hd).1) hc1
    simp only [List.nil_append, List.length_nil, Nat.zero_add] at this
    rw [hb]
    simpa using this
  have b4 : buff_at ps.s_read_buff ws0.length = c := by
    rw [hb, List.append_assoc]
    exact buff_at_append ws0 c (t ++ NUL :: rest)
  have b5 : buff_at ps.s_read_buff (ws0.length + (c :: t).length) = NUL := by
    have := buff_at_append (ws0 ++ c :: t) NUL rest
    rw [hb]
    simpa using this
  have hfuel : ps.s_read_buff.length + 1 = (c :: t).length + (ws0.length + rest.length + 1 + 1) := by
    rw [hb]
    simp only [List.length_append, List.length_cons]
    omega
  have b6 : cstr_at ps.s_read_buff ws0.length = c :: t := by
    rw [hb]
    exact cstr_at_append ws0 (c :: t) rest hnult
  have hl : HLParser.process_line_loop ((c :: t).length + (ws0.length + rest.length + 1 + 1))
      { ps with
        s_read_buff := ps.s_read_buff
        m_cur_level := (ws0.length : Int)
        m_cur_tag := some ws0.length
        m_cur_value := none } ws0.length false
      = ({ ps with
            s_read_buff := ps.s_read_buff
            m_cur_level := (ws0.length : Int)
            m_cur_tag := some ws0.length
            m_cur_value := none }, ws0.length + (c :: t).length, false) := by
    rw [process_line_loop_tag (c :: t) ws0 (NUL :: rest) { ps with
        s_read_buff := ps.s_read_buff
        m_cur_level := (ws0.length : Int)
        m_cur_tag := some ws0.length
        m_cur_value := none } _ hb htagc, HLParser.process_line_loop]
    simp only [b5, if_true]
  unfold HLParser.process_line
  simp only [b1, b2, if_false, b3, b4, hc6, ne_eq, not_false_eq_true, if_true, hfuel, hl]
  simp only [HLParser.tag, HLParser.value, Option.map_some', b6, Option.map_none',
    Bool.false_eq_true, if_false, and_self]

/-- `process_line` on a line with a colon: leading white space, a tag, the colon,
white space and a value. -/
theorem process_line_tag_value (ps : HLParser) (ws0 tag ws value rest : List Char)
    (htag : tag ≠ [])
    (hws0 : ∀ d ∈ ws0, isspace d = true ∧ d ≠ '\n' ∧ d ≠ NUL)
    (htagc : ∀ c ∈ tag, isspace c = false ∧ c ≠ ':' ∧ c ≠ '#' ∧ c ≠ '\\' ∧ c ≠ '!' ∧ c ≠ NUL)
    (hws : ∀ d ∈ ws, isspace d = true ∧ d ≠ '\n' ∧ d ≠ NUL)
    (hval : value ≠ []) (hv0 : isspace (deref value) = false)
    (hvnul : NUL ∉ value) (hvnl : '\n' ∉ value)
    (hb : ps.s_read_buff = ws0 ++ tag ++ ':' :: ws ++ value ++ NUL :: rest) :
    ps.process_line.m_cur_level = (ws0.length : Int)
    ∧ ps.process_line.tag = some tag
    ∧ ps.process_line.value = some value := by
  obtain ⟨c, t, rfl⟩ : ∃ c t, tag = c :: t := by
    cases tag with
    | nil => exact absurd rfl htag
    | cons c t => exact ⟨c, t, rfl⟩
  obtain ⟨v0, vt, rfl⟩ : ∃ v0 vt, value = v0 :: vt := by
    cases value with
    | nil => exact absurd rfl hval
    | cons v0 vt => exact ⟨v0, vt, rfl⟩
  have hv0c : isspace v0 = false := by simpa [deref] using hv0
  obtain ⟨hc1, -, -, -, -, hc6⟩ := htagc c (by simp)
  have hnult : NUL ∉ c :: t := fun hh => (htagc NUL hh).2.2.2.2.2 rfl
  have hline : ps.s_read_buff
      = (ws0 ++ (c :: t) ++ ':' :: ws ++ (v0 :: vt)) ++ NUL :: rest := by
    rw [hb]
  have hnul : NUL ∉ ws0 ++ (c :: t) ++ ':' :: ws ++ (v0 :: vt) := by
    intro hh
    simp only [List.mem_append] at hh
    rcases hh with ((h1 | h1) | h1) | h1
    · exact (hws0 NUL h1).2.2 rfl
    · exact hnult h1
    · rcases List.mem_cons.mp h1 with h2 | h2
      · exact absurd h2 (by decide)
      · exact (hws NUL h2).2.2 rfl
    · exact hvnul h1
  have hnl : '\n' ∉ ws0 ++ (c :: t) ++ ':' :: ws ++ (v0 :: vt) := by
    intro hh
    simp only [List.mem_append] at hh
    rcases hh with ((h1 | h1) | h1) | h1
    · exact (hws0 '\n' h1).2.1 rfl
    · exact absurd (htagc '\n' h1).1 (by decide)
    · rcases List.mem_cons.mp h1 with h2 | h2
      · exact absurd h2 (by decide)
      · exact (hws '\n' h2).2.1 rfl
    · exact hvnl h1
  have b1 : cstr_at ps.s_read_buff 0 = ws0 ++ (c :: t) ++ ':' :: ws ++ (v0 :: vt) := by
    have := cstr_at_append [] (ws0 ++ (c :: t) ++ ':' :: ws ++ (v0 :: vt)) rest hnul
    simp only [List.nil_append, List.length_nil] at this
    rw [hline]
    exact this
  have b2 : buff_at ps.s_read_buff
      ((ws0 ++ (c :: t) ++ ':' :: ws ++ (v0 :: vt)).length - 1) ≠ '\n' := by
    rw [hline]
    exact buff_at_last _ _ '\n' (by simp) hnl
  have b3 : skip_spaces ps.s_read_buff 0 = ws0.length := by
    have := skip_spaces_append [] ws0 c (t ++ ':' :: ws ++ (v0 :: vt) ++ NUL :: rest)
      (fun d hd => (hws0 d hd).1) hc1
    simp only [List.nil_append, List.length_nil, Nat.zero_add] at this
    rw [hb]
    simpa using this
  have b4 : buff_at ps.s_read_buff ws0.length = c := by
    have := buff_at_append ws0 c (t ++ ':' :: ws ++ (v0 :: vt) ++ NUL :: rest)
    rw [hb]
    simpa using this
  have b5 : buff_at ps.s_read_buff (ws0.length + (c :: t).length) = ':' := by
    have := buff_at_append (ws0 ++ c :: t) ':' (ws ++ (v0 :: vt) ++ NUL :: rest)
    rw [hb]
    simpa using this
  have b6 : ps.s_read_buff.set (ws0.length + (c :: t).length) NUL
      = (ws0 ++ (c :: t) ++ [NUL]) ++ ws ++ v0 :: (vt ++ NUL :: rest) := by
    rw [hb]
    simp
  have b7 : skip_spaces ((ws0 ++ (c :: t) ++ [NUL]) ++ ws ++ v0 :: (vt ++ NUL :: rest))
      (ws0.length + (c :: t).length + 1) = (ws0 ++ (c :: t) ++ [NUL] ++ ws).length := by
    have := skip_spaces_append (ws0 ++ (c :: t) ++ [NUL]) ws v0 (vt ++ NUL :: rest)
      (fun d hd => (hws d hd).1) hv0c
    simp only [List.length_append, List.length_singleton] at this ⊢
    exact this
  have b8 : cstr_at ((ws0 ++ (c :: t) ++ [NUL]) ++ ws ++ v0 :: (vt ++ NUL :: rest)) ws0.length
      = c :: t := by
    have := cstr_at_append ws0 (c :: t) (ws ++ v0 :: (vt ++ NUL :: rest)) hnult
    simpa using this
  have b9 : cstr_at ((ws0 ++ (c :: t) ++ [NUL]) ++ ws ++ v0 :: (vt ++ NUL :: rest))
      (ws0 ++ (c :: t) ++ [NUL] ++ ws).length = v0 :: vt := by
    have := cstr_at_append (ws0 ++ (c :: t) ++ [NUL] ++ ws) (v0 :: vt) rest hvnul
    simpa using this
  have hfuel : ps.s_read_buff.length + 1
      = (c :: t).length + (((v0 :: vt).length + 1 + (ws0.length + ws.length + rest.length + 1)) + 1) := by
    rw [hb]
    simp only [List.length_append, List.length_cons]
    omega
  have hl : HLParser.process_line_loop
      ((c :: t).length + (((v0 :: vt).length + 1 + (ws0.length + ws.length + rest.length + 1)) + 1))
      { ps with
        s_read_buff := ps.s_read_buff
        m_cur_level := (ws0.length : Int)
        m_cur_tag := some ws0.length
        m_cur_value := none } ws0.length false
      = ({ ps with
            s_read_buff := (ws0 ++ (c :: t) ++ [NUL]) ++ ws ++ v0 :: (vt ++ NUL :: rest)
            m_cur_level := (ws0.length : Int)
            m_cur_tag := some ws0.length
            m_cur_value := some (ws0 ++ (c :: t) ++ [NUL] ++ ws).length },
          (ws0 ++ (c :: t) ++ [NUL] ++ ws).length + (v0 :: vt).length, false) := by
    rw [process_line_loop_tag (c :: t) ws0 (':' :: ws ++ (v0 :: vt) ++ NUL :: rest) { ps with
        s_read_buff := ps.s_read_buff
        m_cur_level := (ws0.length : Int)
        m_cur_tag := some ws0.length
        m_cur_value := none } _ (by rw [hb]; simp) htagc, HLParser.process_line_loop]
    simp only [b5, b6, b7, if_false, if_true, Bool.not_false, Bool.false_eq_true]
    have hne : (':' : Char) ≠ NUL := by decide
    have hne2 : (':' : Char) ≠ '\\' := by decide
    have hne3 : ¬ ((':' : Char) = '!' ∧ ws0.length + (c :: t).length = 0) := by
      intro hh
      exact absurd hh.1 (by decide)
    simp only [hne, hne2, hne3, if_false, Bool.false_eq_true]
    rw [process_line_loop_value (v0 :: vt) (ws0 ++ (c :: t) ++ [NUL] ++ ws) rest _ _
      (by simp) hvnul]
    simp
  unfold HLParser.process_line
  simp only [b1, b2, if_false, b3, b4, hc6, ne_eq, not_false_eq_true, if_true, hfuel, hl]
  simp only [HLParser.tag, HLParser.value, Option.map_some', b8, b9, Bool.false_eq_true,
    if_false, and_self]

/-- C22: let the read buffer hold a rule line made of `k` leading spaces and a tag
that is not empty and holds no white space and none of `:`, `#`, backslash, `!`,
followed by the optional newline and the terminator (behind which the buffer may
hold anything): `process_line` yields the level `k`, that tag and no value.  When
the tag is followed by `:`, optional spaces and a value that is not empty and does
not start with white space, `process_line` yields the level `k`, that tag and that
value. -/
theorem C22_process_line_plain (ps : HLParser) (k : Nat) (tag nl stale : List Char)
    (htag : tag ≠ [])
    (htagc : ∀ c ∈ tag, isspace c = false ∧ c ≠ ':' ∧ c ≠ '#' ∧ c ≠ '\\' ∧ c ≠ '!' ∧ c ≠ NUL)
    (hnl : nl = [] ∨ nl = ['\n']) :
    (ps.s_read_buff = List.replicate k ' ' ++ tag ++ nl ++ NUL :: stale →
      ps.process_line.m_cur_level = (k : Int)
      ∧ ps.process_line.tag = some tag
      ∧ ps.process_line.value = none)
    ∧ (∀ ws value : List Char, (∀ d ∈ ws, d = ' ') → value ≠ [] →
        isspace (deref value) = false → NUL ∉ value → '\n' ∉ value →
        ps.s_read_buff
          = List.replicate k ' ' ++ tag ++ ':' :: ws ++ value ++ nl ++ NUL :: stale →
        ps.process_line.m_cur_level = (k : Int)
        ∧ ps.process_line.tag = some tag
        ∧ ps.process_line.value = some value) := by
  have hws0 : ∀ d ∈ List.replicate k ' ', isspace d = true ∧ d ≠ '\n' ∧ d ≠ NUL := by
    intro d hd
    rw [List.eq_of_mem_replicate hd]
    decide
  have hk : (List.replicate k ' ').length = k := List.length_replicate k ' '
  have hnult : NUL ∉ tag := fun hh => (htagc NUL hh).2.2.2.2.2 rfl
  have hnlt : '\n' ∉ tag := fun hh => absurd (htagc '\n' hh).1 (by decide)
  constructor
  · intro hb
    rcases hnl with rfl | rfl
    · have := process_line_tag_only ps (List.replicate k ' ') tag stale htag hws0 htagc
        (by rw [hb]; simp)
      rw [hk] at this
      exact this
    · have hline : List.replicate k ' ' ++ tag ≠ [] := by simp [htag]
      have h1 : NUL ∉ List.replicate k ' ' ++ tag := by
        intro hh
        rcases List.mem_append.mp hh with h | h
        · exact (hws0 NUL h).2.2 rfl
        · exact hnult h
      have h2 : '\n' ∉ List.replicate k ' ' ++ tag := by
        intro hh
        rcases List.mem_append.mp hh with h | h
        · exact (hws0 '\n' h).2.1 rfl
        · exact hnlt h
      rw [process_line_newline ps (List.replicate k ' ' ++ tag) stale hline h1 h2
        (by rw [hb]; simp)]
      have := process_line_tag_only
        { ps with s_read_buff := List.replicate k ' ' ++ tag ++ NUL :: NUL :: stale }
        (List.replicate k ' ') tag (NUL :: stale) htag hws0 htagc rfl
      rw [hk] at this
      exact this
  · intro ws value hws hval hv0 hvnul hvnl hb
    have hwsp : ∀ d ∈ ws, isspace d = true ∧ d ≠ '\n' ∧ d ≠ NUL := by
      intro d hd
      rw [hws d hd]
      decide
    rcases hnl with rfl | rfl
    · have := process_line_tag_value ps (List.replicate k ' ') tag ws value stale htag hws0
        htagc hwsp hval hv0 hvnul hvnl (by rw [hb]; simp)
      rw [hk] at this
      exact this
    · have hline : List.replicate k ' ' ++ tag ++ ':' :: ws ++ value ≠ [] := by simp [htag]
      have h1 : NUL ∉ List.replicate k ' ' ++ tag ++ ':' :: ws ++ value := by
        intro hh
        simp only [List.mem_append] at hh
        rcases hh with ((h | h) | h) | h
        · exact (hws0 NUL h).2.2 rfl
        · exact hnult h
        · rcases List.mem_cons.mp h with h3 | h3
          · exact absurd h3 (by decide)
          · exact (hwsp NUL h3).2.2 rfl
        · exact hvnul h
      have h2 : '\n' ∉ List.replicate k ' ' ++ tag ++ ':' :: ws ++ value := by
        intro hh
        simp only [List.mem_append] at hh
        rcases hh with ((h | h) | h) | h
        · exact (hws0 '\n' h).2.1 rfl
        · exact hnlt h
        · rcases List.mem_cons.mp h with h3 | h3
          · exact absurd h3 (by decide)
          · exact (hwsp '\n' h3).2.1 rfl
        · exact hvnl h
      rw [process_line_newline ps (List.replicate k ' ' ++ tag ++ ':' :: ws ++ value) stale
        hline h1 h2 (by rw [hb]; simp)]
      have := process_line_tag_value
        { ps with
          s_read_buff := List.replicate k ' ' ++ tag ++ ':' :: ws ++ value ++ NUL :: NUL :: stale }
        (List.replicate k ' ') tag ws value (NUL :: stale) htag hws0 htagc hwsp hval hv0 hvnul
        hvnl rfl
      rw [hk] at this
      exact this

/-- Witness of C22: the lines `   select` and `keyword: span.keywordflow`, each with
its newline, in a buffer that holds `xyz` behind the terminator. -/
theorem C22_process_line_plain_witness :
    ((parser_at ("   select\n".toList ++ NUL :: "xyz".toList)).process_line.m_cur_level = 3
      ∧ (parser_at ("   select\n".toList ++ NUL :: "xyz".toList)).process_line.tag
          = some "select".toList
      ∧ (parser_at ("   select\n".toList ++ NUL :: "xyz".toList)).process_line.value = none)
    ∧ ((parser_at ("keyword: span.keywordflow\n".toList ++ NUL :: "xyz".toList)).process_line.m_cur_level
          = 0
      ∧ (parser_at ("keyword: span.keywordflow\n".toList ++ NUL :: "xyz".toList)).process_line.tag
          = some "keyword".toList
      ∧ (parser_at ("keyword: span.keywordflow\n".toList ++ NUL :: "xyz".toList)).process_line.value
          = some "span.keywordflow".toList) :=
  ⟨(C22_process_line_plain (parser_at ("   select\n".toList ++ NUL :: "xyz".toList)) 3
      "select".toList ['\n'] "xyz".toList (by decide) (by decide) (Or.inr rfl)).1 (by decide),
    (C22_process_line_plain (parser_at ("keyword: span.keywordflow\n".toList ++ NUL :: "xyz".toList))
      0 "keyword".toList ['\n'] "xyz".toList (by decide) (by decide) (Or.inr rfl)).2
      " ".toList "span.keywordflow".toList (by decide) (by decide) (by decide) (by decide)
      (by decide) (by decide)⟩

/-! ### The registry, the rule loader and the highlighter (C31 to C40) -/

/-- C31 (evaluation at the failing input): a language without a rule file is not
entered in the registry.  In general, when `get_index` finds no index for `L` in
the registry and no rule file, it returns the null pointer and leaves the
registry as it was, so the next call takes the same path again.  With no rule
file at all, the first `get_index` for `sql` returns the null pointer, the
registry is still empty, and `seek_index` still finds nothing for `sql`; the
second call looks for the file again: with the rule file present by then it
parses the file and returns the index. -/
theorem C31_missing_file_not_registered :
    (∀ (fs : FileSystem) (w : IndexWorld) (L : List Char),
      seek_index w.registry L = some none → find_and_open_file fs L = none →
      get_index fs w L = some (w, none) ∧ seek_index w.registry L = some none)
    ∧ get_index no_files Scanner.init.world "sql".toList = some (Scanner.init.world, none)
    ∧ Scanner.init.world.registry = []
    ∧ seek_index Scanner.init.world.registry "sql".toList = some none
    ∧ ((get_index no_files Scanner.init.world "sql".toList).bind (fun r =>
        get_index no_files r.1 "sql".toList)) = some (Scanner.init.world, none)
    ∧ ((get_index no_files Scanner.init.world "sql".toList).bind (fun r =>
        get_index sql_files r.1 "sql".toList)).map (fun r => r.2.isSome) = some true := by
  refine ⟨fun fs w L h1 h2 => ⟨get_index_missing_file fs w L h1 h2, h1⟩,
    by decide!, by decide!, by decide!, by decide!, by decide!⟩

/-- C33 (evaluation at the failing input): for the rule file with the lines `a`,
`b`, `c` at depths 0, 6, 3 the loader creates the nodes 1, 2, 3; the nodes of `b`
and of `c` both get the node of `a` as parent, the nearest preceding line with
a smaller depth, but the chain of children of `a` holds the node of `c` only:
the node of `b` has no next sibling and is not a sibling of the node of `c`.  For
the rule file with regular indentation the parents are as the claim says and the
nodes of one parent are siblings in file order. -/
theorem C33_dedented_line_not_a_sibling :
    parsed_tree dedent_rule_file
      = some [(none, some "x".toList), (some 0, some "a".toList), (some 1, some "b".toList),
          (some 1, some "c".toList)]
    ∧ children (parsed_arena dedent_rule_file) 1 = [3]
    ∧ ((parsed_arena dedent_rule_file).get? 2).map (fun n => n.m_sibling) = some none
    ∧ ((parsed_arena dedent_rule_file).get? 1).map (fun n => n.m_child) = some (some 3)
    ∧ parsed_tree regular_rule_file
      = some [(none, some "x".toList), (some 0, some "a".toList), (some 1, some "b".toList),
          (some 1, some "c".toList), (some 0, some "d".toList), (some 4, some "e".toList)]
    ∧ (List.range 6).map (children (parsed_arena regular_rule_file))
      = [[1, 4], [2, 3], [], [], [5], []] := by
  refine ⟨by decide!, by decide!, by decide!, by decide!, by decide!, by decide!⟩

/-- C34 (evaluation at the failing input): for the rule file with the category line
`keyword: span.keyword` and the keywords `int` at depth 6 and `char` at depth 3,
each of the three lines is a node line and gets a node (the arena holds the root
and three nodes), but `direct_add_child` for `char` is applied to the category
node when `int` is its child: the child link of the category is overwritten, the
tree below the root (the nodes the destructor of the root reaches) holds two
nodes, where the first two lines alone give the category the child `int`, and the index built from the tree does not know the keyword `int`. -/
theorem C34_child_link_overwritten :
    (parsed_tree ragged_rule_file).map List.length = some 4
    ∧ parsed_tree ragged_rule_file
      = some [(none, some "x".toList), (some 0, some "keyword".toList),
          (some 1, some "int".toList), (some 1, some "char".toList)]
    ∧ children (parsed_arena "keyword: span.keyword\n      int\n".toList) 1 = [2]
    ∧ ((parsed_arena ragged_rule_file).get? 1).map (fun n => n.m_child) = some (some 3)
    ∧ destructor_walk (parsed_arena ragged_rule_file) (parsed_arena ragged_rule_file).length
        (some 0) = [0, 1, 3]
    ∧ ragged_index.m_entries = [3]
    ∧ ragged_index.seek_word false "int".toList = some none
    ∧ ragged_index.seek_word false "char".toList = some (some 3) := by
  refine ⟨by decide!, by decide!, by decide!, by decide!, by decide!, by decide!, by decide!,
    by decide!⟩

/-- In a tree, the nodes of a sibling chain are not before its first node and have
the parent of the first node. -/
theorem sibling_chain_parent (nodes : List HLNode) (hok : tree_links nodes) :
    ∀ (fuel s : Nat) (sn : HLNode), nodes.get? s = some sn →
      ∀ j ∈ sibling_chain nodes fuel (some s),
        s ≤ j ∧ ∃ jn, nodes.get? j = some jn ∧ jn.m_parent = sn.m_parent
  | 0, _, _, _, j, hj => by simp [sibling_chain] at hj
  | fuel + 1, s, sn, hs, j, hj => by
    unfold sibling_chain at hj
    rw [hs] at hj
    simp only [List.mem_cons] at hj
    rcases hj with h1 | h1
    · subst h1
      exact ⟨Nat.le_refl _, sn, hs, rfl⟩
    · cases hsib : sn.m_sibling with
      | none =>
        rw [hsib] at h1
        cases fuel <;> simp [sibling_chain] at h1
      | some t =>
        rw [hsib] at h1
        obtain ⟨hlt, tn, htn, hpar⟩ := (hok s sn hs).2 t hsib
        obtain ⟨a1, jn, a2, a3⟩ := sibling_chain_parent nodes hok fuel t tn htn j h1
        exact ⟨by omega, jn, a2, by rw [a3, hpar]⟩

/-- In a tree, a sibling chain holds no node twice. -/
theorem sibling_chain_nodup (nodes : List HLNode) (hok : tree_links nodes) :
    ∀ (fuel : Nat) (start : Option Nat), (sibling_chain nodes fuel start).Nodup
  | 0, _ => by simp [sibling_chain]
  | _ + 1, none => by simp [sibling_chain]
  | fuel + 1, some s => by
    unfold sibling_chain
    cases hs : nodes.get? s with
    | none => simp
    | some sn =>
      simp only [List.nodup_cons]
      refine ⟨?_, sibling_chain_nodup nodes hok fuel sn.m_sibling⟩
      intro hmem
      cases hsib : sn.m_sibling with
      | none =>
        rw [hsib] at hmem
        cases fuel <;> simp [sibling_chain] at hmem
      | some t =>
        rw [hsib] at hmem
        obtain ⟨hlt, tn, htn, -⟩ := (hok s sn hs).2 t hsib
        obtain ⟨a1, -⟩ := sibling_chain_parent nodes hok fuel t tn htn s hmem
        omega

/-- In a tree, a child of the node `i` has `i` as its parent. -/
theorem children_parent (nodes : List HLNode) (hok : tree_links nodes) (i j : Nat)
    (hj : j ∈ children nodes i) : ∃ jn, nodes.get? j = some jn ∧ jn.m_parent = some i := by
  unfold children at hj
  cases hi : nodes.get? i with
  | none =>
    rw [hi] at hj
    cases hj
  | some nd =>
    rw [hi] at hj
    simp only [] at hj
    cases hc : nd.m_child with
    | none =>
      rw [hc] at hj
      cases hn : nodes.length <;> rw [hn] at hj <;> simp [sibling_chain] at hj
    | some c =>
      rw [hc] at hj
      obtain ⟨-, cn, hcn, hpar⟩ := (hok i nd hi).1 c hc
      obtain ⟨-, jn, a2, a3⟩ := sibling_chain_parent nodes hok _ c cn hcn j hj
      exact ⟨jn, a2, by rw [a3, hpar]⟩

/-- In a tree, the children of a node hold no node twice. -/
theorem children_nodup (nodes : List HLNode) (hok : tree_links nodes) (i : Nat) :
    (children nodes i).Nodup := by
  unfold children
  cases nodes.get? i with
  | none => simp
  | some nd => exact sibling_chain_nodup nodes hok _ _

/-- In a tree, `walk_tags` visits no node twice. -/
theorem walk_tags_nodup (nodes : List HLNode) (hok : tree_links nodes) :
    (walk_tags nodes).Nodup := by
  unfold walk_tags
  rw [List.nodup_flatMap]
  refine ⟨fun b _ => children_nodup nodes hok b, ?_⟩
  refine List.Pairwise.imp_of_mem ?_ (children_nodup nodes hok 0)
  intro a b _ _ hab
  intro x hxa hxb
  obtain ⟨xn, h1, h2⟩ := children_parent nodes hok a x hxa
  obtain ⟨xn2, h3, h4⟩ := children_parent nodes hok b x hxb
  rw [h1] at h3
  cases h3
  rw [h2] at h4
  exact hab (Option.some.inj h4)

/-- A white-space character has a code of at most 32. -/
theorem isspace_toNat (c : Char) (h : isspace c = true) : c.toNat ≤ 32 := by
  unfold isspace at h
  simp only [Bool.or_eq_true, decide_eq_true_eq] at h
  rcases h with ((((h | h) | h) | h) | h) | h <;> rw [h] <;> decide

/-- Folding to lower case does not change whether a character is white space. -/
theorem isspace_fold (c : Char) : isspace (toLowerCase c) = isspace c := by
  by_cases h : 65 ≤ c.toNat ∧ c.toNat ≤ 90
  · have h1 : isspace c = false := by
      cases hs : isspace c with
      | false => rfl
      | true =>
        have := isspace_toNat c hs
        omega
    have h2 : isspace (toLowerCase c) = false := by
      cases hs : isspace (toLowerCase c) with
      | false => rfl
      | true =>
        have := isspace_toNat _ hs
        rw [toLowerCase_toNat, if_pos h] at this
        omega
    rw [h1, h2]
  · unfold toLowerCase
    rw [if_neg h]

/-- The first character of a folded tag is the folded first character. -/
theorem deref_fold (t : List Char) : deref (t.map toLowerCase) = toLowerCase (deref t) := by
  cases t with
  | nil => decide
  | cons c rest => rfl

/-- The class of the first character of a tag (name-eligible, white space) is the
same before and after the tags of the visited nodes are folded to lower case. -/
theorem first_char_lowered (hyphen : Bool) (leaves : List Nat) (nodes : List HLNode) (n : Nat) :
    allowed_in_name hyphen (deref ((node_tag
        (leaves.foldl (fun ns i => ns.modify HLNode.tag_to_lower_case i) nodes) n).getD []))
      = allowed_in_name hyphen (deref ((node_tag nodes n).getD []))
    ∧ isspace (deref ((node_tag
        (leaves.foldl (fun ns i => ns.modify HLNode.tag_to_lower_case i) nodes) n).getD []))
      = isspace (deref ((node_tag nodes n).getD [])) := by
  rw [node_tag_lowered]
  split
  · cases node_tag nodes n with
    | none => exact ⟨rfl, rfl⟩
    | some t =>
      simp only [Option.map_some', Option.getD_some, deref_fold]
      exact ⟨allowed_in_name_fold hyphen _ _ (toLowerCase_idem _), isspace_fold _⟩
  · exact ⟨rfl, rfl⟩

/-- An insertion adds the node to the array. -/
theorem insert_by_tag_perm (nodes : List HLNode) (i : Nat) :
    ∀ l : List Nat, (insert_by_tag nodes i l).Perm (i :: l)
  | [] => by simp [insert_by_tag]
  | j :: rest => by
    unfold insert_by_tag
    split
    · exact ((insert_by_tag_perm nodes i rest).cons j).trans (List.Perm.swap i j rest)
    · exact List.Perm.refl _

/-- The sorted array is a rearrangement of the array. -/
theorem sort_by_tag_perm (nodes : List HLNode) : ∀ l : List Nat, (sort_by_tag nodes l).Perm l
  | [] => by simp [sort_by_tag]
  | j :: rest => by
    have ih := sort_by_tag_perm nodes rest
    unfold sort_by_tag at ih ⊢
    rw [List.foldr_cons]
    exact (insert_by_tag_perm nodes j _).trans (ih.cons j)

/-- The two sets `source_scan` builds for a tree whose visited nodes have tags: the
scan returns, each set holds no node twice, the word set holds the visited nodes
whose tag begins with a name-eligible character, and the comment set holds the
visited nodes whose tag begins with a character that is neither name-eligible nor
white space. -/
theorem source_scan_exact (hyphen ci : Bool) (nodes : List HLNode)
    (hnodup : (walk_tags nodes).Nodup)
    (htags : ∀ i ∈ walk_tags nodes, (node_tag nodes i).isSome = true) :
    ∃ nodes1 entries comments,
      source_scan hyphen ci nodes = some (nodes1, entries, comments)
      ∧ entries.Nodup ∧ comments.Nodup
      ∧ (∀ i, i ∈ entries ↔ i ∈ walk_tags nodes
          ∧ allowed_in_name hyphen (deref ((node_tag nodes i).getD [])) = true)
      ∧ (∀ i, i ∈ comments ↔ i ∈ walk_tags nodes
          ∧ allowed_in_name hyphen (deref ((node_tag nodes i).getD [])) = false
          ∧ isspace (deref ((node_tag nodes i).getD [])) = false) := by
  have hany : (walk_tags nodes).any (fun i => (node_tag nodes i).isNone) = false := by
    rw [List.any_eq_false]
    intro i hi
    have := htags i hi
    cases h : node_tag nodes i with
    | none => rw [h] at this; cases this
    | some t => simp
  unfold source_scan
  simp only [hany, Bool.false_eq_true, if_false]
  split
  · rename_i hzero
    refine ⟨_, _, _, rfl, List.nodup_nil, List.nodup_nil, ?_, ?_⟩
    · intro i
      simp only [List.not_mem_nil, false_iff, not_and]
      intro hi ha
      have hmem : i ∈ (walk_tags nodes).filter (fun i =>
          allowed_in_name hyphen (deref ((node_tag nodes i).getD []))) :=
        List.mem_filter.mpr ⟨hi, ha⟩
      have hlen := List.length_pos_of_mem hmem
      omega
    · intro i
      simp only [List.not_mem_nil, false_iff, not_and]
      intro hi ha hs
      have hmem : i ∈ (walk_tags nodes).filter (fun i =>
          !allowed_in_name hyphen (deref ((node_tag nodes i).getD []))
            && !isspace (deref ((node_tag nodes i).getD []))) :=
        List.mem_filter.mpr ⟨hi, by simp [ha, hs]⟩
      have hlen := List.length_pos_of_mem hmem
      omega
  · refine ⟨_, _, _, rfl, ?_, ?_, ?_, ?_⟩
    · exact (sort_by_tag_perm _ _).nodup_iff.mpr (hnodup.filter _)
    · exact (sort_by_tag_perm _ _).nodup_iff.mpr (hnodup.filter _)
    · intro i
      rw [sort_by_tag_mem, List.mem_filter]
      cases ci with
      | false => simp
      | true =>
        simp only [if_true, (first_char_lowered hyphen (walk_tags nodes) nodes i).1]
    · intro i
      rw [sort_by_tag_mem, List.mem_filter]
      cases ci with
      | false => simp
      | true =>
        simp only [if_true, (first_char_lowered hyphen (walk_tags nodes) nodes i).1,
          (first_char_lowered hyphen (walk_tags nodes) nodes i).2, Bool.and_eq_true,
          Bool.not_eq_true']

/-- C32: for a tree (an arena whose links satisfy `tree_links`) in which the nodes
two levels below the root have tags, the constructor of the index returns, under
the name predicate `hyphen` it is given, an index in which the word set and the
comment set hold no node twice; a node is in the word set exactly when it is a
child of a child of the root and the first character of its tag is name-eligible
under that predicate, and in the comment set exactly when it is a child of a child
of the root and the first character of its tag is neither name-eligible nor
white space (for an empty tag, which no node of the program has, the first
character is the terminator).  So a node at another depth, or with a tag that
begins with white space, is in neither set; the parent of the parent of every
node of the two sets is the root. -/
theorem C32_index_sets (hyphen ci : Bool) (nodes : List HLNode) (hlinks : tree_links nodes)
    (htags : ∀ i ∈ walk_tags nodes, (node_tag nodes i).isSome = true) :
    ∃ idx, HLIndex.new nodes hyphen ci = some (hyphen, idx)
      ∧ idx.m_entries.Nodup ∧ idx.m_comments.Nodup
      ∧ (∀ i, i ∈ idx.m_entries ↔ (∃ b ∈ children nodes 0, i ∈ children nodes b)
          ∧ allowed_in_name hyphen (deref ((node_tag nodes i).getD [])) = true)
      ∧ (∀ i, i ∈ idx.m_comments ↔ (∃ b ∈ children nodes 0, i ∈ children nodes b)
          ∧ allowed_in_name hyphen (deref ((node_tag nodes i).getD [])) = false
          ∧ isspace (deref ((node_tag nodes i).getD [])) = false)
      ∧ (∀ i ∈ idx.m_entries ++ idx.m_comments, ∃ n b bn, nodes.get? i = some n
          ∧ n.m_parent = some b ∧ nodes.get? b = some bn ∧ bn.m_parent = some 0) := by
  obtain ⟨nodes1, entries, comments, hss, h1, h2, h3, h4⟩ :=
    source_scan_exact hyphen ci nodes (walk_tags_nodup nodes hlinks) htags
  have hw : ∀ i, i ∈ walk_tags nodes ↔ ∃ b ∈ children nodes 0, i ∈ children nodes b := by
    intro i
    unfold walk_tags
    rw [List.mem_flatMap]
  refine ⟨_, by rw [HLIndex.new, hss], h1, h2, ?_, ?_, ?_⟩
  · intro i
    rw [← hw]
    exact h3 i
  · intro i
    rw [← hw]
    exact h4 i
  · intro i hi
    have hi2 : i ∈ walk_tags nodes := by
      rcases List.mem_append.mp hi with h | h
      · exact ((h3 i).mp h).1
      · exact ((h4 i).mp h).1
    obtain ⟨b, hb, hib⟩ := (hw i).mp hi2
    obtain ⟨n, a1, a2⟩ := children_parent nodes hlinks b i hib
    obtain ⟨bn, a3, a4⟩ := children_parent nodes hlinks 0 b hb
    exact ⟨n, b, bn, a1, a2, a3, a4⟩

/-- C32 at the tree of `mixed_rule_file`. -/
theorem C32_index_sets_witness :
    ∃ idx, HLIndex.new (parsed_arena mixed_rule_file) false false = some (false, idx)
      ∧ idx.m_entries.Nodup ∧ idx.m_comments.Nodup
      ∧ (∀ i, i ∈ idx.m_entries ↔ (∃ b ∈ children (parsed_arena mixed_rule_file) 0,
            i ∈ children (parsed_arena mixed_rule_file) b)
          ∧ allowed_in_name false
              (deref ((node_tag (parsed_arena mixed_rule_file) i).getD [])) = true)
      ∧ (∀ i, i ∈ idx.m_comments ↔ (∃ b ∈ children (parsed_arena mixed_rule_file) 0,
            i ∈ children (parsed_arena mixed_rule_file) b)
          ∧ allowed_in_name false
              (deref ((node_tag (parsed_arena mixed_rule_file) i).getD [])) = false
          ∧ isspace (deref ((node_tag (parsed_arena mixed_rule_file) i).getD [])) = false)
      ∧ (∀ i ∈ idx.m_entries ++ idx.m_comments, ∃ n b bn,
          (parsed_arena mixed_rule_file).get? i = some n
          ∧ n.m_parent = some b ∧ (parsed_arena mixed_rule_file).get? b = some bn
          ∧ bn.m_parent = some 0) :=
  C32_index_sets false false (parsed_arena mixed_rule_file)
    (tree_links_of_check _ (by decide!)) (by decide!)

/-- C37: in `S_FENCED`, a line whose length does not exceed `fence_indent` is
processed without a look for the closing fence: the state and every other global
stay as they are, and the output grows by the line and a newline when the block is
passed through to the doc generator, and by the opener and the closer of a line
container with nothing between them otherwise. -/
theorem C37_short_line_in_fence (fs : FileSystem) (st : Scanner) (str : List Char)
    (hstate : st.state = STATE.S_FENCED) (hlen : (str.length : Int) ≤ st.fence_indent) :
    ∃ st1, process_line fs st str = some st1
      ∧ st1.state = STATE.S_FENCED
      ∧ st1 = { st with out := st.out ++
          (if st.doxygen_is_handling_fenced_code then str ++ ['\n']
           else line_start_text ++ line_end_text) } := by
  have hc : st.fence_indent < 0 ∨ str.length ≤ st.fence_indent.toNat := by
    right
    omega
  unfold process_line
  rw [hstate]
  simp only []
  unfold process_fenced_line
  rw [if_pos hc]
  by_cases hd : st.doxygen_is_handling_fenced_code = true
  · rw [if_pos hd]
    refine ⟨_, rfl, ?_, ?_⟩
    · simpa [Scanner.puts] using hstate
    · simp [Scanner.puts, print_fenced_line_with_doxygen, hd, hstate]
  · rw [if_neg hd]
    refine ⟨_, rfl, ?_, ?_⟩
    · simpa [Scanner.puts] using hstate
    · simp [Scanner.puts, hd, List.append_assoc, hstate]

/-- C37 in the fence opened at column 3 of a documentation comment, which the
filter renders: the line ` *` of two characters adds an empty line container. -/
theorem C37_short_line_in_fence_witness :
    ∃ st1, process_line sql_files after_indented_opener " *".toList = some st1
      ∧ st1.state = STATE.S_FENCED
      ∧ st1 = { after_indented_opener with out := after_indented_opener.out ++
          (if after_indented_opener.doxygen_is_handling_fenced_code then " *".toList ++ ['\n']
           else line_start_text ++ line_end_text) } :=
  C37_short_line_in_fence sql_files after_indented_opener " *".toList (by decide!) (by decide!)

/-- A state that is neither `S_LINE_COMMENT` nor `S_FENCED` satisfies the invariant. -/
theorem fence_state_ok_of_state (st : Scanner) (h1 : st.state ≠ STATE.S_LINE_COMMENT)
    (h2 : st.state ≠ STATE.S_FENCED) : fence_state_ok st :=
  ⟨h1, fun h => absurd h h2⟩

/-- `set_fenced_language_function`, when it returns, leaves the state and the
fence variables as they are. -/
theorem set_fenced_language_function_keeps (fs : FileSystem) (st st1 : Scanner)
    (h : set_fenced_language_function fs st = some st1) :
    st1.state = st.state ∧ st1.fence_return_state = st.fence_return_state
      ∧ st1.fence_char = st.fence_char ∧ st1.fence_char_count = st.fence_char_count
      ∧ st1.fence_indent = st.fence_indent := by
  unfold set_fenced_language_function at h
  split at h
  · split at h
    · cases h
    · cases h
      simp
    · simp only [] at h
      split at h
      · cases h
        simp
      · cases h
        simp [Scanner.eputs]
  · cases h
    simp

/-- `set_fence_values`, when it returns, has set the state to `S_FENCED`, the
return state to the state before, the fence character to the character before the
info string, and the indent to its argument; the count is as it was. -/
theorem set_fence_values_result (fs : FileSystem) (st : Scanner) (prev : Char)
    (fence : List Char) (indented : Int) (r : Scanner × Int)
    (h : set_fence_values fs st prev fence indented = some r) :
    r.1.state = STATE.S_FENCED ∧ r.1.fence_return_state = st.state
      ∧ r.1.fence_char = prev ∧ r.1.fence_char_count = st.fence_char_count
      ∧ r.1.fence_indent = indented := by
  unfold set_fence_values at h
  simp only [] at h
  split at h
  · cases h
    simp
  · split at h
    · cases h
    · rename_i st3 h3
      cases h
      simp only []
      split at h3
      · obtain ⟨a1, a2, a3, a4, a5⟩ := set_fenced_language_function_keeps fs _ _ h3
        rw [a1, a2, a3, a4, a5]
        simp
      · cases h3
        simp

/-- The end-of-comment search keeps the invariant when the code-line function does. -/
theorem doxy_seek_end_ok (code : Scanner → List Char → Option Scanner)
    (hcode : ∀ s p r, s.state = STATE.S_CODE → code s p = some r → fence_state_ok r)
    (str : List Char) :
    ∀ (p : List Char) (st r : Scanner), st.state = STATE.S_DOXY_BLOCK_COMMENT →
      doxy_seek_end code str st p = some r → fence_state_ok r
  | [], st, r, hs, h => by
    unfold doxy_seek_end at h
    cases h
    apply fence_state_ok_of_state <;> simp [Scanner.puts, hs]
  | c :: p1, st, r, hs, h => by
    unfold doxy_seek_end at h
    split at h
    · exact hcode _ _ _ (by simp [Scanner.puts]) h
    · exact doxy_seek_end_ok code hcode str p1 st r hs h

/-- The scan for a fence opener in a documentation comment keeps the invariant
when the code-line function does. -/
theorem doxy_scan_ok (code : Scanner → List Char → Option Scanner)
    (hcode : ∀ s p r, s.state = STATE.S_CODE → code s p = some r → fence_state_ok r)
    (fs : FileSystem) (str : List Char) :
    ∀ (p : List Char) (st r : Scanner), st.state = STATE.S_DOXY_BLOCK_COMMENT →
      doxy_scan code fs str st p = some r → fence_state_ok r
  | [], st, r, hs, h => by
    unfold doxy_scan at h
    cases h
    apply fence_state_ok_of_state <;> simp [hs]
  | c :: p1, st, r, hs, h => by
    unfold doxy_scan at h
    split at h
    · split at h
      · rename_i hc
        simp only [] at h
        split at h
        · split at h
          · cases h
          · rename_i st3 adv h3
            obtain ⟨a1, a2, a3, a4, a5⟩ := set_fence_values_result fs _ _ _ _ _ h3
            simp only [] at a1 a2 a3 a4 a5
            have hcnt : (3 : Int) ≤ st3.fence_char_count := by
              rw [a4]
              omega
            split at h
            · cases h
              refine ⟨by simp [Scanner.puts, a1], fun _ => ?_⟩
              simp only [Scanner.puts]
              exact ⟨Or.inr (by rw [a2, hs]), by rw [a3]; exact hc, hcnt, le_refl _⟩
            · cases h
              refine ⟨by simp [Scanner.puts, Scanner.eputs, a1], fun _ => ?_⟩
              simp only [Scanner.puts, Scanner.eputs]
              exact ⟨Or.inr (by rw [a2, hs]), by rw [a3]; exact hc, hcnt, by rw [a5]; omega⟩
        · exact doxy_scan_ok code hcode fs str p1 _ r (by simp [hs]) h
      · exact doxy_seek_end_ok code hcode str _ st r hs h
    · exact doxy_scan_ok code hcode fs str p1 st r hs h

/-- `process_doxy_block_comment_line` keeps the invariant when the code-line
function does. -/
theorem doxy_line_ok (code : Scanner → List Char → Option Scanner)
    (hcode : ∀ s p r, s.state = STATE.S_CODE → code s p = some r → fence_state_ok r)
    (fs : FileSystem) (st r : Scanner) (str : List Char)
    (hs : st.state = STATE.S_DOXY_BLOCK_COMMENT)
    (h : process_doxy_block_comment_line code fs st str = some r) : fence_state_ok r := by
  unfold process_doxy_block_comment_line at h
  simp only [] at h
  split at h
  · cases h
    apply fence_state_ok_of_state <;> simp [Scanner.puts, hs]
  · split at h
    · exact hcode _ _ _ (by simp) h
    · refine doxy_scan_ok code hcode fs str _ _ r ?_ h
      split_ifs <;> simp [Scanner.puts, hs]

/-- The scan of a code line keeps the invariant when the function for lines of a
documentation comment does. -/
theorem code_scan_ok (doxy : Scanner → List Char → Option Scanner)
    (hdoxy : ∀ s p r, s.state = STATE.S_DOXY_BLOCK_COMMENT → doxy s p = some r →
      fence_state_ok r)
    (str : List Char) :
    ∀ (p : List Char) (st : Scanner) (escaped : Bool) (r : Scanner),
      st.state = STATE.S_CODE → code_scan doxy str st escaped p = some r → fence_state_ok r
  | [], st, escaped, r, hs, h => by
    unfold code_scan at h
    cases h
    apply fence_state_ok_of_state <;> simp [Scanner.puts, hs]
  | c :: p1, st, escaped, r, hs, h => by
    have key : ∀ (st2 : Scanner) (p3 : List Char),
        (st2.state = STATE.S_BLOCK_COMMENT ∨ st2.state = STATE.S_DOXY_BLOCK_COMMENT) →
        (if p3 = [] then some ((st2.puts str).puts ['\n'])
          else if (st2.puts (up_to str p3)).state = STATE.S_DOXY_BLOCK_COMMENT
            then doxy (st2.puts (up_to str p3)) p3
            else some (process_block_comment_line (st2.puts (up_to str p3)) p3)) = some r →
        fence_state_ok r := by
      intro st2 p3 h2 hr
      split at hr
      · cases hr
        apply fence_state_ok_of_state <;> rcases h2 with h2 | h2 <;> simp [Scanner.puts, h2]
      · split at hr
        · rename_i hst
          exact hdoxy _ _ _ hst hr
        · cases hr
          apply fence_state_ok_of_state <;> rcases h2 with h2 | h2 <;>
            simp [process_block_comment_line, Scanner.puts, h2]
    unfold code_scan at h
    split at h
    · exact code_scan_ok doxy hdoxy str p1 st _ r hs h
    · split at h
      · refine code_scan_ok doxy hdoxy str p1 _ _ r ?_ h
        split_ifs <;> simp [hs]
      · split at h
        · split at h
          · split at h
            · refine key _ _ ?_ h
              split_ifs <;> simp
            · exact code_scan_ok doxy hdoxy str p1 st _ r hs h
          · exact code_scan_ok doxy hdoxy str p1 st _ r hs h
        · exact code_scan_ok doxy hdoxy str p1 st _ r hs h

/-- `process_code_line` in `S_CODE` keeps the invariant. -/
theorem code_line_ok (fs : FileSystem) :
    ∀ (fuel : Nat) (st : Scanner) (str : List Char) (r : Scanner),
      st.state = STATE.S_CODE → process_code_line fs fuel st str = some r → fence_state_ok r
  | 0, _, _, _, _, h => by simp [process_code_line] at h
  | fuel + 1, st, str, r, hs, h => by
    unfold process_code_line at h
    simp only [] at h
    split at h
    · rename_i hf
      split at h
      · cases h
      · rename_i st1 adv h1
        obtain ⟨a1, a2, a3, a4, a5⟩ := set_fence_values_result fs _ _ _ _ _ h1
        simp only [] at a1 a2 a3 a4 a5
        have hok : fence_state_ok st1 := by
          refine ⟨by simp [a1], fun _ => ⟨Or.inl (by rw [a2, hs]), by rw [a3]; exact hf.1, ?_, ?_⟩⟩
          · rw [a4]
            have := hf.2
            omega
          · rw [a5]
        split at h
        · cases h
          exact hok
        · cases h
          exact hok
    · exact code_scan_ok _ (fun s p r2 hs2 h2 =>
        doxy_line_ok _ (fun s3 p3 r3 hs3 h3 => code_line_ok fs fuel s3 p3 r3 hs3 h3)
          fs s r2 p hs2 h2) str str st false r hs h

/-- `process_fenced_line` keeps the invariant. -/
theorem fenced_line_ok (st r : Scanner) (str : List Char) (hok : fence_state_ok st)
    (hs : st.state = STATE.S_FENCED) (h : process_fenced_line st str = some r) :
    fence_state_ok r := by
  obtain ⟨b1, b2, b3, b4⟩ := hok.2 hs
  have hkeep : ∀ r2 : Scanner, r2.state = st.state → r2.fence_return_state = st.fence_return_state →
      r2.fence_char = st.fence_char → r2.fence_char_count = st.fence_char_count →
      r2.fence_indent = st.fence_indent → fence_state_ok r2 := by
    intro r2 c1 c2 c3 c4 c5
    refine ⟨by rw [c1]; exact hok.1, fun _ => ?_⟩
    rw [c2, c3, c4, c5]
    exact ⟨b1, b2, b3, b4⟩
  unfold process_fenced_line at h
  split at h
  · split at h
    · cases h
      exact hkeep _ rfl rfl rfl rfl rfl
    · cases h
      exact hkeep _ rfl rfl rfl rfl rfl
  · split at h
    · cases h
    · simp only [] at h
      split at h
      · cases h
        apply fence_state_ok_of_state
        · simp only [Scanner.eputs]
          split_ifs <;> rcases b1 with b1 | b1 <;> simp [Scanner.puts, b1]
        · simp only [Scanner.eputs]
          split_ifs <;> rcases b1 with b1 | b1 <;> simp [Scanner.puts, b1]
      · obtain ⟨c1, c2, c3, c4, c5⟩ := call_fenced_line_func_state _ _ _ h
        exact hkeep _ c1 c2 c3 c4 c5

/-- `process_line` keeps the invariant. -/
theorem process_line_ok (fs : FileSystem) (st r : Scanner) (str : List Char)
    (hok : fence_state_ok st) (h : process_line fs st str = some r) : fence_state_ok r := by
  unfold process_line at h
  split at h
  · rename_i hs
    exact code_line_ok fs _ st str r hs h
  · rename_i hs
    exact absurd hs hok.1
  · rename_i hs
    cases h
    apply fence_state_ok_of_state <;> simp [process_block_comment_line, Scanner.puts, hs]
  · rename_i hs
    exact doxy_line_ok _ (fun s3 p3 r3 hs3 h3 => code_line_ok fs _ s3 p3 r3 hs3 h3) fs st r str hs h
  · rename_i hs
    exact fenced_line_ok st r str hok hs h

/-- C39: every state that `process_line` calls reach from the initial state, line
after line, satisfies the invariant: the state is not `S_LINE_COMMENT`, and when it
is `S_FENCED`, `fence_return_state` is `S_CODE` or `S_DOXY_BLOCK_COMMENT`,
`fence_char` is a backtick or a tilde, `fence_char_count` is at least 3 and
`fence_indent` is not negative. -/
theorem C39_fence_state_invariant (fs : FileSystem) (lines : List (List Char)) (st : Scanner)
    (h : process_lines fs Scanner.init lines = some st) :
    st.state ≠ STATE.S_LINE_COMMENT
    ∧ (st.state = STATE.S_FENCED →
        (st.fence_return_state = STATE.S_CODE
          ∨ st.fence_return_state = STATE.S_DOXY_BLOCK_COMMENT)
        ∧ (st.fence_char = BACKTICK ∨ st.fence_char = '~')
        ∧ 3 ≤ st.fence_char_count ∧ 0 ≤ st.fence_indent) := by
  have gen : ∀ (ls : List (List Char)) (s0 r : Scanner), fence_state_ok s0 →
      process_lines fs s0 ls = some r → fence_state_ok r := by
    intro ls
    induction ls with
    | nil =>
      intro s0 r h0 hr
      simp only [process_lines, Option.some.injEq] at hr
      rw [← hr]
      exact h0
    | cons l rest ih =>
      intro s0 r h0 hr
      unfold process_lines at hr
      split at hr
      · cases hr
      · rename_i s1 h1
        exact ih s1 r (process_line_ok fs s0 s1 l h0 h1) hr
  exact gen lines Scanner.init st
    (fence_state_ok_of_state _ (by decide) (by decide)) h

/-- C39 at the state behind the opener of a fence in a documentation comment: the
state is `S_FENCED`, reached by two `process_line` calls. -/
theorem C39_fence_state_invariant_witness :
    process_lines sql_files Scanner.init
        ["/**".toList, " * ".toList ++ List.replicate 3 BACKTICK ++ "sql".toList]
      = some doc_fence_state
    ∧ doc_fence_state.state = STATE.S_FENCED
    ∧ doc_fence_state.state ≠ STATE.S_LINE_COMMENT
    ∧ (doc_fence_state.state = STATE.S_FENCED →
        (doc_fence_state.fence_return_state = STATE.S_CODE
          ∨ doc_fence_state.fence_return_state = STATE.S_DOXY_BLOCK_COMMENT)
        ∧ (doc_fence_state.fence_char = BACKTICK ∨ doc_fence_state.fence_char = '~')
        ∧ 3 ≤ doc_fence_state.fence_char_count ∧ 0 ≤ doc_fence_state.fence_indent) :=
  ⟨by decide!, by decide!,
    C39_fence_state_invariant sql_files
      ["/**".toList, " * ".toList ++ List.replicate 3 BACKTICK ++ "sql".toList]
      doc_fence_state (by decide!)⟩

/-- `print_string_translated` writes the escaped first `len` characters. -/
theorem print_string_translated_take :
    ∀ (str : List Char) (len : Nat),
      print_string_translated str len = (str.take len).flatMap print_char_translated
  | _, 0 => by simp [print_string_translated]
  | [], _ + 1 => by simp [print_string_translated]
  | c :: rest, len + 1 => by
    rw [print_string_translated_cons, print_string_translated_take rest len]
    simp

/-- One turn of the loop of the highlighter. -/
theorem highlight_loop_succ (idx : HLIndex) (hyphen : Bool) (fuel : Nat) (p : List Char) :
    highlight_loop idx hyphen (fuel + 1) p =
    if allowed_in_name hyphen (deref p) then
      match idx.seek_word hyphen p with
      | none => none
      | some (some tagnode) =>
        match node_tag idx.nodes tagnode with
        | none => none
        | some tag =>
          if tag.length ≠ 0 then
            match tagaction idx tagnode with
            | none => none
            | some action =>
              (highlight_loop idx hyphen fuel (p.drop tag.length)).map (fun rest =>
                print_open_element action ++ print_string_translated p tag.length
                  ++ print_close_element action ++ rest)
          else
            match p with
            | [] => some []
            | _ :: p1 => highlight_loop idx hyphen fuel p1
      | some none =>
        (highlight_loop idx hyphen fuel (p.dropWhile (allowed_in_name hyphen))).map (fun rest =>
          (p.takeWhile (allowed_in_name hyphen)).flatMap print_char_translated ++ rest)
    else
      match idx.seek_comment hyphen p with
      | none => none
      | some (some tagnode) =>
        match tagaction idx tagnode with
        | none => none
        | some action =>
          some (print_open_element action ++ print_string_translated p 2048
            ++ print_close_element action)
      | some none =>
        match p with
        | [] => some []
        | c :: p1 =>
          (highlight_loop idx hyphen fuel p1).map (fun rest => print_char_translated c ++ rest) := by
  rfl

/-- The characters the loop of the highlighter writes are the pieces of
`highlight_pieces`, each rendered, and the loop faults exactly when the record ends
with a fault. -/
theorem highlight_loop_pieces (idx : HLIndex) (hyphen : Bool) :
    ∀ (fuel : Nat) (p : List Char),
      highlight_loop idx hyphen fuel p
        = if (highlight_pieces idx hyphen fuel p).2 = true
          then some ((highlight_pieces idx hyphen fuel p).1.flatMap Piece.render) else none
  | 0, _ => by simp [highlight_loop, highlight_pieces]
  | fuel + 1, p => by
    have ih := highlight_loop_pieces idx hyphen fuel
    rw [highlight_loop_succ]
    unfold highlight_pieces highlight_turn
    by_cases ha : allowed_in_name hyphen (deref p) = true
    · simp only [ha, if_true]
      cases idx.seek_word hyphen p with
      | none => simp
      | some o =>
        cases o with
        | none =>
          simp only [ih]
          split <;> simp [Piece.render]
        | some tagnode =>
          simp only []
          cases node_tag idx.nodes tagnode with
          | none => simp
          | some tag =>
            by_cases hl : tag.length ≠ 0
            · simp only [if_pos hl]
              cases tagaction idx tagnode with
              | none => simp
              | some action =>
                simp only [ih, print_string_translated_take]
                split <;> simp [Piece.render, List.append_assoc]
            · simp only [if_neg hl]
              cases p with
              | nil => simp
              | cons c p1 => simp only [ih]
    · simp only [ha, if_false, Bool.false_eq_true]
      cases idx.seek_comment hyphen p with
      | none => simp
      | some o =>
        cases o with
        | none =>
          cases p with
          | nil => simp
          | cons c p1 =>
            simp only [ih]
            split <;> simp [Piece.render]
        | some tagnode =>
          simp only []
          cases tagaction idx tagnode with
          | none => simp
          | some action => simp [Piece.render, print_string_translated_take]

/-- The loop over an array of nodes that have tags does not fault. -/
theorem seek_loop_total (idx : HLIndex) (hyphen : Bool) (str : List Char) (is_tag : Bool) :
    ∀ l : List Nat, (∀ n ∈ l, (node_tag idx.nodes n).isSome = true) →
      ∃ r, seek_loop idx hyphen str is_tag l = some r
  | [], _ => ⟨none, rfl⟩
  | n :: rest, h => by
    unfold seek_loop
    have hn := h n (List.mem_cons_self _ _)
    cases ht : node_tag idx.nodes n with
    | none => rw [ht] at hn; cases hn
    | some c =>
      simp only []
      split
      · exact ⟨_, rfl⟩
      · exact seek_loop_total idx hyphen str is_tag rest
          (fun m hm => h m (List.mem_cons_of_mem _ hm))

/-- A node that the loop over an array returns is in the array and has a tag that
is not empty and matches at the text. -/
theorem seek_loop_match (idx : HLIndex) (hyphen : Bool) (text : List Char) (is_tag : Bool)
    (n : Nat) (l : List Nat) (h : seek_loop idx hyphen text is_tag l = some (some n)) :
    n ∈ l ∧ ∃ c, node_tag idx.nodes n = some c ∧ c ≠ []
      ∧ idx.str_match hyphen text c is_tag ≠ 0 := by
  obtain ⟨h1, c, h2, h3⟩ := seek_loop_some idx hyphen text is_tag n l h
  refine ⟨h1, c, h2, ?_, h3⟩
  intro hc
  rw [hc, str_match_nil] at h3
  exact h3 rfl

/-- A name-eligible character at the pointer: the string is not at its end. -/
theorem allowed_ne_nil (hyphen : Bool) (p : List Char)
    (h : allowed_in_name hyphen (deref p) = true) :
    ∃ c rest, p = c :: rest ∧ allowed_in_name hyphen c = true := by
  cases p with
  | nil =>
    exfalso
    revert h
    cases hyphen <;> decide
  | cons c rest => exact ⟨c, rest, rfl, h⟩

/-- With enough fuel, for an index whose set nodes have a tag and a markup class,
and a pointer with at most 2048 characters to the end, the loop of the highlighter
comes to its end and its pieces cover the rest of the line, character by
character. -/
theorem highlight_pieces_cover (idx : HLIndex) (hyphen : Bool)
    (htag : ∀ n ∈ idx.m_entries ++ idx.m_comments, (node_tag idx.nodes n).isSome = true)
    (hact : ∀ n ∈ idx.m_entries ++ idx.m_comments, (tagaction idx n).isSome = true) :
    ∀ (fuel : Nat) (p : List Char), p.length < fuel → p.length ≤ 2048 →
      (highlight_pieces idx hyphen fuel p).2 = true
      ∧ (highlight_pieces idx hyphen fuel p).1.flatMap Piece.text = p
  | 0, _, hf, _ => by omega
  | fuel + 1, p, hf, hlen => by
    have ih := highlight_pieces_cover idx hyphen htag hact fuel
    unfold highlight_pieces highlight_turn
    by_cases ha : allowed_in_name hyphen (deref p) = true
    · obtain ⟨c0, rest0, hp, hc0⟩ := allowed_ne_nil hyphen p ha
      simp only [ha, if_true]
      obtain ⟨r, hr⟩ := seek_loop_total idx hyphen p true idx.m_entries
        (fun n hn => htag n (List.mem_append_left _ hn))
      unfold HLIndex.seek_word
      rw [hr]
      cases r with
      | none =>
        simp only []
        have hd : (p.dropWhile (allowed_in_name hyphen)).length < fuel := by
          rw [hp, List.dropWhile_cons_of_pos hc0]
          have : (rest0.dropWhile (allowed_in_name hyphen)).length ≤ rest0.length :=
            (List.dropWhile_suffix _).length_le
          rw [hp] at hf
          simp only [List.length_cons] at hf
          omega
        have hd2 : (p.dropWhile (allowed_in_name hyphen)).length ≤ 2048 := by
          have : (p.dropWhile (allowed_in_name hyphen)).length ≤ p.length :=
            (List.dropWhile_suffix _).length_le
          omega
        obtain ⟨i1, i2⟩ := ih _ hd hd2
        refine ⟨i1, ?_⟩
        rw [List.flatMap_cons, i2]
        simp only [Piece.text, List.takeWhile_append_dropWhile]
      | some tagnode =>
        simp only []
        obtain ⟨hmem, c, hc, hne, hm⟩ := seek_loop_match idx hyphen p true tagnode _ hr
        rw [hc]
        simp only []
        have hl : c.length ≠ 0 := fun hh => hne (List.length_eq_zero.mp hh)
        rw [if_pos hl]
        have hsome := hact tagnode (List.mem_append_left _ hmem)
        cases hta : tagaction idx tagnode with
        | none => rw [hta] at hsome; cases hsome
        | some action =>
          simp only []
          have hd : (p.drop c.length).length < fuel := by
            rw [List.length_drop]
            rw [hp] at hf ⊢
            simp only [List.length_cons] at hf ⊢
            omega
          have hd2 : (p.drop c.length).length ≤ 2048 := by
            rw [List.length_drop]
            omega
          obtain ⟨i1, i2⟩ := ih _ hd hd2
          refine ⟨i1, ?_⟩
          rw [List.flatMap_cons, i2]
          simp only [Piece.text, List.take_append_drop]
    · simp only [ha, if_false, Bool.false_eq_true]
      obtain ⟨r, hr⟩ := seek_loop_total idx hyphen p false idx.m_comments
        (fun n hn => htag n (List.mem_append_right _ hn))
      unfold HLIndex.seek_comment
      rw [hr]
      cases r with
      | none =>
        simp only []
        cases p with
        | nil => simp
        | cons c p1 =>
          simp only []
          simp only [List.length_cons] at hf hlen
          obtain ⟨i1, i2⟩ := ih p1 (by omega) (by omega)
          refine ⟨i1, ?_⟩
          rw [List.flatMap_cons, i2]
          simp [Piece.text]
      | some tagnode =>
        simp only []
        obtain ⟨hmem, -⟩ := seek_loop_match idx hyphen p false tagnode _ hr
        have hsome := hact tagnode (List.mem_append_right _ hmem)
        cases hta : tagaction idx tagnode with
        | none => rw [hta] at hsome; cases hsome
        | some action =>
          simp only []
          refine ⟨trivial, ?_⟩
          simp [Piece.text, List.take_of_length_le hlen]

/-- The terminator is not name-eligible. -/
theorem allowed_nul (hyphen : Bool) : allowed_in_name hyphen NUL = false := by
  cases hyphen <;> decide

/-- A word tag made of name-eligible characters that matches at a text covers
characters of the text that are name-eligible, and the text goes on behind them
with a character that is not (or ends). -/
theorem word_match_run (fold hyphen : Bool) (tag text : List Char)
    (hname : ∀ c ∈ tag, allowed_in_name hyphen c = true)
    (h : word_tag_matches fold hyphen tag text = true) :
    tag.length ≤ text.length
    ∧ (∀ c ∈ text.take tag.length, allowed_in_name hyphen c = true)
    ∧ allowed_in_name hyphen (deref (text.drop tag.length)) = false := by
  unfold word_tag_matches at h
  simp only [Bool.and_eq_true, decide_eq_true_eq] at h
  obtain ⟨h1, h2⟩ := h
  have hlen : tag.length ≤ text.length := by
    have := congrArg List.length h1
    unfold folded_text at this
    split at this <;> simp only [List.length_take, List.length_map] at this <;> omega
  refine ⟨hlen, ?_, ?_⟩
  · intro c hc
    unfold folded_text at h1
    cases fold with
    | false =>
      simp only [Bool.false_eq_true, if_false] at h1
      rw [h1] at hc
      exact hname c hc
    | true =>
      simp only [if_true] at h1
      have hm : toLowerCase c ∈ tag := by
        rw [← h1, ← List.map_take]
        exact List.mem_map_of_mem _ hc
      rw [← hname _ hm]
      exact allowed_in_name_fold hyphen _ _ (toLowerCase_idem c).symm
  · cases hd : text.drop tag.length with
    | nil => exact allowed_nul hyphen
    | cons c rest =>
      rw [hd] at h2
      simpa [deref] using h2

/-- The first character behind a run of name-eligible characters is not name-eligible. -/
theorem deref_dropWhile (hyphen : Bool) (p : List Char) :
    allowed_in_name hyphen (deref (p.dropWhile (allowed_in_name hyphen))) = false := by
  induction p with
  | nil => exact allowed_nul hyphen
  | cons c rest ih =>
    by_cases hc : allowed_in_name hyphen c = true
    · rw [List.dropWhile_cons_of_pos hc]
      exact ih
    · rw [List.dropWhile_cons_of_neg hc]
      simpa [deref] using hc

/-- The words the highlighter wraps, for an index whose word tags are made of
name-eligible characters.  Let the loop stand at `p` behind the text `front`, at
the start of the line or behind a character that is not name-eligible or in front
of one.  Then every piece it wraps as a word covers a run of name-eligible
characters that is not empty, stands behind the start of the line or a character
that is not name-eligible, and is followed by the end of the line or by a
character that is not name-eligible. -/
theorem highlight_pieces_words (idx : HLIndex) (hyphen : Bool)
    (hname : ∀ n ∈ idx.m_entries, ∀ c ∈ (node_tag idx.nodes n).getD [],
      allowed_in_name hyphen c = true) :
    ∀ (fuel : Nat) (p front : List Char),
      (∀ c, front.getLast? = some c → allowed_in_name hyphen c = true →
        allowed_in_name hyphen (deref p) = false) →
      ∀ (ps1 ps2 : List Piece) (a s : List Char),
        (highlight_pieces idx hyphen fuel p).1 = ps1 ++ Piece.word a s :: ps2 →
        ∃ post, p = ps1.flatMap Piece.text ++ s ++ post
          ∧ s ≠ [] ∧ (∀ c ∈ s, allowed_in_name hyphen c = true)
          ∧ (∀ c, (front ++ ps1.flatMap Piece.text).getLast? = some c →
              allowed_in_name hyphen c = false)
          ∧ allowed_in_name hyphen (deref post) = false
  | 0, _, _, _, ps1, ps2, a, s, h => by
    simp only [highlight_pieces] at h
    cases ps1 <;> cases h
  | fuel + 1, p, front, hb, ps1, ps2, a, s, h => by
    have ih := highlight_pieces_words idx hyphen hname fuel
    unfold highlight_pieces highlight_turn at h
    by_cases ha : allowed_in_name hyphen (deref p) = true
    · have h0 : ∀ c, front.getLast? = some c → allowed_in_name hyphen c = false := by
        intro c hc
        cases hac : allowed_in_name hyphen c with
        | false => rfl
        | true =>
          have := hb c hc hac
          rw [ha] at this
          cases this
      obtain ⟨c0, rest0, hp, hc0⟩ := allowed_ne_nil hyphen p ha
      simp only [ha, if_true] at h
      cases hr : idx.seek_word hyphen p with
      | none =>
        rw [hr] at h
        cases ps1 <;> cases h
      | some o =>
        rw [hr] at h
        cases o with
        | none =>
          simp only [] at h
          cases ps1 with
          | nil => cases h
          | cons q ps1t =>
            simp only [List.cons_append, List.cons.injEq] at h
            obtain ⟨hq, hrest⟩ := h
            obtain ⟨post, e1, e2, e3, e4, e5⟩ :=
              ih (p.dropWhile (allowed_in_name hyphen))
                (front ++ p.takeWhile (allowed_in_name hyphen))
                (fun _ _ _ => deref_dropWhile hyphen p) ps1t ps2 a s hrest
            refine ⟨post, ?_, e2, e3, ?_, e5⟩
            · rw [List.flatMap_cons, ← hq]
              simp only [Piece.text, List.append_assoc]
              rw [← List.append_assoc (ps1t.flatMap Piece.text), ← e1,
                List.takeWhile_append_dropWhile]
            · rw [List.flatMap_cons, ← hq]
              simp only [Piece.text]
              rw [← List.append_assoc]
              exact e4
        | some tagnode =>
          simp only [] at h
          unfold HLIndex.seek_word at hr
          obtain ⟨hmem, c, hc, hne, hm⟩ := seek_loop_match idx hyphen p true tagnode _ hr
          rw [hc] at h
          simp only [] at h
          have hl : c.length ≠ 0 := fun hh => hne (List.length_eq_zero.mp hh)
          rw [if_pos hl] at h
          have hnm : ∀ x ∈ c, allowed_in_name hyphen x = true := by
            have := hname tagnode hmem
            rw [hc] at this
            exact this
          obtain ⟨m1, m2, m3⟩ := word_match_run idx.m_case_insensitive hyphen c p hnm
            (((str_match_ne_zero idx hyphen p c hne).1).mp hm)
          cases hta : tagaction idx tagnode with
          | none =>
            rw [hta] at h
            cases ps1 <;> cases h
          | some action =>
            rw [hta] at h
            simp only [] at h
            cases ps1 with
            | nil =>
              simp only [List.nil_append, List.cons.injEq, Piece.word.injEq] at h
              obtain ⟨⟨-, hs⟩, -⟩ := h
              refine ⟨p.drop c.length, ?_, ?_, ?_, ?_, m3⟩
              · simp only [List.flatMap_nil, List.nil_append, ← hs, List.take_append_drop]
              · rw [← hs]
                intro hh
                have := congrArg List.length hh
                rw [List.length_take, hp] at this
                simp only [List.length_cons, List.length_nil] at this
                omega
              · rw [← hs]
                exact m2
              · simpa using h0
            | cons q ps1t =>
              simp only [List.cons_append, List.cons.injEq] at h
              obtain ⟨hq, hrest⟩ := h
              obtain ⟨post, e1, e2, e3, e4, e5⟩ :=
                ih (p.drop c.length) (front ++ p.take c.length)
                  (fun _ _ _ => m3) ps1t ps2 a s hrest
              refine ⟨post, ?_, e2, e3, ?_, e5⟩
              · rw [List.flatMap_cons, ← hq]
                simp only [Piece.text, List.append_assoc]
                rw [← List.append_assoc (ps1t.flatMap Piece.text), ← e1, List.take_append_drop]
              · rw [List.flatMap_cons, ← hq]
                simp only [Piece.text]
                rw [← List.append_assoc]
                exact e4
    · simp only [ha, if_false, Bool.false_eq_true] at h
      cases hr : idx.seek_comment hyphen p with
      | none =>
        rw [hr] at h
        cases ps1 <;> cases h
      | some o =>
        rw [hr] at h
        cases o with
        | none =>
          simp only [] at h
          cases p with
          | nil =>
            simp only [] at h
            cases ps1 <;> cases h
          | cons c p1 =>
            simp only [] at h
            cases ps1 with
            | nil => cases h
            | cons q ps1t =>
              simp only [List.cons_append, List.cons.injEq] at h
              obtain ⟨hq, hrest⟩ := h
              have hcn : allowed_in_name hyphen c = false := by
                simpa [deref] using ha
              obtain ⟨post, e1, e2, e3, e4, e5⟩ :=
                ih p1 (front ++ [c]) (fun x hx hax => by
                  simp at hx
                  rw [← hx, hcn] at hax
                  cases hax) ps1t ps2 a s hrest
              refine ⟨post, ?_, e2, e3, ?_, e5⟩
              · rw [List.flatMap_cons, ← hq]
                simp only [Piece.text, List.append_assoc, List.singleton_append]
                rw [List.cons_append, ← List.append_assoc, ← e1]
              · rw [List.flatMap_cons, ← hq]
                simp only [Piece.text]
                rw [← List.append_assoc]
                exact e4
        | some tagnode =>
          simp only [] at h
          cases hta : tagaction idx tagnode with
          | none =>
            rw [hta] at h
            cases ps1 <;> cases h
          | some action =>
            rw [hta] at h
            simp only [] at h
            cases ps1 with
            | nil => cases h
            | cons q ps1t =>
              simp only [List.cons_append, List.cons.injEq] at h
              obtain ⟨-, hrest⟩ := h
              cases ps1t <;> cases hrest

/-- A run of characters that pass a test, followed by the end of the string or by
a character that does not pass, is what `takeWhile` takes. -/
theorem takeWhile_eq_take (q : Char → Bool) :
    ∀ (p : List Char) (n : Nat), n ≤ p.length → (∀ c ∈ p.take n, q c = true) →
      q (deref (p.drop n)) = false → q NUL = false → p.takeWhile q = p.take n
  | [], n, _, _, _, _ => by simp
  | c :: rest, 0, _, _, h3, _ => by
    have hc : q c = false := by simpa [deref] using h3
    simp [List.takeWhile, hc]
  | c :: rest, n + 1, h1, h2, h3, h4 => by
    have hc : q c = true := h2 c (by simp)
    rw [List.takeWhile_cons_of_pos hc, List.take_succ_cons]
    rw [takeWhile_eq_take q rest n (by simpa using h1)
      (fun d hd => h2 d (by simp [hd])) (by simpa using h3) h4]

/-- At the start of a word that no tag of the word set equals (the word folded to
lower case when the index is case-insensitive), `seek_word` finds nothing. -/
theorem seek_word_other_word (idx : HLIndex) (hyphen : Bool) (p : List Char)
    (hwf : ∀ n ∈ idx.m_entries, has_tag idx.nodes n = true)
    (hname : ∀ n ∈ idx.m_entries, ∀ c ∈ (node_tag idx.nodes n).getD [],
      allowed_in_name hyphen c = true)
    (hother : ∀ n ∈ idx.m_entries, (node_tag idx.nodes n).getD []
      ≠ folded_text idx.m_case_insensitive (p.takeWhile (allowed_in_name hyphen))) :
    idx.seek_word hyphen p = some none := by
  rw [seek_word_find idx hyphen p hwf]
  congr 1
  rw [List.find?_eq_none]
  intro n hn hm
  obtain ⟨m1, m2, m3⟩ := word_match_run idx.m_case_insensitive hyphen _ p (hname n hn) hm
  have hrun := takeWhile_eq_take (allowed_in_name hyphen) p _ m1 m2 m3 (allowed_nul hyphen)
  unfold word_tag_matches at hm
  simp only [Bool.and_eq_true, decide_eq_true_eq] at hm
  have e : ∀ k : Nat, folded_text idx.m_case_insensitive (p.take k)
      = (folded_text idx.m_case_insensitive p).take k := by
    intro k
    unfold folded_text
    split
    · rw [List.map_take]
    · rfl
  exact hother n hn (by rw [hrun, e]; exact hm.1.symm)

/-- C36: for an index whose word tags are not empty (as in every index built from
a rule file) and are made of characters that are name-eligible under the predicate
in force, and for every line: the characters the loop of the highlighter writes are
the pieces of `highlight_pieces`, rendered; every piece wrapped as a word covers
a run of name-eligible characters of the line that is not empty, stands at the start
of the line or behind a character that is not name-eligible, and is followed by the
end of the line or by a character that is not name-eligible, so it is a maximal run
(a tag inside a longer word is not wrapped); and where the loop stands at the start
of a word that no tag equals, it writes the whole word escaped, without an element,
and goes on behind the word. -/
theorem C36_wrapped_words_are_maximal_runs (idx : HLIndex) (hyphen : Bool) (line : List Char)
    (hwf : ∀ n ∈ idx.m_entries, has_tag idx.nodes n = true)
    (hname : ∀ n ∈ idx.m_entries, ∀ c ∈ (node_tag idx.nodes n).getD [],
      allowed_in_name hyphen c = true) :
    (∀ fuel, highlight_loop idx hyphen fuel line
        = if (highlight_pieces idx hyphen fuel line).2 = true
          then some ((highlight_pieces idx hyphen fuel line).1.flatMap Piece.render) else none)
    ∧ (∀ (fuel : Nat) (ps1 ps2 : List Piece) (a s : List Char),
        (highlight_pieces idx hyphen fuel line).1 = ps1 ++ Piece.word a s :: ps2 →
        ∃ post, line = ps1.flatMap Piece.text ++ s ++ post
          ∧ s ≠ [] ∧ (∀ c ∈ s, allowed_in_name hyphen c = true)
          ∧ (∀ c, (ps1.flatMap Piece.text).getLast? = some c → allowed_in_name hyphen c = false)
          ∧ allowed_in_name hyphen (deref post) = false)
    ∧ (∀ (fuel : Nat) (p : List Char), allowed_in_name hyphen (deref p) = true →
        (∀ n ∈ idx.m_entries, (node_tag idx.nodes n).getD []
          ≠ folded_text idx.m_case_insensitive (p.takeWhile (allowed_in_name hyphen))) →
        highlight_loop idx hyphen (fuel + 1) p
          = (highlight_loop idx hyphen fuel (p.dropWhile (allowed_in_name hyphen))).map
              (fun rest => (p.takeWhile (allowed_in_name hyphen)).flatMap print_char_translated
                ++ rest)) := by
  refine ⟨fun fuel => highlight_loop_pieces idx hyphen fuel line, ?_, ?_⟩
  · intro fuel ps1 ps2 a s h
    have := highlight_pieces_words idx hyphen hname fuel line [] (by simp) ps1 ps2 a s h
    simpa using this
  · intro fuel p ha hother
    rw [highlight_loop_succ, if_pos ha, seek_word_other_word idx hyphen p hwf hname hother]

/-- C36 at the index with the keyword `int` and the line `print int integer`: the
loop comes to its end, the only piece wrapped is the word `int` between the two
spaces, and the words `print` and `integer` are written plain. -/
theorem C36_wrapped_words_are_maximal_runs_witness :
    (highlight_pieces int_index false 18 "print int integer".toList)
      = ([Piece.plain "print".toList, Piece.plain " ".toList,
          Piece.word "span.keyword".toList "int".toList,
          Piece.plain " ".toList, Piece.plain "integer".toList], true)
    ∧ ∃ post, "print int integer".toList
          = [Piece.plain "print".toList, Piece.plain " ".toList].flatMap Piece.text
            ++ "int".toList ++ post
        ∧ "int".toList ≠ [] ∧ (∀ c ∈ "int".toList, allowed_in_name false c = true)
        ∧ (∀ c, ([Piece.plain "print".toList, Piece.plain " ".toList].flatMap
            Piece.text).getLast? = some c → allowed_in_name false c = false)
        ∧ allowed_in_name false (deref post) = false :=
  ⟨by decide!,
    (C36_wrapped_words_are_maximal_runs int_index false "print int integer".toList
      (by decide!) (by decide!)).2.1 18
      [Piece.plain "print".toList, Piece.plain " ".toList]
      [Piece.plain " ".toList, Piece.plain "integer".toList]
      "span.keyword".toList "int".toList (by decide!)⟩

/-- C35 (evaluation at the failing input): where the loop of the highlighter
stands at a character that is not name-eligible and `seek_comment` returns a node,
the loop ends at once; what it writes is the rest of the line (its first 2048
characters; `scan` reads lines of at most 1023), escaped, between
`print_open_element` and `print_close_element` of the markup class of the node,
when the category of the node has one, and it faults when the category has none.
For the rule file with the category line `comment` without a value and the marker
`//`, the marker is found in the line `x = 1; // int x` and the highlighter faults
there, while with the categories `keyword: span.keyword` and
`comment: span.comment` the line `int x; // int y` gets one element for `int` and
one element for the whole comment, with no element for the `int` behind the marker. -/
theorem C35_comment_to_end_of_line :
    (∀ (idx : HLIndex) (hyphen : Bool) (fuel : Nat) (p : List Char) (tagnode : Nat),
      allowed_in_name hyphen (deref p) = false →
      idx.seek_comment hyphen p = some (some tagnode) →
      highlight_loop idx hyphen (fuel + 1) p
        = (tagaction idx tagnode).map (fun action =>
            print_open_element action ++ (p.take 2048).flatMap print_char_translated
              ++ print_close_element action))
    ∧ (index_of_rules bare_comment_rule_file).m_comments = [2]
    ∧ allowed_in_name false (deref "// int x".toList) = false
    ∧ (index_of_rules bare_comment_rule_file).seek_comment false "// int x".toList
        = some (some 2)
    ∧ tagaction (index_of_rules bare_comment_rule_file) 2 = none
    ∧ print_fenced_line_with_highlighting (index_of_rules bare_comment_rule_file) false
        "x = 1; // int x".toList = none
    ∧ print_fenced_line_with_highlighting (index_of_rules mixed_rule_file) false
        "int x; // int y".toList
      = some ("  <div class=\"line\"><span class=\"keyword\">int</span> x; ".toList
          ++ "<span class=\"comment\">// int y</span></div>\n".toList) := by
  refine ⟨?_, by decide!, by decide!, by decide!, by decide!, by decide!, by decide!⟩
  intro idx hyphen fuel p tagnode ha hs
  rw [highlight_loop_succ, ha, hs]
  simp only [Bool.false_eq_true, if_false]
  cases tagaction idx tagnode with
  | none => rfl
  | some action => simp [print_string_translated_take]

/-- C38 (evaluation at the failing input): for an index whose set nodes have a tag
and a category with a markup class, and a line of at most 2048 characters,
`print_fenced_line_with_highlighting` returns; it writes the opener of the line
container, the pieces of the line rendered, and the closer, where the texts of the
pieces, in order, are the line, so that the pieces without their element tags are
the escaped line.  For the rule file in which the category `type` has no value, the
line `int x;` is written so, and the line `int x; char c;` makes the highlighter
read the missing markup class of `char`: a fault, and the closer is not written. -/
theorem C38_body_is_escaped_line :
    (∀ (idx : HLIndex) (hyphen : Bool) (line : List Char),
      (∀ n ∈ idx.m_entries ++ idx.m_comments, (node_tag idx.nodes n).isSome = true) →
      (∀ n ∈ idx.m_entries ++ idx.m_comments, (tagaction idx n).isSome = true) →
      line.length ≤ 2048 →
      ∃ pieces : List Piece, print_fenced_line_with_highlighting idx hyphen line
          = some (line_start_text ++ pieces.flatMap Piece.render ++ line_end_text)
        ∧ pieces.flatMap Piece.text = line
        ∧ pieces.flatMap (fun q => q.text.flatMap print_char_translated)
            = line.flatMap print_char_translated)
    ∧ (index_of_rules half_rule_file).m_entries = [4, 2]
    ∧ tagaction (index_of_rules half_rule_file) 2 = some "span.keyword".toList
    ∧ tagaction (index_of_rules half_rule_file) 4 = none
    ∧ print_fenced_line_with_highlighting (index_of_rules half_rule_file) false "int x;".toList
      = some "  <div class=\"line\"><span class=\"keyword\">int</span> x;</div>\n".toList
    ∧ (index_of_rules half_rule_file).seek_word false "char c;".toList = some (some 4)
    ∧ print_fenced_line_with_highlighting (index_of_rules half_rule_file) false
        "int x; char c;".toList = none := by
  refine ⟨?_, by decide!, by decide!, by decide!, by decide!, by decide!, by decide!⟩
  intro idx hyphen line htag hact hlen
  obtain ⟨h1, h2⟩ := highlight_pieces_cover idx hyphen htag hact (line.length + 1) line
    (Nat.lt_succ_self _) hlen
  refine ⟨(highlight_pieces idx hyphen (line.length + 1) line).1, ?_, h2, ?_⟩
  · unfold print_fenced_line_with_highlighting
    rw [highlight_loop_pieces, if_pos h1]
    rfl
  · rw [← List.flatMap_assoc, h2]

/-- C40 (evaluation at the failing input): for the rule file with the category line
`keyword` without a value and the keyword `int` below it, `get_index` returns an
index; its word set holds the node of `int`, whose parent is the category node,
and the value of the category node is null.  `seek_word` returns the node at the
text `int`, the markup class read for it is missing, and the highlighter faults,
also when the scanner reaches the line `int x;` of a fenced block for the language. -/
theorem C40_category_without_value :
    (get_index (fun _ => some novalue_rule_file) Scanner.init.world "c".toList).map
        (fun r => r.2.isSome) = some true
    ∧ (index_of_rules novalue_rule_file).m_entries = [2]
    ∧ (index_of_rules novalue_rule_file).nodes.map (fun n => (n.m_parent, n.m_tag))
      = [(none, some "c".toList), (some 0, some "keyword".toList), (some 1, some "int".toList)]
    ∧ (index_of_rules novalue_rule_file).nodes.map (fun n => n.m_value) = [none, none, none]
    ∧ (index_of_rules novalue_rule_file).seek_word false "int".toList = some (some 2)
    ∧ tagaction (index_of_rules novalue_rule_file) 2 = none
    ∧ print_fenced_line_with_highlighting (index_of_rules novalue_rule_file) false "int".toList
      = none
    ∧ process_lines (fun _ => some novalue_rule_file) Scanner.init
        [List.replicate 3 BACKTICK ++ "c".toList, "int x;".toList] = none := by
  refine ⟨by decide!, by decide!, by decide!, by decide!, by decide!, by decide!, by decide!,
    by decide!⟩

end FencedFilter
